import Mathlib

/-!
# The spesh optimizer (`src/spesh/optimize.c`)

A shallow embedding of the optimization pass over a spesh graph, followed by
theorems about it.

Modelling conventions
* Basic blocks live in a heap `bbs : BBRef → MVMSpeshBB`; a C pointer to a block
  is a `BBRef`, a nullable one an `Option BBRef`.
* The doubly linked instruction list `first_ins … last_ins` of a block is the
  list `ins`.
* `MVMSpeshOperand` is a C union; the embedding tags it with the member that
  was last written. Reading a member other than the tagged one is a `Trap`.
* Every function that can dereference NULL, index out of bounds or loop
  returns `Except Trap _`; loops over pointer structures take fuel.
* Signed machine integers are `Int`; the one narrowing conversion the file
  performs on them (`MVMint16`, `MVMuint8`) is written out with `%`.
-/

namespace Spesh

/-! ## Data model -/

/-- Faults that the C code can run into and that the embedding makes explicit. -/
inductive Trap where
  | nullDeref
  | outOfBounds
  | badOperand
  | outOfFuel
  deriving DecidableEq, Repr

/-- A (non-NULL) pointer to a basic block. -/
abbrev BBRef := Nat

/-- A (non-NULL) pointer to a heap object (`MVMObject *`, `MVMCollectable *`). -/
abbrev ObjRef := Nat

/-- A pointer to an `MVMString`. -/
abbrev StrRef := Nat

/-- The opcodes that `optimize.c` names, and all the others. -/
inductive MVMOpcode where
  | MVM_OP_findmeth
  | MVM_OP_sp_findmeth
  | MVM_OP_sp_getspeshslot
  | MVM_OP_istype
  | MVM_OP_const_i64
  | MVM_OP_set
  | MVM_OP_decont
  | MVM_OP_goto
  | MVM_OP_if_i
  | MVM_OP_if_s
  | MVM_OP_if_n
  | MVM_OP_if_o
  | MVM_OP_unless_i
  | MVM_OP_unless_s
  | MVM_OP_unless_n
  | MVM_OP_unless_o
  | MVM_SSA_PHI
  | MVM_OP_other (n : Nat)
  deriving DecidableEq, Repr

open MVMOpcode

/-- The value of `descriptor & MVM_operand_rw_mask` for one operand of an
opcode descriptor. -/
inductive MVMOperandRW where
  | MVM_operand_literal
  | MVM_operand_read_reg
  | MVM_operand_write_reg
  | MVM_operand_read_lex
  | MVM_operand_write_lex
  deriving DecidableEq, Repr

open MVMOperandRW

/-- An opcode descriptor (`MVMOpInfo`): opcode number, operand count, purity
flag and the read/write class of each operand. -/
structure MVMOpInfo where
  opcode : MVMOpcode
  num_operands : Nat
  pure : Bool
  operands : List MVMOperandRW
  deriving DecidableEq, Repr

/-- The union `MVMSpeshOperand`, tagged with the member that was written. -/
inductive MVMSpeshOperand where
  | reg (orig : Nat) (i : Nat)
  | lit_i16 (v : Int)
  | lit_i64 (v : Int)
  | lit_str_idx (v : Nat)
  | ins_bb (bb : BBRef)
  deriving DecidableEq, Repr

/-- An instruction: its descriptor and its operand array. -/
structure MVMSpeshIns where
  info : MVMOpInfo
  operands : List MVMSpeshOperand
  deriving DecidableEq, Repr

/-- The `value` union of a facts entry, seen through its `i64` member. -/
structure MVMSpeshFactsValue where
  i64 : Int
  deriving DecidableEq, Repr

/-- Facts about one SSA value. -/
structure MVMSpeshFacts where
  flags : Nat
  type : ObjRef
  value : MVMSpeshFactsValue
  usages : Int
  deriving DecidableEq, Repr

/-- Modelled from the spec: the fact flag constants are declared in a header
that is not part of the sources at hand; the spec only says that `flags` is a
bitset containing these four. They are taken as distinct single bits. -/
def MVM_SPESH_FACT_KNOWN_TYPE : Nat := 1

/-- Modelled from the spec: see `MVM_SPESH_FACT_KNOWN_TYPE`. -/
def MVM_SPESH_FACT_KNOWN_VALUE : Nat := 2

/-- Modelled from the spec: see `MVM_SPESH_FACT_KNOWN_TYPE`. -/
def MVM_SPESH_FACT_DECONTED : Nat := 4

/-- Modelled from the spec: see `MVM_SPESH_FACT_KNOWN_TYPE`. -/
def MVM_SPESH_FACT_TYPEOBJ : Nat := 16

/-- A basic block. `num_succ`, `num_pred` and `num_children` are the lengths of
the corresponding lists. -/
structure MVMSpeshBB where
  idx : Nat
  ins : List MVMSpeshIns
  linear_next : Option BBRef
  succ : List BBRef
  pred : List BBRef
  children : List BBRef
  deriving DecidableEq, Repr

/-- One cell of the malloc-ed spesh slot array: not yet written, or holding a
(possibly NULL) collectable pointer. -/
inductive SlotCell where
  | uninit
  | val (c : Option ObjRef)
  deriving DecidableEq, Repr

/-- The spesh graph. `spesh_slots` is `none` for a NULL array pointer and
otherwise the cells of the allocated block. -/
structure MVMSpeshGraph where
  bbs : BBRef → MVMSpeshBB
  entry : BBRef
  num_bbs : Int
  facts : Nat → Nat → MVMSpeshFacts
  strings : Nat → StrRef
  spesh_slots : Option (List SlotCell)
  num_spesh_slots : Int
  alloc_spesh_slots : Int

/-- What the pass consults through the thread context: the opcode table and the
two cache-only oracles of the object model. None of them is defined in
`optimize.c`, so they are parameters of the embedding. -/
structure MVMThreadContext where
  MVM_op_get_op : MVMOpcode → MVMOpInfo
  MVM_6model_find_method_cache_only : ObjRef → StrRef → Option ObjRef
  MVM_6model_try_cache_type_check : ObjRef → ObjRef → Option Int

/-! ## Helpers of the embedding -/

/-- Conversion of an integer to `MVMint16` (two's complement wrap-around). -/
def toMVMint16 (n : Int) : Int := (n + 32768) % 65536 - 32768

/-- Conversion of an integer to `MVMuint8`. -/
def toMVMuint8 (n : Int) : Int := n % 256

/-- The array element `a[i]`, or a trap when `i` is outside the array. -/
def readAt {α : Type} (a : List α) (i : Nat) : Except Trap α :=
  match a[i]? with
  | some x => .ok x
  | none => .error .outOfBounds

/-- The assignment `a[i] = x`, or a trap when `i` is outside the array. -/
def writeAt {α : Type} (a : List α) (i : Nat) (x : α) : Except Trap (List α) :=
  if i < a.length then .ok (a.set i x) else .error .outOfBounds

/-- The effect of `malloc`/`realloc` to `n` cells: the old cells that fit are
kept, the new ones are not initialised; a negative size fails (NULL). -/
def resizeCells (old : Option (List SlotCell)) (n : Int) : Option (List SlotCell) :=
  if n < 0 then none
  else
    let o := (old.getD []).take n.toNat
    some (o ++ List.replicate (n.toNat - o.length) SlotCell.uninit)

/-- Update of one facts entry (a store through a `MVMSpeshFacts *`). -/
def setFacts (facts : Nat → Nat → MVMSpeshFacts) (orig i : Nat) (f : MVMSpeshFacts) :
    Nat → Nat → MVMSpeshFacts :=
  fun o j => if o = orig ∧ j = i then f else facts o j

/-- The statement `p->usages--` for `p = &g->facts[orig][i]`. -/
def decUsages (g : MVMSpeshGraph) (r : Nat × Nat) : MVMSpeshGraph :=
  let f := g.facts r.1 r.2
  { g with facts := setFacts g.facts r.1 r.2 { f with usages := f.usages - 1 } }

/-- Update of one block of the heap. -/
def setBB (bbs : BBRef → MVMSpeshBB) (b : BBRef) (x : MVMSpeshBB) : BBRef → MVMSpeshBB :=
  fun p => if p = b then x else bbs p

/-! ## `optimize.c` -/

/-- Source `get_facts`: the address `&g->facts[o.reg.orig][o.reg.i]`, as the
pair of indices. The operand must exist and be a register. -/
def get_facts (o : Option MVMSpeshOperand) : Except Trap (Nat × Nat) :=
  match o with
  | some (.reg orig i) => .ok (orig, i)
  | some _ => .error .badOperand
  | none => .error .outOfBounds

/-- Source `get_string`: `g->sf->body.cu->body.strings[o.lit_str_idx]`. -/
def get_string (g : MVMSpeshGraph) (o : Option MVMSpeshOperand) : Except Trap StrRef :=
  match o with
  | some (.lit_str_idx k) => .ok (g.strings k)
  | some _ => .error .badOperand
  | none => .error .outOfBounds

/-- The member `ins_bb` of an operand (a branch target). -/
def get_ins_bb (o : Option MVMSpeshOperand) : Except Trap BBRef :=
  match o with
  | some (.ins_bb t) => .ok t
  | some _ => .error .badOperand
  | none => .error .outOfBounds

/-- Source `add_spesh_slot`: grows the array by 8 cells when it is full, stores
`c` at index `num_spesh_slots`, and returns the old `num_spesh_slots`
converted to the return type `MVMint16`. -/
def add_spesh_slot (g : MVMSpeshGraph) (c : Option ObjRef) : Except Trap (Int × MVMSpeshGraph) :=
  let g1 : MVMSpeshGraph :=
    if g.num_spesh_slots ≥ g.alloc_spesh_slots then
      { g with
        alloc_spesh_slots := g.alloc_spesh_slots + 8
        spesh_slots := resizeCells g.spesh_slots (g.alloc_spesh_slots + 8) }
    else g
  match g1.spesh_slots with
  | none => .error .nullDeref
  | some cells =>
    if g1.num_spesh_slots < 0 then .error .outOfBounds
    else do
      let cells' ← writeAt cells g1.num_spesh_slots.toNat (SlotCell.val c)
      .ok (toMVMint16 g1.num_spesh_slots,
        { g1 with spesh_slots := some cells', num_spesh_slots := g1.num_spesh_slots + 1 })

/-- Modelled from the spec: `MVM_spesh_manipulate_remove_successor` is not in
the sources at hand. The spec says it "edits `succ`/`pred` lists and counts on
both endpoints": `succ` leaves the successor list of `bb`, and `bb` leaves the
predecessor list of `succ`. Both blocks are dereferenced, so a NULL `succ` is a
trap. -/
def MVM_spesh_manipulate_remove_successor (g : MVMSpeshGraph) (bb : BBRef)
    (succ : Option BBRef) : Except Trap MVMSpeshGraph :=
  match succ with
  | none => .error .nullDeref
  | some s =>
    let b := g.bbs bb
    let bbs1 := setBB g.bbs bb { b with succ := b.succ.erase s }
    let sb := bbs1 s
    .ok { g with bbs := setBB bbs1 s { sb with pred := sb.pred.erase bb } }

/-- Modelled from the spec: `MVM_spesh_manipulate_delete_ins` is not in the
sources at hand. The spec says it "unlinks from the intra-block list, updates
`first_ins`/`last_ins`, does NOT recursively decrement operand usages". A walk
over the instruction list gets `none` in the place of an unlinked instruction
and so drops it from the list; the `next`/`prev` of the unlinked instruction
still lead to its old neighbours. -/
def MVM_spesh_manipulate_delete_ins (_ins : MVMSpeshIns) : Option MVMSpeshIns := none

/-- Source `optimize_method_lookup`. -/
def optimize_method_lookup (tc : MVMThreadContext) (g : MVMSpeshGraph) (ins : MVMSpeshIns) :
    Except Trap (MVMSpeshGraph × MVMSpeshIns) := do
  let obj_facts ← get_facts ins.operands[1]?
  let resolved : Option (MVMSpeshGraph × MVMSpeshIns) ←
    if (g.facts obj_facts.1 obj_facts.2).flags &&& MVM_SPESH_FACT_KNOWN_TYPE ≠ 0 then do
      let name ← get_string g ins.operands[2]?
      match tc.MVM_6model_find_method_cache_only (g.facts obj_facts.1 obj_facts.2).type name with
      | some meth => do
        let (ss, g1) ← add_spesh_slot g (some meth)
        let r ← get_facts ins.operands[1]?
        let g2 := decUsages g1 r
        let ops ← writeAt ins.operands 1 (.lit_i16 ss)
        Except.ok (some (g2, { info := tc.MVM_op_get_op MVM_OP_sp_getspeshslot, operands := ops }))
      | none => Except.ok none
    else Except.ok none
  match resolved with
  | some r => Except.ok r
  | none => do
    let orig_o := ins.operands
    if orig_o.length < 3 then Except.error Trap.outOfBounds
    else do
      let (k, g1) ← add_spesh_slot g none
      let (_, g2) ← add_spesh_slot g1 none
      Except.ok (g2, { info := tc.MVM_op_get_op MVM_OP_sp_findmeth,
                       operands := orig_o.take 3 ++ [.lit_i16 k] })

/-- Source `optimize_istype`. The two facts pointers are computed first and
dereferenced in the order of the `&&`. -/
def optimize_istype (tc : MVMThreadContext) (g : MVMSpeshGraph) (ins : MVMSpeshIns) :
    Except Trap (MVMSpeshGraph × MVMSpeshIns) := do
  let obj_facts := get_facts ins.operands[1]?
  let type_facts := get_facts ins.operands[2]?
  let t ← type_facts
  if (g.facts t.1 t.2).flags &&& MVM_SPESH_FACT_KNOWN_TYPE ≠ 0 then do
    let o ← obj_facts
    if (g.facts o.1 o.2).flags &&& MVM_SPESH_FACT_KNOWN_TYPE ≠ 0 then
      match tc.MVM_6model_try_cache_type_check (g.facts o.1 o.2).type (g.facts t.1 t.2).type with
      | none => Except.ok (g, ins)
      | some result => do
        let r ← get_facts ins.operands[0]?
        let f0 := g.facts r.1 r.2
        let fa := { f0 with flags := f0.flags ||| MVM_SPESH_FACT_KNOWN_VALUE }
        let g1 := { g with facts := setFacts g.facts r.1 r.2 fa }
        let ops ← writeAt ins.operands 1 (.lit_i64 result)
        let f1 := g1.facts r.1 r.2
        let g2 := { g1 with facts := setFacts g1.facts r.1 r.2 { f1 with value := { i64 := result } } }
        let g3 := decUsages g2 o
        let g4 := decUsages g3 t
        Except.ok (g4, { info := tc.MVM_op_get_op MVM_OP_const_i64, operands := ops })
    else Except.ok (g, ins)
  else Except.ok (g, ins)

/-- Source `optimize_set`. -/
def optimize_set (g : MVMSpeshGraph) (ins : MVMSpeshIns) : Except Trap MVMSpeshGraph := do
  let dst_facts := get_facts ins.operands[0]?
  let s ← get_facts ins.operands[1]?
  let g1 ←
    if (g.facts s.1 s.2).flags &&& MVM_SPESH_FACT_KNOWN_TYPE ≠ 0 then do
      let d ← dst_facts
      let f := g.facts d.1 d.2
      let fa := { f with flags := f.flags ||| MVM_SPESH_FACT_KNOWN_TYPE }
      let ga := { g with facts := setFacts g.facts d.1 d.2 fa }
      let fb := ga.facts d.1 d.2
      Except.ok { ga with facts := setFacts ga.facts d.1 d.2 { fb with type := (ga.facts s.1 s.2).type } }
    else Except.ok g
  if (g1.facts s.1 s.2).flags &&& MVM_SPESH_FACT_KNOWN_VALUE ≠ 0 then do
    let d ← dst_facts
    let f := g1.facts d.1 d.2
    let fa := { f with flags := f.flags ||| MVM_SPESH_FACT_KNOWN_VALUE }
    let ga := { g1 with facts := setFacts g1.facts d.1 d.2 fa }
    let fb := ga.facts d.1 d.2
    Except.ok { ga with facts := setFacts ga.facts d.1 d.2 { fb with value := (ga.facts s.1 s.2).value } }
  else Except.ok g1

/-- The first `switch` of `optimize_iffy`: `negated_op`, or `none` for the
`default: return`. -/
def iffy_negated_op (op : MVMOpcode) : Option Int :=
  match op with
  | MVM_OP_if_i | MVM_OP_if_s | MVM_OP_if_n | MVM_OP_if_o => some 0
  | MVM_OP_unless_i | MVM_OP_unless_s | MVM_OP_unless_n | MVM_OP_unless_o => some 1
  | _ => none

/-- The second `switch` of `optimize_iffy`: the assignment
`truthvalue = flag_facts->value.i64` to an `MVMuint8`, or `none` for the
`default: return`. -/
def iffy_truthvalue (op : MVMOpcode) (f : MVMSpeshFacts) : Option Int :=
  match op with
  | MVM_OP_if_i | MVM_OP_unless_i => some (toMVMuint8 f.value.i64)
  | _ => none

/-- Source `optimize_iffy`. The result holds the graph and what became of the
instruction (`none` when it was deleted). -/
def optimize_iffy (tc : MVMThreadContext) (g : MVMSpeshGraph) (ins : MVMSpeshIns) (bb : BBRef) :
    Except Trap (MVMSpeshGraph × Option MVMSpeshIns) :=
  let flag_facts := get_facts ins.operands[0]?
  match iffy_negated_op ins.info.opcode with
  | none => Except.ok (g, some ins)
  | some negated_op => do
    let f ← flag_facts
    if (g.facts f.1 f.2).flags &&& MVM_SPESH_FACT_KNOWN_VALUE ≠ 0 then
      match iffy_truthvalue ins.info.opcode (g.facts f.1 f.2) with
      | none => Except.ok (g, some ins)
      | some truthvalue =>
        if truthvalue ≠ negated_op then do
          let o1 ← readAt ins.operands 1
          let ops ← writeAt ins.operands 0 o1
          let g1 ← MVM_spesh_manipulate_remove_successor g bb (g.bbs bb).linear_next
          Except.ok (g1, some { info := tc.MVM_op_get_op MVM_OP_goto, operands := ops })
        else do
          let target ← get_ins_bb ins.operands[1]?
          let g1 ← MVM_spesh_manipulate_remove_successor g bb (some target)
          Except.ok (g1, MVM_spesh_manipulate_delete_ins ins)
    else Except.ok (g, some ins)

/-- Source `optimize_decont`. -/
def optimize_decont (tc : MVMThreadContext) (g : MVMSpeshGraph) (ins : MVMSpeshIns) :
    Except Trap MVMSpeshIns := do
  let o ← get_facts ins.operands[1]?
  if (g.facts o.1 o.2).flags &&& (MVM_SPESH_FACT_DECONTED ||| MVM_SPESH_FACT_TYPEOBJ) ≠ 0 then
    Except.ok { ins with info := tc.MVM_op_get_op MVM_OP_set }
  else Except.ok ins

/-- The body of the forward loop of `optimize_bb` for one instruction: the
`switch` over the opcode. -/
def optimize_bb_forward_ins (tc : MVMThreadContext) (g : MVMSpeshGraph) (bb : BBRef)
    (ins : MVMSpeshIns) : Except Trap (MVMSpeshGraph × Option MVMSpeshIns) :=
  match ins.info.opcode with
  | MVM_OP_findmeth => do
    let (g1, i1) ← optimize_method_lookup tc g ins
    Except.ok (g1, some i1)
  | MVM_OP_decont => do
    let i1 ← optimize_decont tc g ins
    Except.ok (g, some i1)
  | MVM_OP_istype => do
    let (g1, i1) ← optimize_istype tc g ins
    Except.ok (g1, some i1)
  | MVM_OP_set => do
    let g1 ← optimize_set g ins
    Except.ok (g1, some ins)
  | MVM_OP_if_i | MVM_OP_unless_i => optimize_iffy tc g ins bb
  | _ => Except.ok (g, some ins)

/-- The forward loop of `optimize_bb` (`ins = bb->first_ins; while (ins) …
ins = ins->next`) over the instructions that are still to be visited. It
returns the graph and the instructions that are left in the list. -/
def optimize_bb_forward (tc : MVMThreadContext) (bb : BBRef) :
    MVMSpeshGraph → List MVMSpeshIns → Except Trap (MVMSpeshGraph × List MVMSpeshIns)
  | g, [] => Except.ok (g, [])
  | g, ins :: rest => do
    let (g1, r) ← optimize_bb_forward_ins tc g bb ins
    let (g2, rest1) ← optimize_bb_forward tc bb g1 rest
    Except.ok (g2, match r with
      | some i => i :: rest1
      | none => rest1)

/-- The loops `for (i = 1; i < ins->info->num_operands; i++)` of the reverse
pass, over the indices that are still to be visited: `usages--` on operand
`i`, for a PHI always and otherwise when the descriptor says read register. -/
def propagate_non_usage (phi : Bool) (ins : MVMSpeshIns) :
    MVMSpeshGraph → List Nat → Except Trap MVMSpeshGraph
  | g, [] => Except.ok g
  | g, i :: is =>
    if phi ∨ ins.info.operands.getD i MVM_operand_literal = MVM_operand_read_reg then do
      let r ← get_facts ins.operands[i]?
      propagate_non_usage phi ins (decUsages g r) is
    else propagate_non_usage phi ins g is

/-- The body of the reverse loop of `optimize_bb` for one instruction. -/
def optimize_bb_reverse_ins (g : MVMSpeshGraph) (ins : MVMSpeshIns) :
    Except Trap (MVMSpeshGraph × Option MVMSpeshIns) :=
  if ins.info.opcode = MVM_SSA_PHI then do
    let facts ← get_facts ins.operands[0]?
    if (g.facts facts.1 facts.2).usages = 0 then do
      let g1 ← propagate_non_usage true ins g (List.range' 1 (ins.info.num_operands - 1))
      Except.ok (g1, MVM_spesh_manipulate_delete_ins ins)
    else Except.ok (g, some ins)
  else if ins.info.pure then
    if ins.info.operands.getD 0 MVM_operand_literal = MVM_operand_write_reg then do
      let facts ← get_facts ins.operands[0]?
      if (g.facts facts.1 facts.2).usages = 0 then do
        let g1 ← propagate_non_usage false ins g (List.range' 1 (ins.info.num_operands - 1))
        Except.ok (g1, MVM_spesh_manipulate_delete_ins ins)
      else Except.ok (g, some ins)
    else Except.ok (g, some ins)
  else Except.ok (g, some ins)

/-- The reverse loop of `optimize_bb` (`ins = bb->last_ins; while (ins) …
ins = prev`). The second argument lists the instructions still to be visited,
last one first; the third collects the instructions that stay. -/
def optimize_bb_reverse :
    MVMSpeshGraph → List MVMSpeshIns → List MVMSpeshIns →
      Except Trap (MVMSpeshGraph × List MVMSpeshIns)
  | g, [], kept => Except.ok (g, kept)
  | g, ins :: prevs, kept => do
    let (g1, r) ← optimize_bb_reverse_ins g ins
    optimize_bb_reverse g1 prevs (match r with
      | some i => i :: kept
      | none => kept)

/-- The loop over `bb->children` of `optimize_bb`, given the recursive call. -/
def optimize_children (rec_bb : MVMSpeshGraph → BBRef → Except Trap MVMSpeshGraph) :
    MVMSpeshGraph → List BBRef → Except Trap MVMSpeshGraph
  | g, [] => Except.ok g
  | g, c :: cs => do
    let g1 ← rec_bb g c
    optimize_children rec_bb g1 cs

/-- Source `optimize_bb`. The fuel bounds the depth of the recursion over the
dominator tree. -/
def optimize_bb (tc : MVMThreadContext) : Nat → MVMSpeshGraph → BBRef → Except Trap MVMSpeshGraph
  | 0, _, _ => Except.error Trap.outOfFuel
  | fuel + 1, g, bb => do
    let (g1, insns) ← optimize_bb_forward tc bb g (g.bbs bb).ins
    let g2 := { g1 with bbs := setBB g1.bbs bb { g1.bbs bb with ins := insns } }
    let g3 ← optimize_children (optimize_bb tc fuel) g2 (g2.bbs bb).children
    let (g4, kept) ← optimize_bb_reverse g3 (g3.bbs bb).ins.reverse []
    Except.ok { g4 with bbs := setBB g4.bbs bb { g4.bbs bb with ins := kept } }

/-- The call `memset(seen, 0, n)` on the array `seen`. -/
def memset_zero (seen : List Bool) (n : Int) : Except Trap (List Bool) :=
  if n < 0 ∨ (seen.length : Int) < n then .error .outOfBounds
  else .ok (List.replicate n.toNat false ++ seen.drop n.toNat)

/-- The loop `for (i = 0; i < cur_bb->num_succ; i++) seen[cur_bb->succ[i]->idx] = 1`
of `eliminate_dead`, over the successors still to be visited. -/
def mark_succ (bbs : BBRef → MVMSpeshBB) : List Bool → List BBRef → Except Trap (List Bool)
  | seen, [] => .ok seen
  | seen, s :: ss => do
    let seen1 ← writeAt seen (bbs s).idx true
    mark_succ bbs seen1 ss

/-- The first inner loop of `eliminate_dead`: `while (cur_bb) { …;
cur_bb = cur_bb->linear_next; }`. -/
def mark_loop (bbs : BBRef → MVMSpeshBB) : Nat → List Bool → Option BBRef → Except Trap (List Bool)
  | _, seen, none => .ok seen
  | 0, _, some _ => .error .outOfFuel
  | fuel + 1, seen, some cur_bb => do
    let seen1 ← mark_succ bbs seen (bbs cur_bb).succ
    mark_loop bbs fuel seen1 (bbs cur_bb).linear_next

/-- The second inner loop of `eliminate_dead`: `while (cur_bb->linear_next)
{ if (!seen[cur_bb->linear_next->idx]) { … } cur_bb = cur_bb->linear_next; }`.
The loop test dereferences `cur_bb`, so a NULL `cur_bb` is a trap. The result
holds the graph and `death`. -/
def remove_loop (seen : List Bool) :
    Nat → MVMSpeshGraph → Bool → Option BBRef → Except Trap (MVMSpeshGraph × Bool)
  | _, _, _, none => .error .nullDeref
  | 0, _, _, some _ => .error .outOfFuel
  | fuel + 1, g, death, some cur_bb =>
    match (g.bbs cur_bb).linear_next with
    | none => .ok (g, death)
    | some next => do
      let s ← readAt seen (g.bbs next).idx
      if !s then
        let c := g.bbs cur_bb
        let c1 := { c with linear_next := (g.bbs next).linear_next }
        let g1 := { g with bbs := setBB g.bbs cur_bb c1, num_bbs := g.num_bbs - 1 }
        remove_loop seen fuel g1 true (g1.bbs cur_bb).linear_next
      else remove_loop seen fuel g death (g.bbs cur_bb).linear_next

/-- The loop `while (death) { … }` of `eliminate_dead`. The first argument is
the fuel handed to each inner loop, the second bounds the number of rounds. -/
def eliminate_dead_rounds (fuel : Nat) :
    Nat → MVMSpeshGraph → List Bool → Except Trap MVMSpeshGraph
  | 0, _, _ => .error .outOfFuel
  | rounds + 1, g, seen => do
    let seen1 ← memset_zero seen g.num_bbs
    let seen2 ← writeAt seen1 0 true
    let seen3 ← mark_loop g.bbs fuel seen2 (some g.entry)
    let (g1, death) ← remove_loop seen3 fuel g false (some g.entry)
    if death then eliminate_dead_rounds fuel rounds g1 seen3 else .ok g1

/-- The renumbering loop of `eliminate_dead`: `while (cur_bb) { cur_bb->idx =
new_idx; new_idx++; cur_bb = cur_bb->linear_next; }`. -/
def renumber (fuel : Nat) (bbs : BBRef → MVMSpeshBB) (new_idx : Nat) (cur_bb : Option BBRef) :
    Except Trap (BBRef → MVMSpeshBB) :=
  match fuel, cur_bb with
  | _, none => .ok bbs
  | 0, some _ => .error .outOfFuel
  | fuel + 1, some cur =>
    let c := bbs cur
    let bbs1 := setBB bbs cur { c with idx := new_idx }
    renumber fuel bbs1 (new_idx + 1) (bbs1 cur).linear_next

/-- Source `eliminate_dead`. `malloc(g->num_bbs)` gives an array of `num_bbs`
cells (the first `memset` covers all of them); a negative size makes `malloc`
fail and the `memset` trap. -/
def eliminate_dead (fuel : Nat) (g : MVMSpeshGraph) : Except Trap MVMSpeshGraph :=
  if g.num_bbs < 0 then .error .nullDeref
  else do
    let seen := List.replicate g.num_bbs.toNat false
    let orig_bbs := g.num_bbs
    let g1 ← eliminate_dead_rounds fuel fuel g seen
    if g1.num_bbs ≠ orig_bbs then do
      let bbs1 ← renumber fuel g1.bbs 0 (some g1.entry)
      .ok { g1 with bbs := bbs1 }
    else .ok g1

/-- Source `MVM_spesh_optimize`. -/
def MVM_spesh_optimize (tc : MVMThreadContext) (fuel : Nat) (g : MVMSpeshGraph) :
    Except Trap MVMSpeshGraph := do
  let g1 ← optimize_bb tc fuel g g.entry
  eliminate_dead fuel g1

/-! ## Notions used to state the properties -/

/-- A well-formed slot table: `num_spesh_slots` entries are in use, within the
`alloc_spesh_slots` cells of the allocated array (a NULL array has no cells). -/
def SlotsWF (g : MVMSpeshGraph) : Prop :=
  0 ≤ g.num_spesh_slots ∧ g.num_spesh_slots ≤ g.alloc_spesh_slots ∧
    ((g.spesh_slots.getD []).length : Int) = g.alloc_spesh_slots

instance (g : MVMSpeshGraph) : Decidable (SlotsWF g) := by
  unfold SlotsWF; infer_instance

/-- The cell `g->spesh_slots[j]`, when the array has one. -/
def slotAt (g : MVMSpeshGraph) (j : Nat) : Option SlotCell := (g.spesh_slots.getD [])[j]?

/-- A sequence of calls of `add_spesh_slot`, one for each element of the list. -/
def add_spesh_slot_seq : MVMSpeshGraph → List (Option ObjRef) → Except Trap MVMSpeshGraph
  | g, [] => .ok g
  | g, c :: cs => do
    let (_, g1) ← add_spesh_slot g c
    add_spesh_slot_seq g1 cs

/-- A graph whose slot table is full: 8 entries in 8 cells. -/
def gSlots8 : MVMSpeshGraph where
  bbs := fun _ => ⟨0, [], none, [], [], []⟩
  entry := 0
  num_bbs := 1
  facts := fun _ _ => ⟨0, 0, ⟨0⟩, 0⟩
  strings := fun _ => 0
  spesh_slots := some (List.replicate 8 (SlotCell.val (some 7)))
  num_spesh_slots := 8
  alloc_spesh_slots := 8

/-- Modelled from the spec: the opcode table is not part of the sources at
hand. The operand layouts are the ones the spec gives (`findmeth dst, obj,
name_idx`; `sp_findmeth dst, obj, name_idx, cache_slot_index`; `sp_getspeshslot
dst, slot_index`; `istype dst, obj, type`; `const_i64 dst, lit_i64`; `set dst,
src`; `decont dst, obj`; `goto target`; `if_i`/`unless_i flag, target`), with
`dst` a write register, the other registers read registers and the rest
literals. `MVM_OP_other 0` stands for the pure `add_i dst, a, b` of the spec's
scenario 5. This table is used for concrete graphs only. -/
def specOpTable : MVMOpcode → MVMOpInfo
  | MVM_OP_findmeth =>
    ⟨MVM_OP_findmeth, 3, false, [MVM_operand_write_reg, MVM_operand_read_reg, MVM_operand_literal]⟩
  | MVM_OP_sp_findmeth =>
    ⟨MVM_OP_sp_findmeth, 4, false,
      [MVM_operand_write_reg, MVM_operand_read_reg, MVM_operand_literal, MVM_operand_literal]⟩
  | MVM_OP_sp_getspeshslot =>
    ⟨MVM_OP_sp_getspeshslot, 2, true, [MVM_operand_write_reg, MVM_operand_literal]⟩
  | MVM_OP_istype =>
    ⟨MVM_OP_istype, 3, true, [MVM_operand_write_reg, MVM_operand_read_reg, MVM_operand_read_reg]⟩
  | MVM_OP_const_i64 => ⟨MVM_OP_const_i64, 2, true, [MVM_operand_write_reg, MVM_operand_literal]⟩
  | MVM_OP_set => ⟨MVM_OP_set, 2, true, [MVM_operand_write_reg, MVM_operand_read_reg]⟩
  | MVM_OP_decont => ⟨MVM_OP_decont, 2, false, [MVM_operand_write_reg, MVM_operand_read_reg]⟩
  | MVM_OP_goto => ⟨MVM_OP_goto, 1, false, [MVM_operand_literal]⟩
  | MVM_OP_if_i => ⟨MVM_OP_if_i, 2, false, [MVM_operand_read_reg, MVM_operand_literal]⟩
  | MVM_OP_unless_i => ⟨MVM_OP_unless_i, 2, false, [MVM_operand_read_reg, MVM_operand_literal]⟩
  | MVM_OP_other 0 =>
    ⟨MVM_OP_other 0, 3, true, [MVM_operand_write_reg, MVM_operand_read_reg, MVM_operand_read_reg]⟩
  | op => ⟨op, 0, false, []⟩

/-- A thread context whose method cache knows one method, object 9, for every
type and name, and whose type-check cache answers 1 for every pair. -/
def tcResolve : MVMThreadContext :=
  ⟨specOpTable, fun _ _ => some 9, fun _ _ => some 1⟩

/-- A thread context whose caches know nothing. -/
def tcUnknown : MVMThreadContext :=
  ⟨specOpTable, fun _ _ => none, fun _ _ => none⟩

/-- The instruction `findmeth r(1,0), r(0,0), "string 0"`. -/
def insFindmeth : MVMSpeshIns :=
  ⟨specOpTable MVM_OP_findmeth, [.reg 1 0, .reg 0 0, .lit_str_idx 0]⟩

/-- A graph with an empty block, in which every register has a known type
(object 5) and one usage, and whose slot table holds `n` entries in `n`
cells. -/
def gSlotsN (n : Nat) : MVMSpeshGraph where
  bbs := fun _ => ⟨0, [], none, [], [], []⟩
  entry := 0
  num_bbs := 1
  facts := fun _ _ => ⟨MVM_SPESH_FACT_KNOWN_TYPE, 5, ⟨0⟩, 1⟩
  strings := fun _ => 0
  spesh_slots := some (List.replicate n (SlotCell.val none))
  num_spesh_slots := n
  alloc_spesh_slots := n

/-- The graph that the folding path of `optimize_istype` leaves. -/
def istype_folded (g : MVMSpeshGraph) (d di oo oi ty ti : Nat) (r : Int) : MVMSpeshGraph :=
  let f0 := g.facts d di
  let fa := { f0 with flags := f0.flags ||| MVM_SPESH_FACT_KNOWN_VALUE }
  let g1 := { g with facts := setFacts g.facts d di fa }
  let f1 := g1.facts d di
  let g2 := { g1 with facts := setFacts g1.facts d di { f1 with value := { i64 := r } } }
  decUsages (decUsages g2 (oo, oi)) (ty, ti)

/-- The instruction `istype r(2,0), r(0,0), r(0,0)`. -/
def insIstype : MVMSpeshIns :=
  ⟨specOpTable MVM_OP_istype, [.reg 2 0, .reg 0 0, .reg 0 0]⟩

/-- Whether the reverse pass of `optimize_bb`, when it deletes `ins`, takes a
usage for operand `j`: always for a PHI, otherwise when the descriptor of the
operand says read register. -/
def takesUsage (phi : Bool) (ins : MVMSpeshIns) (j : Nat) : Bool :=
  phi || decide (ins.info.operands.getD j MVM_operand_literal = MVM_operand_read_reg)

/-- The number of operands among the indices `js` of `ins` that are the
register `(o, i)` and for which a usage is taken. -/
def usagesTaken (phi : Bool) (ins : MVMSpeshIns) (js : List Nat) (o i : Nat) : Nat :=
  js.countP (fun j => takesUsage phi ins j && decide (ins.operands[j]? = some (.reg o i)))

/-- The graph `g` with `n o i` usages taken from each facts entry `(o, i)`. -/
def withUsagesTaken (g : MVMSpeshGraph) (n : Nat → Nat → Nat) : MVMSpeshGraph :=
  { g with facts := fun o i =>
      let f := g.facts o i
      { f with usages := f.usages - (n o i : Int) } }

/-- The condition under which the reverse pass deletes `ins`, whose operand 0
is the register `(d, di)`. -/
def deadIns (g : MVMSpeshGraph) (ins : MVMSpeshIns) (d di : Nat) : Prop :=
  (ins.info.opcode = MVM_SSA_PHI ∧ (g.facts d di).usages = 0) ∨
  (ins.info.opcode ≠ MVM_SSA_PHI ∧ ins.info.pure = true ∧
    ins.info.operands.getD 0 MVM_operand_literal = MVM_operand_write_reg ∧
    (g.facts d di).usages = 0)

instance (g : MVMSpeshGraph) (ins : MVMSpeshIns) (d di : Nat) : Decidable (deadIns g ins d di) := by
  unfold deadIns; infer_instance

/-- Whether an operand slot holds a register. -/
def isReg (o : Option MVMSpeshOperand) : Bool :=
  match o with
  | some (.reg _ _) => true
  | _ => false

/-- The graph in which every register has one usage and no flags, except
`r(5,0)`, which has no usage. -/
def gAdd : MVMSpeshGraph where
  bbs := fun _ => ⟨0, [], none, [], [], []⟩
  entry := 0
  num_bbs := 1
  facts := fun o _ => if o = 5 then ⟨0, 0, ⟨0⟩, 0⟩ else ⟨0, 0, ⟨0⟩, 1⟩
  strings := fun _ => 0
  spesh_slots := none
  num_spesh_slots := 0
  alloc_spesh_slots := 0

/-- The pure instruction `add_i r(5,0), r(3,0), r(4,0)`. -/
def insAdd : MVMSpeshIns :=
  ⟨specOpTable (MVM_OP_other 0), [.reg 5 0, .reg 3 0, .reg 4 0]⟩

/-- The blocks of a `linear_next` chain: `IsChain bbs p l` says that following
`linear_next` from the pointer `p` visits exactly the blocks of `l`, in order,
and then reaches NULL. -/
def IsChain (bbs : BBRef → MVMSpeshBB) : Option BBRef → List BBRef → Prop
  | p, [] => p = none
  | p, b :: l => p = some b ∧ IsChain bbs (bbs b).linear_next l

instance decIsChain (bbs : BBRef → MVMSpeshBB) :
    (p : Option BBRef) → (l : List BBRef) → Decidable (IsChain bbs p l)
  | p, [] => by unfold IsChain; infer_instance
  | p, b :: l =>
    have := decIsChain bbs (bbs b).linear_next l
    by unfold IsChain; infer_instance

/-- Reachability along `succ` edges. -/
def Reach (bbs : BBRef → MVMSpeshBB) (a b : BBRef) : Prop :=
  Relation.ReflTransGen (fun x y => y ∈ (bbs x).succ) a b

/-- The cell `seen[k]` holds 1. -/
def isSeen (seen : List Bool) (k : Nat) : Prop := seen[k]? = some true

/-- Two block records that differ at most in `linear_next`. -/
def SameButNext (x y : MVMSpeshBB) : Prop :=
  x.idx = y.idx ∧ x.ins = y.ins ∧ x.succ = y.succ ∧ x.pred = y.pred ∧ x.children = y.children

/-- The number of read-register operands of `ins` that refer to `(o, i)`:
among the first `num_operands` operands, those whose descriptor says read
register (for a PHI, all but operand 0). -/
def insReads (ins : MVMSpeshIns) (o i : Nat) : Nat :=
  (List.range ins.info.num_operands).countP (fun j =>
    (if ins.info.opcode = MVM_SSA_PHI then decide (1 ≤ j)
      else decide (ins.info.operands.getD j MVM_operand_literal = MVM_operand_read_reg)) &&
    decide (ins.operands[j]? = some (.reg o i)))

/-- The number of read-register operands referring to `(o, i)` across the
instructions of the listed blocks. -/
def graphReads (g : MVMSpeshGraph) (blocks : List BBRef) (o i : Nat) : Nat :=
  (blocks.map (fun b => ((g.bbs b).ins.map (fun ins => insReads ins o i)).sum)).sum

/-- A graph of three blocks in linear order `BB0, BB1, BB2`. `BB0` holds
`const_i64 r(0,0), v` and the conditional `op r(0,0), BB2`, and has the
successors `BB1` (fall-through) and `BB2` (target); `BB1` falls through to
`BB2`. The facts of `r(0,0)` say KNOWN_VALUE with `value.i64 = v` and one
usage (the read by the conditional); no other register is used. -/
def gIffy (op : MVMOpcode) (v : Int) : MVMSpeshGraph where
  bbs := fun p => match p with
    | 0 => ⟨0, [⟨specOpTable MVM_OP_const_i64, [.reg 0 0, .lit_i64 v]⟩,
                ⟨specOpTable op, [.reg 0 0, .ins_bb 2]⟩], some 1, [1, 2], [], [1, 2]⟩
    | 1 => ⟨1, [], some 2, [2], [0], []⟩
    | 2 => ⟨2, [], none, [], [0, 1], []⟩
    | _ => ⟨0, [], none, [], [], []⟩
  entry := 0
  num_bbs := 3
  facts := fun o i =>
    if o = 0 ∧ i = 0 then ⟨MVM_SPESH_FACT_KNOWN_VALUE, 0, ⟨v⟩, 1⟩ else ⟨0, 0, ⟨0⟩, 0⟩
  strings := fun _ => 0
  spesh_slots := none
  num_spesh_slots := 0
  alloc_spesh_slots := 0

/-- Two graphs that agree on everything but the block heap and `num_bbs`. -/
def SameOutsideBlocks (x y : MVMSpeshGraph) : Prop :=
  x.entry = y.entry ∧ x.facts = y.facts ∧ x.strings = y.strings ∧
    x.spesh_slots = y.spesh_slots ∧ x.num_spesh_slots = y.num_spesh_slots ∧
    x.alloc_spesh_slots = y.alloc_spesh_slots

/-- The indices that a marking pass over the blocks `L0` can mark: index 0 and
the `idx` of every successor of a block of `L0`. -/
def Marked0 (bbs : BBRef → MVMSpeshBB) (L0 : List BBRef) (k : Nat) : Prop :=
  k = 0 ∨ ∃ p ∈ L0, ∃ s ∈ (bbs p).succ, (bbs s).idx = k

/-- The successors of the blocks of `L`. -/
def succsOf (bbs : BBRef → MVMSpeshBB) : List BBRef → List BBRef
  | [] => []
  | p :: l => (bbs p).succ ++ succsOf bbs l

/-- The blocks of `S` have distinct `idx`. -/
def IdxDistinct (bbs : BBRef → MVMSpeshBB) (S : List BBRef) : Prop :=
  ∀ a ∈ S, ∀ b ∈ S, (bbs a).idx = (bbs b).idx → a = b

instance (bbs : BBRef → MVMSpeshBB) (S : List BBRef) : Decidable (IdxDistinct bbs S) := by
  unfold IdxDistinct; infer_instance

/-- The list `S` is closed under `succ`. -/
def SuccClosed (bbs : BBRef → MVMSpeshBB) (S : List BBRef) : Prop :=
  ∀ p ∈ S, ∀ s ∈ (bbs p).succ, s ∈ S

instance (bbs : BBRef → MVMSpeshBB) (S : List BBRef) : Decidable (SuccClosed bbs S) := by
  unfold SuccClosed; infer_instance

/-- Three blocks in linear order `BB0, BB1, BB2` with `idx` 0, 1, 2: `BB0` jumps
to `BB2`, and `BB1`, which nothing leads to, falls through to `BB2`. -/
def gDead : MVMSpeshGraph where
  bbs := fun p => match p with
    | 0 => ⟨0, [], some 1, [2], [], [1, 2]⟩
    | 1 => ⟨1, [], some 2, [2], [], []⟩
    | 2 => ⟨2, [], none, [], [0, 1], []⟩
    | _ => ⟨0, [], none, [], [], []⟩
  entry := 0
  num_bbs := 3
  facts := fun _ _ => ⟨0, 0, ⟨0⟩, 0⟩
  strings := fun _ => 0
  spesh_slots := none
  num_spesh_slots := 0
  alloc_spesh_slots := 0

/-- Four blocks in linear order `BB0 .. BB3` with `idx` 0 .. 3: `BB0` jumps to
`BB3`, while `BB1` and `BB2` only lead to each other. -/
def gCycle : MVMSpeshGraph where
  bbs := fun p => match p with
    | 0 => ⟨0, [], some 1, [3], [], [3]⟩
    | 1 => ⟨1, [], some 2, [2], [2], []⟩
    | 2 => ⟨2, [], some 3, [1], [1], []⟩
    | 3 => ⟨3, [], none, [], [0], []⟩
    | _ => ⟨0, [], none, [], [], []⟩
  entry := 0
  num_bbs := 4
  facts := fun _ _ => ⟨0, 0, ⟨0⟩, 0⟩
  strings := fun _ => 0
  spesh_slots := none
  num_spesh_slots := 0
  alloc_spesh_slots := 0

/-- The facts entry of `dst` after `optimize_set` on `set dst, src`, from the
entries `fd` of `dst` and `fs` of `src` before. -/
def set_dst_facts (fd fs : MVMSpeshFacts) : MVMSpeshFacts :=
  { flags := (fd.flags ||| (if fs.flags &&& MVM_SPESH_FACT_KNOWN_TYPE ≠ 0
                then MVM_SPESH_FACT_KNOWN_TYPE else 0))
              ||| (if fs.flags &&& MVM_SPESH_FACT_KNOWN_VALUE ≠ 0
                then MVM_SPESH_FACT_KNOWN_VALUE else 0)
    type := if fs.flags &&& MVM_SPESH_FACT_KNOWN_TYPE ≠ 0 then fs.type else fd.type
    value := if fs.flags &&& MVM_SPESH_FACT_KNOWN_VALUE ≠ 0 then fs.value else fd.value
    usages := fd.usages }

/-- The graph after `optimize_set` on `set r(d,di), r(s,si)`. -/
def set_result (g : MVMSpeshGraph) (d di s si : Nat) : MVMSpeshGraph :=
  let f := set_dst_facts (g.facts d di) (g.facts s si)
  { g with facts := setFacts g.facts d di f }

/-- The instruction `set r(1,0), r(0,0)`. -/
def insSet : MVMSpeshIns := ⟨specOpTable MVM_OP_set, [.reg 1 0, .reg 0 0]⟩

/-- The conditional opcodes that `optimize_iffy` recognises. -/
def iffyOps : List MVMOpcode :=
  [MVM_OP_if_i, MVM_OP_if_s, MVM_OP_if_n, MVM_OP_if_o,
   MVM_OP_unless_i, MVM_OP_unless_s, MVM_OP_unless_n, MVM_OP_unless_o]

/-- The conditional opcodes on a non-integer flag. -/
def nonIntIffyOps : List MVMOpcode :=
  [MVM_OP_if_s, MVM_OP_if_n, MVM_OP_if_o, MVM_OP_unless_s, MVM_OP_unless_n, MVM_OP_unless_o]

/-- Two blocks in linear order `BB0, BB1` with `idx` 0, 1 and no `succ` edge:
`BB1` is the last block of the chain and nothing leads to it. -/
def gOrphanLast : MVMSpeshGraph where
  bbs := fun p => match p with
    | 0 => ⟨0, [], some 1, [], [], []⟩
    | 1 => ⟨1, [], none, [], [], []⟩
    | _ => ⟨0, [], none, [], [], []⟩
  entry := 0
  num_bbs := 2
  facts := fun _ _ => ⟨0, 0, ⟨0⟩, 0⟩
  strings := fun _ => 0
  spesh_slots := none
  num_spesh_slots := 0
  alloc_spesh_slots := 0

/-- Three blocks in linear order `BB0, BB1, BB2` with `idx` 0, 1, 2, the
example of claim C16: the entry `BB0` has no successor, `BB1` has the
successor `BB2`. -/
def gOrphanChain : MVMSpeshGraph where
  bbs := fun p => match p with
    | 0 => ⟨0, [], some 1, [], [], []⟩
    | 1 => ⟨1, [], some 2, [2], [], []⟩
    | 2 => ⟨2, [], none, [], [1], []⟩
    | _ => ⟨0, [], none, [], [], []⟩
  entry := 0
  num_bbs := 3
  facts := fun _ _ => ⟨0, 0, ⟨0⟩, 0⟩
  strings := fun _ => 0
  spesh_slots := none
  num_spesh_slots := 0
  alloc_spesh_slots := 0

/-- Three blocks in linear order `BB0, BB1, BB2` with `idx` 0, 1, 2. `BB0`
holds `const_i64 r(0,0), 0` and `if_i r(0,0), BB2` and has the successors
`BB1` (fall-through) and `BB2` (target); `BB1` has no successor, so the
conditional is the only way into `BB2`, the last block. The facts of `r(0,0)`
say KNOWN_VALUE with `value.i64 = 0`. -/
def gFoldOrphan : MVMSpeshGraph where
  bbs := fun p => match p with
    | 0 => ⟨0, [⟨specOpTable MVM_OP_const_i64, [.reg 0 0, .lit_i64 0]⟩,
                ⟨specOpTable MVM_OP_if_i, [.reg 0 0, .ins_bb 2]⟩], some 1, [1, 2], [], [1, 2]⟩
    | 1 => ⟨1, [], some 2, [], [0], []⟩
    | 2 => ⟨2, [], none, [], [0], []⟩
    | _ => ⟨0, [], none, [], [], []⟩
  entry := 0
  num_bbs := 3
  facts := fun o i =>
    if o = 0 ∧ i = 0 then ⟨MVM_SPESH_FACT_KNOWN_VALUE, 0, ⟨0⟩, 1⟩ else ⟨0, 0, ⟨0⟩, 0⟩
  strings := fun _ => 0
  spesh_slots := none
  num_spesh_slots := 0
  alloc_spesh_slots := 0

/-- A graph of three blocks in linear order `BB0, BB1, BB2`. `BB0` holds
`decont r(1,0), r(0,0)` and `if_i r(1,0), BB2` and has the successors `BB1`
(fall-through) and `BB2` (target). The facts of `r(0,0)` say KNOWN_VALUE with
`value.i64 = 1` and DECONTED; `r(0,0)` and `r(1,0)` have one usage each. -/
def gDecontIf : MVMSpeshGraph where
  bbs := fun p => match p with
    | 0 => ⟨0, [⟨specOpTable MVM_OP_decont, [.reg 1 0, .reg 0 0]⟩,
                ⟨specOpTable MVM_OP_if_i, [.reg 1 0, .ins_bb 2]⟩], some 1, [1, 2], [], [1, 2]⟩
    | 1 => ⟨1, [], some 2, [2], [0], []⟩
    | 2 => ⟨2, [], none, [], [0, 1], []⟩
    | _ => ⟨0, [], none, [], [], []⟩
  entry := 0
  num_bbs := 3
  facts := fun o i =>
    if o = 0 ∧ i = 0 then
      ⟨MVM_SPESH_FACT_KNOWN_VALUE ||| MVM_SPESH_FACT_DECONTED, 0, ⟨1⟩, 1⟩
    else if o = 1 ∧ i = 0 then ⟨0, 0, ⟨0⟩, 1⟩
    else ⟨0, 0, ⟨0⟩, 0⟩
  strings := fun _ => 0
  spesh_slots := none
  num_spesh_slots := 0
  alloc_spesh_slots := 0

/-- The instruction `decont r(1,0), r(0,0)`. -/
def insDecont : MVMSpeshIns := ⟨specOpTable MVM_OP_decont, [.reg 1 0, .reg 0 0]⟩

/-- Two graphs with the same block heap, entry, `num_bbs` and strings. -/
def SameBlocks (x y : MVMSpeshGraph) : Prop :=
  x.bbs = y.bbs ∧ x.entry = y.entry ∧ x.num_bbs = y.num_bbs ∧ x.strings = y.strings

/-- Two graphs with the same slot table. -/
def SameSlots (x y : MVMSpeshGraph) : Prop :=
  x.spesh_slots = y.spesh_slots ∧ x.num_spesh_slots = y.num_spesh_slots ∧
    x.alloc_spesh_slots = y.alloc_spesh_slots

/-- Two block records that differ at most in `succ` and `pred`. -/
def SameButEdges (x y : MVMSpeshBB) : Prop :=
  x.idx = y.idx ∧ x.ins = y.ins ∧ x.linear_next = y.linear_next ∧ x.children = y.children

/-- The facts of register `x` say KNOWN_VALUE with `value.i64 = v`. -/
def KnownVal (g : MVMSpeshGraph) (x : Nat × Nat) (v : Int) : Prop :=
  (g.facts x.1 x.2).flags &&& MVM_SPESH_FACT_KNOWN_VALUE ≠ 0 ∧ (g.facts x.1 x.2).value.i64 = v

/-- The registers of `S` other than the one in the operand slot `o0`. -/
def carry_drop (S : List (Nat × Nat)) (o0 : Option MVMSpeshOperand) : List (Nat × Nat) :=
  match o0 with
  | some (.reg d di) => S.filter (fun x => decide (x ≠ (d, di)))
  | _ => S

/-- The registers that carry the tracked value after `set o0, o1`: `o0` joins
`S` when `o1` is in `S`, and leaves `S` otherwise. -/
def carry_set (S : List (Nat × Nat)) (o0 o1 : Option MVMSpeshOperand) : List (Nat × Nat) :=
  match o1 with
  | some (.reg s si) =>
    if (s, si) ∈ S then
      match o0 with
      | some (.reg d di) => (d, di) :: S
      | _ => S
    else carry_drop S o0
  | _ => S

/-- How the set `S` of registers that are known to carry one tracked value
changes over the forward step on `ins`: `set dst, src` adds `dst` when `src` is
in `S` and drops `dst` otherwise; `istype dst, …` drops `dst`; no other opcode
writes the known-value facts. -/
def carry_step (S : List (Nat × Nat)) (ins : MVMSpeshIns) : List (Nat × Nat) :=
  match ins.info.opcode with
  | MVM_OP_set => carry_set S ins.operands[0]? ins.operands[1]?
  | MVM_OP_istype => carry_drop S ins.operands[0]?
  | _ => S

/-- The registers known to carry the tracked value after the forward steps on
the instructions of `mid`. -/
def carriers (S : List (Nat × Nat)) (mid : List MVMSpeshIns) : List (Nat × Nat) :=
  mid.foldl carry_step S

/-- A graph of three blocks in linear order `BB0, BB1, BB2`, in which every
register has a known type (object 5) and one usage. `BB0` holds
`istype r(2,0), r(0,0), r(0,0)`, `set r(3,0), r(2,0)` and `if_i r(3,0), BB2`
and has the successors `BB1` (fall-through) and `BB2` (target). -/
def gIstypeIf : MVMSpeshGraph where
  bbs := fun p => match p with
    | 0 => ⟨0, [⟨specOpTable MVM_OP_istype, [.reg 2 0, .reg 0 0, .reg 0 0]⟩,
                ⟨specOpTable MVM_OP_set, [.reg 3 0, .reg 2 0]⟩,
                ⟨specOpTable MVM_OP_if_i, [.reg 3 0, .ins_bb 2]⟩], some 1, [1, 2], [], [1, 2]⟩
    | 1 => ⟨1, [], some 2, [2], [0], []⟩
    | 2 => ⟨2, [], none, [], [0, 1], []⟩
    | _ => ⟨0, [], none, [], [], []⟩
  entry := 0
  num_bbs := 3
  facts := fun _ _ => ⟨MVM_SPESH_FACT_KNOWN_TYPE, 5, ⟨0⟩, 1⟩
  strings := fun _ => 0
  spesh_slots := none
  num_spesh_slots := 0
  alloc_spesh_slots := 0

/-- The graph `g` with the instruction list of block `bb` replaced by `l`. -/
def setIns (g : MVMSpeshGraph) (bb : BBRef) (l : List MVMSpeshIns) : MVMSpeshGraph :=
  { g with bbs := setBB g.bbs bb { g.bbs bb with ins := l } }

/-- No instruction of the block is a `findmeth`. -/
def NoFindmeth (x : MVMSpeshBB) : Prop := ∀ i ∈ x.ins, i.info.opcode ≠ MVM_OP_findmeth

/-- Block `b` is `a` or a descendant of `a` in the dominator tree (`children`). -/
def Dom (bbs : BBRef → MVMSpeshBB) (a b : BBRef) : Prop :=
  Relation.ReflTransGen (fun x y => y ∈ (bbs x).children) a b

/-- The block record `x` against an earlier state `y` of the same block: the
same children, no successor added, no instruction added, and no `findmeth`
where there was none. -/
def BlockShrinks (x y : MVMSpeshBB) : Prop :=
  x.children = y.children ∧ x.succ.Sublist y.succ ∧ x.ins.length ≤ y.ins.length ∧
    (NoFindmeth y → NoFindmeth x)

/-- What a call `optimize_bb(tc, g, bb)` that returns `g'` leaves: no block
gains a successor, an instruction or a `findmeth`, the entry and `num_bbs`
stay, no block among `bb` and its dominator-tree descendants holds a
`findmeth` afterwards, and if none held one before, the slot table stays. -/
def OptimizePost (g : MVMSpeshGraph) (bb : BBRef) (g' : MVMSpeshGraph) : Prop :=
  (∀ b, BlockShrinks (g'.bbs b) (g.bbs b)) ∧ g'.entry = g.entry ∧ g'.num_bbs = g.num_bbs ∧
    (∀ b, Dom g.bbs bb b → NoFindmeth (g'.bbs b)) ∧
    ((∀ b, Dom g.bbs bb b → NoFindmeth (g.bbs b)) → SameSlots g' g)

/-- The opcodes the pass names: the ones it rewrites and the ones it rewrites to. -/
def layoutOps : List MVMOpcode :=
  [MVM_OP_findmeth, MVM_OP_sp_findmeth, MVM_OP_sp_getspeshslot, MVM_OP_istype,
    MVM_OP_const_i64, MVM_OP_set, MVM_OP_decont, MVM_OP_goto, MVM_OP_if_i, MVM_OP_unless_i]

/-- Modelled from the spec: the opcode table is not part of the sources at
hand. A table is taken as sound when it gives each opcode its own descriptor,
when the opcodes the pass names have the operand layouts the spec gives (those
of `specOpTable`), and when the descriptor the pass installs for a rewritten
pure instruction is pure again. -/
def TableOK (tc : MVMThreadContext) : Prop :=
  (∀ op, (tc.MVM_op_get_op op).opcode = op) ∧
  (∀ op ∈ layoutOps, (tc.MVM_op_get_op op).num_operands = (specOpTable op).num_operands ∧
    (tc.MVM_op_get_op op).operands = (specOpTable op).operands) ∧
  ((tc.MVM_op_get_op MVM_OP_findmeth).pure = true →
    (tc.MVM_op_get_op MVM_OP_sp_getspeshslot).pure = true ∧
      (tc.MVM_op_get_op MVM_OP_sp_findmeth).pure = true) ∧
  ((tc.MVM_op_get_op MVM_OP_istype).pure = true →
    (tc.MVM_op_get_op MVM_OP_const_i64).pure = true) ∧
  ((tc.MVM_op_get_op MVM_OP_decont).pure = true → (tc.MVM_op_get_op MVM_OP_set).pure = true)

/-- The descriptor of an instruction that the forward pass rewrites is the
one the opcode table has for its opcode. -/
def InsOK (tc : MVMThreadContext) (i : MVMSpeshIns) : Prop :=
  i.info.opcode ∈ [MVM_OP_findmeth, MVM_OP_istype, MVM_OP_decont, MVM_OP_if_i, MVM_OP_unless_i] →
    i.info = tc.MVM_op_get_op i.info.opcode

/-- An instruction the reverse pass deletes once its operand 0 is unused: a
PHI, or a pure instruction whose operand 0 is a write register. -/
def Removable (i : MVMSpeshIns) : Prop :=
  i.info.opcode = MVM_SSA_PHI ∨
    (i.info.pure = true ∧ i.info.operands.getD 0 MVM_operand_literal = MVM_operand_write_reg)

instance (i : MVMSpeshIns) : Decidable (Removable i) := by
  unfold Removable; infer_instance

/-- A removable instruction whose operand 0 is a register of `X`. -/
def DeadOn (X : List (Nat × Nat)) (i : MVMSpeshIns) : Prop :=
  Removable i ∧ ∃ x ∈ X, i.operands[0]? = some (.reg x.1 x.2)

instance (X : List (Nat × Nat)) (i : MVMSpeshIns) : Decidable (DeadOn X i) := by
  unfold DeadOn; infer_instance

/-- The number of read-register operands referring to `(o, i)` across a list
of instructions. -/
def listReads (l : List MVMSpeshIns) (o i : Nat) : Nat :=
  (l.map (fun ins => insReads ins o i)).sum

/-- The reads of `(o, i)` by what is left of an instruction. -/
def optReads (r : Option MVMSpeshIns) (o i : Nat) : Nat :=
  match r with
  | none => 0
  | some ins => insReads ins o i

/-- An instruction is an `if_i` or an `unless_i`. -/
def isCond (i : MVMSpeshIns) : Prop :=
  i.info.opcode = MVM_OP_if_i ∨ i.info.opcode = MVM_OP_unless_i

/-- Whether operand `j` of `ins` is the register `(o, i)`, as 0 or 1. -/
def opIs (ins : MVMSpeshIns) (j o i : Nat) : Nat :=
  if ins.operands[j]? = some (.reg o i) then 1 else 0

/-- What the forward pass may make of an instruction `i`: the result `i'`
reads no more than `i` did, and if `i` is removable then so is `i'`, with the
same operand 0. -/
def Rew (tc : MVMThreadContext) (i i' : MVMSpeshIns) : Prop :=
  InsOK tc i' ∧ (∀ o k, insReads i' o k ≤ insReads i o k) ∧
    (Removable i → Removable i' ∧ i'.operands[0]? = i.operands[0]?)

/-- What the reclaiming of the producer of `(d, di)` asks of an instruction:
a sound descriptor, no read of a register of `X`, and, if it reads `(d, di)`,
that it is removable with its operand 0 in `X`. -/
def ConsOK (tc : MVMThreadContext) (X : List (Nat × Nat)) (d di : Nat) (i : MVMSpeshIns) : Prop :=
  InsOK tc i ∧ (∀ x ∈ X, insReads i x.1 x.2 = 0) ∧
    (insReads i d di ≠ 0 → DeadOn X i)

/-- The invariant of the reclaiming over the blocks `R`: the registers of `X`
are unused, and every instruction of a block of `R` is `ConsOK`. -/
def ReclaimInv (tc : MVMThreadContext) (R : List BBRef) (X : List (Nat × Nat)) (d di : Nat)
    (g : MVMSpeshGraph) : Prop :=
  (∀ x ∈ X, (g.facts x.1 x.2).usages = 0) ∧
    ∀ b ∈ R, ∀ i ∈ (g.bbs b).ins, ConsOK tc X d di i

/-- The children of the blocks of `R` are in `R`. -/
def ChildClosed (R : List BBRef) (g : MVMSpeshGraph) : Prop :=
  ∀ b ∈ R, ∀ c ∈ (g.bbs b).children, c ∈ R

/-- What a call `optimize_bb(tc, g, c)` that returns `g'` leaves, for the
reclaiming of the producer of `(d, di)`: the invariant, the difference between
the usage count of `(d, di)` and its reads in `R`, the instructions of the
blocks that are no descendants of `c`; no block reads `(d, di)` more often
than before, no descendant of `c` reads it at all, and no descendant of `c`
holds a removable instruction whose operand 0 is in `X`. -/
def ReclaimPost (tc : MVMThreadContext) (R : List BBRef) (X : List (Nat × Nat)) (d di : Nat)
    (g : MVMSpeshGraph) (c : BBRef) (g' : MVMSpeshGraph) : Prop :=
  ReclaimInv tc R X d di g' ∧
    (g'.facts d di).usages - (graphReads g' R d di : Int) =
      (g.facts d di).usages - (graphReads g R d di : Int) ∧
    (∀ b, (g'.bbs b).children = (g.bbs b).children) ∧
    (∀ b, ¬ Dom g.bbs c b → (g'.bbs b).ins = (g.bbs b).ins) ∧
    (∀ b, listReads (g'.bbs b).ins d di ≤ listReads (g.bbs b).ins d di) ∧
    (∀ b, Dom g.bbs c b → listReads (g'.bbs b).ins d di = 0) ∧
    (∀ b, Dom g.bbs c b → ∀ i ∈ (g'.bbs b).ins, ¬ DeadOn X i)

instance (tc : MVMThreadContext) (i : MVMSpeshIns) : Decidable (InsOK tc i) := by
  unfold InsOK; infer_instance

/-- A graph of two blocks. `BB0` holds the producer `const_i64 r(0,0), 7` and
the consumer `set r(2,0), r(0,0)`; its dominator-tree child `BB1` holds the
consumer `set r(1,0), r(0,0)`. `r(0,0)` has two usages, the two reads;
`r(1,0)` and `r(2,0)` are unused. -/
def gReclaim : MVMSpeshGraph where
  bbs := fun p => match p with
    | 0 => ⟨0, [⟨specOpTable MVM_OP_const_i64, [.reg 0 0, .lit_i64 7]⟩,
                ⟨specOpTable MVM_OP_set, [.reg 2 0, .reg 0 0]⟩], some 1, [1], [], [1]⟩
    | 1 => ⟨1, [⟨specOpTable MVM_OP_set, [.reg 1 0, .reg 0 0]⟩], none, [], [0], []⟩
    | _ => ⟨0, [], none, [], [], []⟩
  entry := 0
  num_bbs := 2
  facts := fun o i => if o = 0 ∧ i = 0 then ⟨0, 0, ⟨0⟩, 2⟩ else ⟨0, 0, ⟨0⟩, 0⟩
  strings := fun _ => 0
  spesh_slots := none
  num_spesh_slots := 0
  alloc_spesh_slots := 0

/-- The children of the blocks of `R` have a smaller rank than their parent. -/
def RankOK (R : List BBRef) (rk : BBRef → Nat) (g : MVMSpeshGraph) : Prop :=
  ∀ b ∈ R, ∀ c ∈ (g.bbs b).children, rk c < rk b

instance (R : List BBRef) (rk : BBRef → Nat) (g : MVMSpeshGraph) : Decidable (RankOK R rk g) := by
  unfold RankOK; infer_instance

/-- Whether an operand slot holds a string index. -/
def isStrIdx (o : Option MVMSpeshOperand) : Bool :=
  match o with
  | some (.lit_str_idx _) => true
  | _ => false

/-- Whether an operand slot holds a branch target. -/
def isInsBB (o : Option MVMSpeshOperand) : Bool :=
  match o with
  | some (.ins_bb _) => true
  | _ => false

instance (i : MVMSpeshIns) : Decidable (isCond i) := by
  unfold isCond; infer_instance

/-- The operands that the forward pass reads of an instruction it rewrites
have the kind it expects: registers where it takes facts, a string index for
the name of a `findmeth`, a branch target for a conditional. -/
def FwdOK (i : MVMSpeshIns) : Prop :=
  (i.info.opcode = MVM_OP_findmeth → isReg i.operands[0]? = true ∧
    isReg i.operands[1]? = true ∧ isStrIdx i.operands[2]? = true) ∧
  (i.info.opcode = MVM_OP_decont → isReg i.operands[0]? = true ∧ isReg i.operands[1]? = true) ∧
  (i.info.opcode = MVM_OP_istype → isReg i.operands[0]? = true ∧
    isReg i.operands[1]? = true ∧ isReg i.operands[2]? = true) ∧
  (i.info.opcode = MVM_OP_set → isReg i.operands[0]? = true ∧ isReg i.operands[1]? = true) ∧
  (isCond i → isReg i.operands[0]? = true ∧ isInsBB i.operands[1]? = true)

instance (i : MVMSpeshIns) : Decidable (FwdOK i) := by
  unfold FwdOK; infer_instance

/-- The operands that the reverse pass reads of an instruction are registers:
operand 0 of a removable instruction, and the operands from 1 on of which the
pass takes a usage. -/
def RevOK (i : MVMSpeshIns) : Prop :=
  (Removable i → isReg i.operands[0]? = true) ∧
  ∀ j ∈ List.range' 1 (i.info.num_operands - 1),
    (i.info.opcode = MVM_SSA_PHI ∨
      i.info.operands.getD j MVM_operand_literal = MVM_operand_read_reg) →
    isReg i.operands[j]? = true

instance (i : MVMSpeshIns) : Decidable (RevOK i) := by
  unfold RevOK; infer_instance

/-- A graph on which the pass meets no fault in the blocks `R`: the slot table
is well formed, the instructions have well-formed operands, and a block that
holds a conditional has a next block in the linear order. -/
def GraphWF (R : List BBRef) (g : MVMSpeshGraph) : Prop :=
  SlotsWF g ∧ ∀ b ∈ R, (∀ i ∈ (g.bbs b).ins, FwdOK i ∧ RevOK i) ∧
    ((∃ i ∈ (g.bbs b).ins, isCond i) → (g.bbs b).linear_next ≠ none)

instance (R : List BBRef) (g : MVMSpeshGraph) : Decidable (GraphWF R g) := by
  unfold GraphWF; infer_instance

/-! ## Theorems -/

/-! ### `add_spesh_slot` -/

/-- What one call of `add_spesh_slot` does to a well-formed slot table. -/
theorem add_spesh_slot_spec (g : MVMSpeshGraph) (c : Option ObjRef) (hwf : SlotsWF g) :
    ∃ cells, add_spesh_slot g c = .ok (toMVMint16 g.num_spesh_slots,
        { g with spesh_slots := some cells, num_spesh_slots := g.num_spesh_slots + 1,
                 alloc_spesh_slots := if g.num_spesh_slots ≥ g.alloc_spesh_slots
                    then g.alloc_spesh_slots + 8 else g.alloc_spesh_slots }) ∧
      (cells.length : Int) = (if g.num_spesh_slots ≥ g.alloc_spesh_slots
                    then g.alloc_spesh_slots + 8 else g.alloc_spesh_slots) ∧
      cells[g.num_spesh_slots.toNat]? = some (SlotCell.val c) ∧
      ∀ j : Nat, j ≠ g.num_spesh_slots.toNat → j < (g.spesh_slots.getD []).length →
        cells[j]? = (g.spesh_slots.getD [])[j]? := by
  obtain ⟨h0, h1, h2⟩ := hwf
  by_cases hfull : g.num_spesh_slots ≥ g.alloc_spesh_slots
  · have hnn : ¬ (g.alloc_spesh_slots + 8 < 0) := by omega
    set old := g.spesh_slots.getD [] with hold
    have htake : old.take (g.alloc_spesh_slots + 8).toNat = old := by
      apply List.take_of_length_le; omega
    have hlen : (old ++ List.replicate 8 SlotCell.uninit).length = old.length + 8 := by simp
    have hidx : g.num_spesh_slots.toNat < (old ++ List.replicate 8 SlotCell.uninit).length := by
      rw [hlen]; omega
    have hsub : (g.alloc_spesh_slots + 8).toNat - old.length = 8 := by omega
    refine ⟨(old ++ List.replicate 8 SlotCell.uninit).set g.num_spesh_slots.toNat (SlotCell.val c), ?_, ?_, ?_, ?_⟩
    · simp only [add_spesh_slot, if_pos hfull, resizeCells, if_neg hnn, ← hold, htake, hsub,
        if_neg (not_lt.mpr h0), writeAt, if_pos hidx]
      rfl
    · simp only [if_pos hfull, List.length_set, hlen]; omega
    · rw [List.getElem?_set_self hidx]
    · intro j hj hjl
      rw [List.getElem?_set_ne (Ne.symm hj), List.getElem?_append_left hjl]
  · have hlt : g.num_spesh_slots < g.alloc_spesh_slots := by omega
    cases hs : g.spesh_slots with
    | none => simp [hs] at h2; omega
    | some old =>
      simp only [hs, Option.getD_some] at h2 ⊢
      have hidx : g.num_spesh_slots.toNat < old.length := by omega
      refine ⟨old.set g.num_spesh_slots.toNat (SlotCell.val c), ?_, ?_, ?_, ?_⟩
      · simp only [add_spesh_slot, if_neg hfull, hs, if_neg (not_lt.mpr h0), writeAt, if_pos hidx]
        rfl
      · simp only [if_neg hfull, List.length_set]; exact h2
      · rw [List.getElem?_set_self hidx]
      · intro j hj _
        rw [List.getElem?_set_ne (Ne.symm hj)]

/-- `MVMint16` holds the values `0 .. 2^15 - 1` unchanged. -/
theorem toMVMint16_of_range (n : Int) (h0 : 0 ≤ n) (h1 : n < 32768) : toMVMint16 n = n := by
  unfold toMVMint16; omega

/-- The slot table after `add_spesh_slot` on a well-formed table. -/
theorem add_spesh_slot_ok (g : MVMSpeshGraph) (c : Option ObjRef) (hwf : SlotsWF g) :
    ∃ g', add_spesh_slot g c = .ok (toMVMint16 g.num_spesh_slots, g') ∧
      SlotsWF g' ∧
      g'.num_spesh_slots = g.num_spesh_slots + 1 ∧
      slotAt g' g.num_spesh_slots.toNat = some (SlotCell.val c) ∧
      (∀ j : Nat, (j : Int) < g.num_spesh_slots → slotAt g' j = slotAt g j) ∧
      g'.bbs = g.bbs ∧ g'.facts = g.facts ∧ g'.entry = g.entry ∧ g'.num_bbs = g.num_bbs ∧
      g'.strings = g.strings := by
  obtain ⟨cells, hrun, hlen, hnew, hold⟩ := add_spesh_slot_spec g c hwf
  obtain ⟨h0, h1, h2⟩ := hwf
  refine ⟨_, hrun, ⟨?_, ?_, ?_⟩, rfl, ?_, ?_, rfl, rfl, rfl, rfl, rfl⟩
  · show 0 ≤ g.num_spesh_slots + 1
    omega
  · show g.num_spesh_slots + 1 ≤ _
    dsimp only
    split <;> omega
  · show (((some cells).getD []).length : Int) = _
    simpa using hlen
  · simpa [slotAt] using hnew
  · intro j hj
    simp only [slotAt, Option.getD_some]
    apply hold
    · omega
    · omega

/-- A sequence of calls on a well-formed table succeeds and keeps the old entries. -/
theorem add_spesh_slot_seq_ok (cs : List (Option ObjRef)) :
    ∀ g : MVMSpeshGraph, SlotsWF g →
      ∃ g', add_spesh_slot_seq g cs = .ok g' ∧ SlotsWF g' ∧
        g'.num_spesh_slots = g.num_spesh_slots + cs.length ∧
        ∀ j : Nat, (j : Int) < g.num_spesh_slots → slotAt g' j = slotAt g j := by
  induction cs with
  | nil => intro g hwf; exact ⟨g, rfl, hwf, by simp, fun _ _ => rfl⟩
  | cons c cs ih =>
    intro g hwf
    obtain ⟨g1, hrun, hwf1, hnum1, -, hold1, -⟩ := add_spesh_slot_ok g c hwf
    obtain ⟨g2, hrun2, hwf2, hnum2, hold2⟩ := ih g1 hwf1
    refine ⟨g2, ?_, hwf2, ?_, ?_⟩
    · simp only [add_spesh_slot_seq, hrun, bind, Except.bind, hrun2]
    · rw [hnum2, hnum1, List.length_cons]; push_cast; ring
    · intro j hj
      rw [hold2 j (by omega), hold1 j hj]

/-- C10: on a well-formed slot table with `n = num_spesh_slots < 2^15` (the
range of the `MVMint16` result), `add_spesh_slot` returns `n`, leaves
`num_spesh_slots = n + 1` and `spesh_slots[n] = c`, leaves every `spesh_slots[j]`
with `j < n` as it was (whether or not the array had to grow), and after any
sequence of later calls the slots `0..n` still hold the same entries. -/
theorem add_spesh_slot_append (g : MVMSpeshGraph) (c : Option ObjRef) (hwf : SlotsWF g)
    (hn : g.num_spesh_slots < 32768) :
    ∃ g', add_spesh_slot g c = .ok (g.num_spesh_slots, g') ∧
      g'.num_spesh_slots = g.num_spesh_slots + 1 ∧
      slotAt g' g.num_spesh_slots.toNat = some (SlotCell.val c) ∧
      (∀ j : Nat, (j : Int) < g.num_spesh_slots → slotAt g' j = slotAt g j) ∧
      ∀ cs : List (Option ObjRef), ∃ g'', add_spesh_slot_seq g' cs = .ok g'' ∧
        g''.num_spesh_slots = g.num_spesh_slots + 1 + cs.length ∧
        ∀ j : Nat, (j : Int) ≤ g.num_spesh_slots → slotAt g'' j = slotAt g' j := by
  obtain ⟨g1, hrun, hwf1, hnum1, hnew, hold1, -⟩ := add_spesh_slot_ok g c hwf
  rw [toMVMint16_of_range _ hwf.1 hn] at hrun
  refine ⟨g1, hrun, hnum1, hnew, hold1, ?_⟩
  intro cs
  obtain ⟨g2, hrun2, -, hnum2, hold2⟩ := add_spesh_slot_seq_ok cs g1 hwf1
  exact ⟨g2, hrun2, by rw [hnum2, hnum1], fun j hj => hold2 j (by omega)⟩

/-- Witness for `add_spesh_slot_append`: a full table of 8 entries, which the call grows. -/
theorem add_spesh_slot_append_witness :
    SlotsWF gSlots8 ∧ gSlots8.num_spesh_slots < 32768 ∧
    ∃ g', add_spesh_slot gSlots8 (some 42) = .ok (gSlots8.num_spesh_slots, g') ∧
      g'.num_spesh_slots = gSlots8.num_spesh_slots + 1 ∧
      slotAt g' gSlots8.num_spesh_slots.toNat = some (SlotCell.val (some 42)) ∧
      (∀ j : Nat, (j : Int) < gSlots8.num_spesh_slots → slotAt g' j = slotAt gSlots8 j) ∧
      ∀ cs : List (Option ObjRef), ∃ g'', add_spesh_slot_seq g' cs = .ok g'' ∧
        g''.num_spesh_slots = gSlots8.num_spesh_slots + 1 + cs.length ∧
        ∀ j : Nat, (j : Int) ≤ gSlots8.num_spesh_slots → slotAt g'' j = slotAt g' j :=
  ⟨by decide, by decide, add_spesh_slot_append gSlots8 (some 42) (by decide) (by decide)⟩

/-! ### `optimize_method_lookup` -/

/-- The resolved path of `optimize_method_lookup`, with the index as the C code
stores it (converted to `MVMint16`). -/
theorem optimize_method_lookup_resolved (tc : MVMThreadContext) (g : MVMSpeshGraph)
    (ins : MVMSpeshIns) (dst : MVMSpeshOperand) (oo oi s : Nat) (M : ObjRef)
    (hops : ins.operands = [dst, .reg oo oi, .lit_str_idx s])
    (hkt : (g.facts oo oi).flags &&& MVM_SPESH_FACT_KNOWN_TYPE ≠ 0)
    (hm : tc.MVM_6model_find_method_cache_only (g.facts oo oi).type (g.strings s) = some M)
    (hwf : SlotsWF g) :
    ∃ g1, add_spesh_slot g (some M) = .ok (toMVMint16 g.num_spesh_slots, g1) ∧
      optimize_method_lookup tc g ins = .ok (decUsages g1 (oo, oi),
        { info := tc.MVM_op_get_op MVM_OP_sp_getspeshslot,
          operands := [dst, .lit_i16 (toMVMint16 g.num_spesh_slots), .lit_str_idx s] }) := by
  obtain ⟨g1, hrun, -⟩ := add_spesh_slot_ok g (some M) hwf
  refine ⟨g1, hrun, ?_⟩
  simp [optimize_method_lookup, hops, get_facts, get_string, hkt, hm, hrun, writeAt, bind,
    Except.bind]

/-- The unresolved path of `optimize_method_lookup`. -/
theorem optimize_method_lookup_unresolved (tc : MVMThreadContext) (g : MVMSpeshGraph)
    (ins : MVMSpeshIns) (dst : MVMSpeshOperand) (oo oi s : Nat)
    (hops : ins.operands = [dst, .reg oo oi, .lit_str_idx s])
    (hun : (g.facts oo oi).flags &&& MVM_SPESH_FACT_KNOWN_TYPE = 0 ∨
      tc.MVM_6model_find_method_cache_only (g.facts oo oi).type (g.strings s) = none)
    (hwf : SlotsWF g) :
    ∃ g1 g2, add_spesh_slot g none = .ok (toMVMint16 g.num_spesh_slots, g1) ∧
      add_spesh_slot g1 none = .ok (toMVMint16 g1.num_spesh_slots, g2) ∧
      optimize_method_lookup tc g ins = .ok (g2,
        { info := tc.MVM_op_get_op MVM_OP_sp_findmeth,
          operands := [dst, .reg oo oi, .lit_str_idx s,
            .lit_i16 (toMVMint16 g.num_spesh_slots)] }) := by
  obtain ⟨g1, hrun1, hwf1, -⟩ := add_spesh_slot_ok g none hwf
  obtain ⟨g2, hrun2, -⟩ := add_spesh_slot_ok g1 none hwf1
  refine ⟨g1, g2, hrun1, hrun2, ?_⟩
  rcases hun with hun | hun
  · simp [optimize_method_lookup, hops, get_facts, hun, hrun1, hrun2, bind, Except.bind]
  · by_cases hkt : (g.facts oo oi).flags &&& MVM_SPESH_FACT_KNOWN_TYPE = 0
    · simp [optimize_method_lookup, hops, get_facts, hkt, hrun1, hrun2, bind, Except.bind]
    · simp [optimize_method_lookup, hops, get_facts, get_string, hkt, hun, hrun1, hrun2, bind,
        Except.bind]

/-- The slot table of `gSlotsN n` is well formed. -/
theorem SlotsWF_gSlotsN (n : Nat) : SlotsWF (gSlotsN n) := by
  simp [SlotsWF, gSlotsN]

/-- The entry that `usages--` goes through loses one usage and nothing else. -/
theorem decUsages_facts_same (g : MVMSpeshGraph) (o i : Nat) :
    (decUsages g (o, i)).facts o i =
      { g.facts o i with usages := (g.facts o i).usages - 1 } := by
  simp [decUsages, setFacts]

/-- The statement `usages--` leaves the other entries alone. -/
theorem decUsages_facts_other (g : MVMSpeshGraph) (o i o' i' : Nat) (h : o' ≠ o ∨ i' ≠ i) :
    (decUsages g (o, i)).facts o' i' = g.facts o' i' := by
  have : ¬ (o' = o ∧ i' = i) := by tauto
  simp [decUsages, setFacts, this]

/-- C7 (amended): for `findmeth dst, obj, name_idx` where `obj` has KNOWN_TYPE
and the method cache returns `M`, on a well-formed slot table whose
`num_spesh_slots = k` is below `2^15`, `optimize_method_lookup` leaves the
instruction as `sp_getspeshslot dst, k` (operand 0 unchanged, operand 1 the
literal `k`), appends exactly one slot, which holds `M`, and takes exactly one
usage from `obj`, changing nothing else in the facts. -/
theorem optimize_method_lookup_monomorphic (tc : MVMThreadContext) (g : MVMSpeshGraph)
    (ins : MVMSpeshIns) (dst : MVMSpeshOperand) (oo oi s : Nat) (M : ObjRef)
    (hops : ins.operands = [dst, .reg oo oi, .lit_str_idx s])
    (hkt : (g.facts oo oi).flags &&& MVM_SPESH_FACT_KNOWN_TYPE ≠ 0)
    (hm : tc.MVM_6model_find_method_cache_only (g.facts oo oi).type (g.strings s) = some M)
    (hwf : SlotsWF g) (hk : g.num_spesh_slots < 32768) :
    ∃ g', optimize_method_lookup tc g ins = .ok (g',
        { info := tc.MVM_op_get_op MVM_OP_sp_getspeshslot,
          operands := [dst, .lit_i16 g.num_spesh_slots, .lit_str_idx s] }) ∧
      g'.num_spesh_slots = g.num_spesh_slots + 1 ∧
      slotAt g' g.num_spesh_slots.toNat = some (SlotCell.val (some M)) ∧
      (∀ j : Nat, (j : Int) < g.num_spesh_slots → slotAt g' j = slotAt g j) ∧
      g'.facts oo oi = { g.facts oo oi with usages := (g.facts oo oi).usages - 1 } ∧
      (∀ o i : Nat, o ≠ oo ∨ i ≠ oi → g'.facts o i = g.facts o i) ∧
      g'.bbs = g.bbs := by
  obtain ⟨g1, hadd, hrun⟩ := optimize_method_lookup_resolved tc g ins dst oo oi s M hops hkt hm hwf
  obtain ⟨g1', hadd', -, hnum, hnew, hold, hbbs, hfacts, -⟩ := add_spesh_slot_ok g (some M) hwf
  have hg : g1' = g1 := by
    rw [hadd] at hadd'
    injection hadd' with h
    injection h with _ h2
    exact h2.symm
  subst hg
  rw [toMVMint16_of_range _ hwf.1 hk] at hrun
  refine ⟨_, hrun, hnum, hnew, hold, ?_, ?_, hbbs⟩
  · rw [decUsages_facts_same, hfacts]
  · intro o i h
    rw [decUsages_facts_other _ _ _ _ _ h, hfacts]

/-- Witness for `optimize_method_lookup_monomorphic`: a table of 8 entries. -/
theorem optimize_method_lookup_monomorphic_witness :
    (insFindmeth.operands = [.reg 1 0, .reg 0 0, .lit_str_idx 0] ∧
      ((gSlotsN 8).facts 0 0).flags &&& MVM_SPESH_FACT_KNOWN_TYPE ≠ 0 ∧
      SlotsWF (gSlotsN 8) ∧ (gSlotsN 8).num_spesh_slots < 32768) ∧
    ∃ g', optimize_method_lookup tcResolve (gSlotsN 8) insFindmeth = .ok (g',
        { info := tcResolve.MVM_op_get_op MVM_OP_sp_getspeshslot,
          operands := [.reg 1 0, .lit_i16 (gSlotsN 8).num_spesh_slots, .lit_str_idx 0] }) ∧
      g'.num_spesh_slots = (gSlotsN 8).num_spesh_slots + 1 ∧
      slotAt g' (gSlotsN 8).num_spesh_slots.toNat = some (SlotCell.val (some 9)) ∧
      (∀ j : Nat, (j : Int) < (gSlotsN 8).num_spesh_slots → slotAt g' j = slotAt (gSlotsN 8) j) ∧
      g'.facts 0 0 = { (gSlotsN 8).facts 0 0 with usages := ((gSlotsN 8).facts 0 0).usages - 1 } ∧
      (∀ o i : Nat, o ≠ 0 ∨ i ≠ 0 → g'.facts o i = (gSlotsN 8).facts o i) ∧
      g'.bbs = (gSlotsN 8).bbs :=
  ⟨⟨rfl, by decide, by decide, by decide⟩,
    optimize_method_lookup_monomorphic tcResolve (gSlotsN 8) insFindmeth (.reg 1 0) 0 0 0 9
      rfl (by decide) rfl (by decide) (by decide)⟩

/-- C7 fails as stated: with `k = num_spesh_slots = 32768` the claim's premises
hold, and the literal stored in operand 1 is `(MVMint16)32768 = -32768`, not
`k`. -/
theorem optimize_method_lookup_monomorphic_wraps :
    (insFindmeth.operands = [.reg 1 0, .reg 0 0, .lit_str_idx 0] ∧
      ((gSlotsN 32768).facts 0 0).flags &&& MVM_SPESH_FACT_KNOWN_TYPE ≠ 0 ∧
      tcResolve.MVM_6model_find_method_cache_only ((gSlotsN 32768).facts 0 0).type
        ((gSlotsN 32768).strings 0) = some 9 ∧
      SlotsWF (gSlotsN 32768) ∧ (gSlotsN 32768).num_spesh_slots = 32768) ∧
    ∃ g', optimize_method_lookup tcResolve (gSlotsN 32768) insFindmeth = .ok (g',
        { info := tcResolve.MVM_op_get_op MVM_OP_sp_getspeshslot,
          operands := [.reg 1 0, .lit_i16 (-32768), .lit_str_idx 0] }) ∧
      (MVMSpeshOperand.lit_i16 (-32768)) ≠ .lit_i16 (gSlotsN 32768).num_spesh_slots := by
  refine ⟨⟨rfl, by decide, rfl, SlotsWF_gSlotsN _, rfl⟩, ?_⟩
  obtain ⟨g1, -, hrun⟩ := optimize_method_lookup_resolved tcResolve (gSlotsN 32768) insFindmeth
    (.reg 1 0) 0 0 0 9 rfl (by decide) rfl (SlotsWF_gSlotsN _)
  have hnum : (gSlotsN 32768).num_spesh_slots = 32768 := rfl
  have h16 : toMVMint16 (gSlotsN 32768).num_spesh_slots = -32768 := by
    rw [hnum]; decide
  rw [h16] at hrun
  refine ⟨_, hrun, ?_⟩
  rw [hnum]; decide

/-- C8 (amended): for `findmeth dst, obj, name_idx` where `obj` lacks
KNOWN_TYPE or the method cache returns nothing, on a well-formed slot table
whose `num_spesh_slots = k` is below `2^15`, `optimize_method_lookup` leaves
the instruction as `sp_findmeth dst, obj, name_idx, k` with the first three
operands as they were; `num_spesh_slots` has grown by exactly 2, slots `k` and
`k + 1` are NULL, and no facts entry (so no usages counter) has changed. -/
theorem optimize_method_lookup_polymorphic (tc : MVMThreadContext) (g : MVMSpeshGraph)
    (ins : MVMSpeshIns) (dst : MVMSpeshOperand) (oo oi s : Nat)
    (hops : ins.operands = [dst, .reg oo oi, .lit_str_idx s])
    (hun : (g.facts oo oi).flags &&& MVM_SPESH_FACT_KNOWN_TYPE = 0 ∨
      tc.MVM_6model_find_method_cache_only (g.facts oo oi).type (g.strings s) = none)
    (hwf : SlotsWF g) (hk : g.num_spesh_slots < 32768) :
    ∃ g', optimize_method_lookup tc g ins = .ok (g',
        { info := tc.MVM_op_get_op MVM_OP_sp_findmeth,
          operands := [dst, .reg oo oi, .lit_str_idx s, .lit_i16 g.num_spesh_slots] }) ∧
      g'.num_spesh_slots = g.num_spesh_slots + 2 ∧
      slotAt g' g.num_spesh_slots.toNat = some (SlotCell.val none) ∧
      slotAt g' (g.num_spesh_slots.toNat + 1) = some (SlotCell.val none) ∧
      (∀ j : Nat, (j : Int) < g.num_spesh_slots → slotAt g' j = slotAt g j) ∧
      g'.facts = g.facts ∧ g'.bbs = g.bbs := by
  obtain ⟨g1, g2, hadd1, hadd2, hrun⟩ :=
    optimize_method_lookup_unresolved tc g ins dst oo oi s hops hun hwf
  obtain ⟨g1', hadd1', hwf1, hnum1, hnew1, hold1, hbbs1, hfacts1, -⟩ := add_spesh_slot_ok g none hwf
  have hg1 : g1' = g1 := by
    rw [hadd1] at hadd1'
    injection hadd1' with h
    injection h with _ h2
    exact h2.symm
  subst hg1
  obtain ⟨g2', hadd2', -, hnum2, hnew2, hold2, hbbs2, hfacts2, -⟩ := add_spesh_slot_ok g1' none hwf1
  have hg2 : g2' = g2 := by
    rw [hadd2] at hadd2'
    injection hadd2' with h
    injection h with _ h2
    exact h2.symm
  subst hg2
  rw [toMVMint16_of_range _ hwf.1 hk] at hrun
  have h0 := hwf.1
  refine ⟨_, hrun, ?_, ?_, ?_, ?_, ?_, ?_⟩
  · rw [hnum2, hnum1]; ring
  · rw [hold2 _ (by omega), hnew1]
  · have : g.num_spesh_slots.toNat + 1 = g1'.num_spesh_slots.toNat := by omega
    rw [this, hnew2]
  · intro j hj
    rw [hold2 j (by omega), hold1 j hj]
  · rw [hfacts2, hfacts1]
  · rw [hbbs2, hbbs1]

/-- Witness for `optimize_method_lookup_polymorphic`: a table of 8 entries and an empty method cache. -/
theorem optimize_method_lookup_polymorphic_witness :
    (insFindmeth.operands = [.reg 1 0, .reg 0 0, .lit_str_idx 0] ∧
      SlotsWF (gSlotsN 8) ∧ (gSlotsN 8).num_spesh_slots < 32768) ∧
    ∃ g', optimize_method_lookup tcUnknown (gSlotsN 8) insFindmeth = .ok (g',
        { info := tcUnknown.MVM_op_get_op MVM_OP_sp_findmeth,
          operands := [.reg 1 0, .reg 0 0, .lit_str_idx 0, .lit_i16 (gSlotsN 8).num_spesh_slots] }) ∧
      g'.num_spesh_slots = (gSlotsN 8).num_spesh_slots + 2 ∧
      slotAt g' (gSlotsN 8).num_spesh_slots.toNat = some (SlotCell.val none) ∧
      slotAt g' ((gSlotsN 8).num_spesh_slots.toNat + 1) = some (SlotCell.val none) ∧
      (∀ j : Nat, (j : Int) < (gSlotsN 8).num_spesh_slots → slotAt g' j = slotAt (gSlotsN 8) j) ∧
      g'.facts = (gSlotsN 8).facts ∧ g'.bbs = (gSlotsN 8).bbs :=
  ⟨⟨rfl, by decide, by decide⟩,
    optimize_method_lookup_polymorphic tcUnknown (gSlotsN 8) insFindmeth (.reg 1 0) 0 0 0
      rfl (Or.inr rfl) (by decide) (by decide)⟩

/-- C8 fails as stated: with `k = num_spesh_slots = 32768` the claim's premises
hold, and the literal stored in operand 3 is `(MVMint16)32768 = -32768`, not
`k`. -/
theorem optimize_method_lookup_polymorphic_wraps :
    (insFindmeth.operands = [.reg 1 0, .reg 0 0, .lit_str_idx 0] ∧
      tcUnknown.MVM_6model_find_method_cache_only ((gSlotsN 32768).facts 0 0).type
        ((gSlotsN 32768).strings 0) = none ∧
      SlotsWF (gSlotsN 32768) ∧ (gSlotsN 32768).num_spesh_slots = 32768) ∧
    ∃ g', optimize_method_lookup tcUnknown (gSlotsN 32768) insFindmeth = .ok (g',
        { info := tcUnknown.MVM_op_get_op MVM_OP_sp_findmeth,
          operands := [.reg 1 0, .reg 0 0, .lit_str_idx 0, .lit_i16 (-32768)] }) ∧
      (MVMSpeshOperand.lit_i16 (-32768)) ≠ .lit_i16 (gSlotsN 32768).num_spesh_slots := by
  refine ⟨⟨rfl, rfl, SlotsWF_gSlotsN _, rfl⟩, ?_⟩
  obtain ⟨g1, g2, -, -, hrun⟩ := optimize_method_lookup_unresolved tcUnknown (gSlotsN 32768)
    insFindmeth (.reg 1 0) 0 0 0 rfl (Or.inr rfl) (SlotsWF_gSlotsN _)
  have hnum : (gSlotsN 32768).num_spesh_slots = 32768 := rfl
  have h16 : toMVMint16 (gSlotsN 32768).num_spesh_slots = -32768 := by
    rw [hnum]; decide
  rw [h16] at hrun
  refine ⟨_, hrun, ?_⟩
  rw [hnum]; decide

/-! ### `optimize_istype` -/

/-- After `flags |= MVM_SPESH_FACT_KNOWN_VALUE` the flag is set. -/
theorem or_flag_and_ne_zero (x : Nat) : (x ||| MVM_SPESH_FACT_KNOWN_VALUE) &&& MVM_SPESH_FACT_KNOWN_VALUE ≠ 0 := by
  intro h
  have h1 := congrArg (fun n => n.testBit 1) h
  have h2 : Nat.testBit 2 1 = true := by decide
  simp [MVM_SPESH_FACT_KNOWN_VALUE, Nat.testBit_and, Nat.testBit_or, h2] at h1

/-- The folding path of `optimize_istype`. -/
theorem optimize_istype_decided (tc : MVMThreadContext) (g : MVMSpeshGraph) (ins : MVMSpeshIns)
    (d di oo oi ty ti : Nat) (r : Int)
    (hops : ins.operands = [.reg d di, .reg oo oi, .reg ty ti])
    (hko : (g.facts oo oi).flags &&& MVM_SPESH_FACT_KNOWN_TYPE ≠ 0)
    (hkt : (g.facts ty ti).flags &&& MVM_SPESH_FACT_KNOWN_TYPE ≠ 0)
    (hr : tc.MVM_6model_try_cache_type_check (g.facts oo oi).type (g.facts ty ti).type = some r) :
    optimize_istype tc g ins = .ok (istype_folded g d di oo oi ty ti r,
      { info := tc.MVM_op_get_op MVM_OP_const_i64,
        operands := [.reg d di, .lit_i64 r, .reg ty ti] }) := by
  simp [optimize_istype, hops, get_facts, hko, hkt, hr, writeAt, bind, Except.bind, istype_folded]

/-- The facts entries after the folding path of `optimize_istype`, field by field. -/
theorem istype_folded_facts (g : MVMSpeshGraph) (d di oo oi ty ti : Nat) (r : Int) (o i : Nat) :
    (istype_folded g d di oo oi ty ti r).facts o i =
      { flags := if o = d ∧ i = di then (g.facts o i).flags ||| MVM_SPESH_FACT_KNOWN_VALUE
                 else (g.facts o i).flags
        type := (g.facts o i).type
        value := if o = d ∧ i = di then { i64 := r } else (g.facts o i).value
        usages := (g.facts o i).usages - (if o = oo ∧ i = oi then 1 else 0)
                    - (if o = ty ∧ i = ti then 1 else 0) } := by
  simp only [istype_folded, decUsages, setFacts]
  by_cases h3 : o = ty ∧ i = ti
  · obtain ⟨rfl, rfl⟩ := h3
    by_cases h2 : o = oo ∧ i = oi
    · obtain ⟨rfl, rfl⟩ := h2
      by_cases h1 : o = d ∧ i = di
      · obtain ⟨rfl, rfl⟩ := h1
        simp
      · simp [h1]
    · by_cases h1 : o = d ∧ i = di
      · obtain ⟨rfl, rfl⟩ := h1
        simp [h2]
      · simp [h1, h2]
  · by_cases h2 : o = oo ∧ i = oi
    · obtain ⟨rfl, rfl⟩ := h2
      by_cases h1 : o = d ∧ i = di
      · obtain ⟨rfl, rfl⟩ := h1
        simp [h3]
      · simp [h1, h3]
    · by_cases h1 : o = d ∧ i = di
      · obtain ⟨rfl, rfl⟩ := h1
        simp [h2, h3]
      · simp [h1, h2, h3]

/-- The paths of `optimize_istype` that leave everything alone. -/
theorem optimize_istype_untouched (tc : MVMThreadContext) (g : MVMSpeshGraph) (ins : MVMSpeshIns)
    (d di oo oi ty ti : Nat)
    (hops : ins.operands = [.reg d di, .reg oo oi, .reg ty ti])
    (h : (g.facts oo oi).flags &&& MVM_SPESH_FACT_KNOWN_TYPE = 0 ∨
      (g.facts ty ti).flags &&& MVM_SPESH_FACT_KNOWN_TYPE = 0 ∨
      tc.MVM_6model_try_cache_type_check (g.facts oo oi).type (g.facts ty ti).type = none) :
    optimize_istype tc g ins = .ok (g, ins) := by
  by_cases hkt : (g.facts ty ti).flags &&& MVM_SPESH_FACT_KNOWN_TYPE = 0
  · simp [optimize_istype, hops, get_facts, hkt, bind, Except.bind]
  · by_cases hko : (g.facts oo oi).flags &&& MVM_SPESH_FACT_KNOWN_TYPE = 0
    · simp [optimize_istype, hops, get_facts, hkt, hko, bind, Except.bind]
    · have hr : tc.MVM_6model_try_cache_type_check (g.facts oo oi).type (g.facts ty ti).type
          = none := by tauto
      simp [optimize_istype, hops, get_facts, hkt, hko, hr, bind, Except.bind]

/-- C9: for `istype dst, obj, type`: when both `obj` and `type` have KNOWN_TYPE
and the type-check cache decides with result `r`, `optimize_istype` rewrites
the instruction to `const_i64 dst, r`, sets KNOWN_VALUE on the facts of `dst`
with `value.i64 = r`, and takes one usage for the `obj` operand and one for the
`type` operand (two from the same entry when they are the same register),
leaving every other field of every facts entry as it was; when the cache is
indeterminate or one of the two lacks KNOWN_TYPE, the instruction and the
whole graph are unchanged. -/
theorem optimize_istype_fold (tc : MVMThreadContext) (g : MVMSpeshGraph) (ins : MVMSpeshIns)
    (d di oo oi ty ti : Nat)
    (hops : ins.operands = [.reg d di, .reg oo oi, .reg ty ti]) :
    (∀ r : Int,
      (g.facts oo oi).flags &&& MVM_SPESH_FACT_KNOWN_TYPE ≠ 0 →
      (g.facts ty ti).flags &&& MVM_SPESH_FACT_KNOWN_TYPE ≠ 0 →
      tc.MVM_6model_try_cache_type_check (g.facts oo oi).type (g.facts ty ti).type = some r →
      ∃ g', optimize_istype tc g ins = .ok (g',
          { info := tc.MVM_op_get_op MVM_OP_const_i64,
            operands := [.reg d di, .lit_i64 r, .reg ty ti] }) ∧
        (g'.facts d di).flags &&& MVM_SPESH_FACT_KNOWN_VALUE ≠ 0 ∧
        (g'.facts d di).value.i64 = r ∧
        (∀ o i : Nat, (g'.facts o i).usages =
          (g.facts o i).usages - (if o = oo ∧ i = oi then 1 else 0)
            - (if o = ty ∧ i = ti then 1 else 0)) ∧
        (∀ o i : Nat, (g'.facts o i).type = (g.facts o i).type) ∧
        (g'.facts d di).flags = (g.facts d di).flags ||| MVM_SPESH_FACT_KNOWN_VALUE ∧
        (∀ o i : Nat, o ≠ d ∨ i ≠ di →
          (g'.facts o i).flags = (g.facts o i).flags ∧
          (g'.facts o i).value = (g.facts o i).value) ∧
        g'.bbs = g.bbs ∧ g'.spesh_slots = g.spesh_slots ∧
        g'.num_spesh_slots = g.num_spesh_slots) ∧
    ((g.facts oo oi).flags &&& MVM_SPESH_FACT_KNOWN_TYPE = 0 ∨
      (g.facts ty ti).flags &&& MVM_SPESH_FACT_KNOWN_TYPE = 0 ∨
      tc.MVM_6model_try_cache_type_check (g.facts oo oi).type (g.facts ty ti).type = none →
      optimize_istype tc g ins = .ok (g, ins)) := by
  refine ⟨?_, optimize_istype_untouched tc g ins d di oo oi ty ti hops⟩
  intro r hko hkt hr
  refine ⟨_, optimize_istype_decided tc g ins d di oo oi ty ti r hops hko hkt hr,
    ?_, ?_, ?_, ?_, ?_, ?_, rfl, rfl, rfl⟩
  · rw [istype_folded_facts]
    simp only [and_self, if_true]
    exact or_flag_and_ne_zero _
  · rw [istype_folded_facts]
    simp
  · intro o i
    rw [istype_folded_facts]
  · intro o i
    rw [istype_folded_facts]
  · rw [istype_folded_facts]
    simp
  · intro o i h
    have : ¬ (o = d ∧ i = di) := by tauto
    rw [istype_folded_facts]
    simp [this]

/-- Witness for `optimize_istype_fold`: `istype r(2,0), r(0,0), r(0,0)`, decided with result 1, and the same instruction with an indeterminate cache. -/
theorem optimize_istype_fold_witness :
    insIstype.operands = [.reg 2 0, .reg 0 0, .reg 0 0] ∧
    (∃ g', optimize_istype tcResolve (gSlotsN 0) insIstype = .ok (g',
          { info := tcResolve.MVM_op_get_op MVM_OP_const_i64,
            operands := [.reg 2 0, .lit_i64 1, .reg 0 0] }) ∧
        (g'.facts 2 0).flags &&& MVM_SPESH_FACT_KNOWN_VALUE ≠ 0 ∧
        (g'.facts 2 0).value.i64 = 1 ∧
        (g'.facts 0 0).usages = ((gSlotsN 0).facts 0 0).usages - 2) ∧
    optimize_istype tcUnknown (gSlotsN 0) insIstype = .ok (gSlotsN 0, insIstype) := by
  have h := optimize_istype_fold tcResolve (gSlotsN 0) insIstype 2 0 0 0 0 0 rfl
  have h2 := optimize_istype_fold tcUnknown (gSlotsN 0) insIstype 2 0 0 0 0 0 rfl
  refine ⟨rfl, ?_, h2.2 (Or.inr (Or.inr rfl))⟩
  obtain ⟨g', hrun, hkv, hval, hus, -⟩ := h.1 1 (by decide) (by decide) rfl
  exact ⟨g', hrun, hkv, hval, by rw [hus 0 0]; simp; ring⟩

/-! ### The reverse pass of `optimize_bb` -/

/-- The usage-propagation loop of the reverse pass takes one usage for each
visited operand that qualifies, and changes nothing else. -/
theorem propagate_non_usage_ok (phi : Bool) (ins : MVMSpeshIns) (js : List Nat) :
    ∀ g : MVMSpeshGraph,
      (∀ j ∈ js, takesUsage phi ins j = true → ∃ o i, ins.operands[j]? = some (.reg o i)) →
      propagate_non_usage phi ins g js = .ok (withUsagesTaken g (usagesTaken phi ins js)) := by
  induction js with
  | nil =>
    intro g _
    simp [propagate_non_usage, withUsagesTaken, usagesTaken]
  | cons j js ih =>
    intro g hregs
    have hrest : ∀ k ∈ js, takesUsage phi ins k = true →
        ∃ o i, ins.operands[k]? = some (.reg o i) :=
      fun k hk => hregs k (List.mem_cons_of_mem _ hk)
    by_cases ht : takesUsage phi ins j = true
    · obtain ⟨o', i', hop⟩ := hregs j (List.mem_cons_self _ _) ht
      have hc : (phi = true ∨
          ins.info.operands.getD j MVM_operand_literal = MVM_operand_read_reg) := by
        simpa [takesUsage] using ht
      rw [propagate_non_usage, if_pos hc]
      simp only [hop, get_facts, bind, Except.bind]
      rw [ih _ hrest]
      congr 1
      simp only [withUsagesTaken, decUsages, setFacts, usagesTaken]
      congr 1
      funext o i
      by_cases h : o = o' ∧ i = i'
      · obtain ⟨rfl, rfl⟩ := h
        simp [List.countP_cons, ht, hop]
        ring
      · have h' : ¬ (o' = o ∧ i' = i) := by tauto
        simp [List.countP_cons, ht, hop, h, h']
    · have hc : ¬ (phi = true ∨
          ins.info.operands.getD j MVM_operand_literal = MVM_operand_read_reg) := by
        simpa [takesUsage] using ht
      rw [propagate_non_usage, if_neg hc, ih _ hrest]
      congr 1
      simp only [withUsagesTaken, usagesTaken]
      congr 1
      funext o i
      simp [List.countP_cons, ht]

/-- The operand slots that `isReg` accepts. -/
theorem isReg_iff (x : Option MVMSpeshOperand) : isReg x = true ↔ ∃ o i, x = some (.reg o i) := by
  unfold isReg
  split
  · simp
  · rename_i h
    simp only [Bool.false_eq_true, false_iff, not_exists]
    intro o i hx
    exact h o i hx

/-- C1, evaluated at a failing input: in the graph `gIffy MVM_OP_if_i 1` every
`usages` counter equals the number of read-register operands referring to the
register. `MVM_spesh_optimize` turns `if_i r(0,0), BB2` into `goto BB2` and
drops `BB1` from the chain; afterwards `usages` of `r(0,0)` is still 1, while
no remaining instruction reads `r(0,0)`. -/
theorem MVM_spesh_optimize_usages_not_conserved :
    (IsChain (gIffy MVM_OP_if_i 1).bbs (some (gIffy MVM_OP_if_i 1).entry) [0, 1, 2] ∧
      ∀ o i : Nat, ((gIffy MVM_OP_if_i 1).facts o i).usages
        = graphReads (gIffy MVM_OP_if_i 1) [0, 1, 2] o i) ∧
    ∃ g', MVM_spesh_optimize tcUnknown 3 (gIffy MVM_OP_if_i 1) = .ok g' ∧
      IsChain g'.bbs (some g'.entry) [0, 2] ∧
      (g'.bbs 0).ins = [⟨specOpTable MVM_OP_const_i64, [.reg 0 0, .lit_i64 1]⟩,
        ⟨specOpTable MVM_OP_goto, [.ins_bb 2, .ins_bb 2]⟩] ∧
      (g'.facts 0 0).usages = 1 ∧ graphReads g' [0, 2] 0 0 = 0 := by
  refine ⟨⟨by decide, ?_⟩, ⟨_, rfl, by decide, by decide, by decide, by decide⟩⟩
  intro o i
  by_cases h : o = 0 ∧ i = 0
  · obtain ⟨rfl, rfl⟩ := h
    decide
  · have h' : ¬ (MVMSpeshOperand.reg 0 0 = MVMSpeshOperand.reg o i) := by
      intro h1; injection h1 with h2 h3; exact h ⟨h2.symm, h3.symm⟩
    simp [gIffy, graphReads, insReads, specOpTable, h, List.range_succ, List.countP_cons, h',
      List.countP_append]

/-- C2, evaluated at two failing inputs: `unless_i` on the known value 2 is
turned into `goto target` and the fall-through successor is removed (the value
is true, so the branch is never taken), and `if_i` on the known value 256 is
deleted and its target successor removed (the value is true, so the branch is
always taken). -/
theorem optimize_iffy_truthvalue_not_normalised :
    (∃ g', optimize_iffy tcUnknown (gIffy MVM_OP_unless_i 2)
        ⟨specOpTable MVM_OP_unless_i, [.reg 0 0, .ins_bb 2]⟩ 0
          = .ok (g', some ⟨specOpTable MVM_OP_goto, [.ins_bb 2, .ins_bb 2]⟩) ∧
      (g'.bbs 0).succ = [2]) ∧
    (∃ g', optimize_iffy tcUnknown (gIffy MVM_OP_if_i 256)
        ⟨specOpTable MVM_OP_if_i, [.reg 0 0, .ins_bb 2]⟩ 0 = .ok (g', none) ∧
      (g'.bbs 0).succ = [1]) :=
  ⟨⟨_, rfl, by decide⟩, ⟨_, rfl, by decide⟩⟩

/-! ### `eliminate_dead` -/

/-- The list of blocks of a chain is determined by where the chain starts. -/
theorem IsChain_unique (bbs : BBRef → MVMSpeshBB) (l1 : List BBRef) :
    ∀ (p : Option BBRef) (l2 : List BBRef), IsChain bbs p l1 → IsChain bbs p l2 → l1 = l2 := by
  induction l1 with
  | nil =>
    intro p l2 h1 h2
    cases l2 with
    | nil => rfl
    | cons b l =>
      simp only [IsChain] at h1 h2
      rw [h1] at h2
      exact absurd h2.1 (by simp)
  | cons a l ih =>
    intro p l2 h1 h2
    cases l2 with
    | nil =>
      simp only [IsChain] at h1 h2
      rw [h2] at h1
      exact absurd h1.1 (by simp)
    | cons b l' =>
      simp only [IsChain] at h1 h2
      have hab : a = b := by
        have := h1.1.symm.trans h2.1
        exact Option.some.inj this
      subst hab
      rw [ih _ _ h1.2 h2.2]

/-- The tail of a chain is the chain of the tail. -/
theorem IsChain_suffix (bbs : BBRef → MVMSpeshBB) (l1 : List BBRef) :
    ∀ (p : Option BBRef) (b : BBRef) (l2 : List BBRef), IsChain bbs p (l1 ++ b :: l2) →
      IsChain bbs (bbs b).linear_next l2 := by
  induction l1 with
  | nil => intro p b l2 h; exact h.2
  | cons a l ih => intro p b l2 h; exact ih _ b l2 h.2

/-- A finite chain does not come back to the block it hangs off. -/
theorem IsChain_not_mem (bbs : BBRef → MVMSpeshBB) (b : BBRef) (l : List BBRef)
    (h : IsChain bbs (bbs b).linear_next l) : b ∉ l := by
  intro hb
  obtain ⟨l1, l2, rfl⟩ := List.append_of_mem hb
  have h2 := IsChain_suffix bbs l1 _ b l2 h
  have := IsChain_unique bbs _ _ _ h h2
  have hlen := congrArg List.length this
  simp at hlen
  omega

/-- A finite chain visits no block twice. -/
theorem IsChain_nodup (bbs : BBRef → MVMSpeshBB) (l : List BBRef) :
    ∀ p : Option BBRef, IsChain bbs p l → l.Nodup := by
  induction l with
  | nil => intro _ _; exact List.nodup_nil
  | cons a l ih =>
    intro p h
    exact List.nodup_cons.2 ⟨IsChain_not_mem bbs a l h.2, ih _ h.2⟩

/-- A chain only depends on the `linear_next` of its own blocks. -/
theorem IsChain_congr (bbs bbs' : BBRef → MVMSpeshBB) (l : List BBRef) :
    ∀ p : Option BBRef, (∀ b ∈ l, (bbs' b).linear_next = (bbs b).linear_next) →
      IsChain bbs p l → IsChain bbs' p l := by
  induction l with
  | nil => intro p _ h; exact h
  | cons a l ih =>
    intro p hsame h
    refine ⟨h.1, ?_⟩
    rw [hsame a (List.mem_cons_self _ _)]
    exact ih _ (fun b hb => hsame b (List.mem_cons_of_mem _ hb)) h.2

/-- A successful array write was in bounds. -/
theorem writeAt_ok {α : Type} (a : List α) (i : Nat) (x : α) (a' : List α)
    (h : writeAt a i x = .ok a') : i < a.length ∧ a' = a.set i x := by
  unfold writeAt at h
  split at h
  · rename_i hi
    injection h with h
    exact ⟨hi, h.symm⟩
  · cases h

/-- A successful array read was in bounds. -/
theorem readAt_ok {α : Type} (a : List α) (i : Nat) (x : α)
    (h : readAt a i = .ok x) : a[i]? = some x := by
  unfold readAt at h
  split at h
  · rename_i y hy
    injection h with h
    rw [hy, h]
  · cases h

/-- The marks that the loop over `succ` adds. -/
theorem mark_succ_ok (bbs : BBRef → MVMSpeshBB) (ss : List BBRef) :
    ∀ seen seen' : List Bool, mark_succ bbs seen ss = .ok seen' →
      seen'.length = seen.length ∧
      ∀ k, isSeen seen' k ↔ (isSeen seen k ∨ ∃ s ∈ ss, (bbs s).idx = k) := by
  induction ss with
  | nil =>
    intro seen seen' h
    simp only [mark_succ] at h
    injection h with h
    subst h
    simp
  | cons s ss ih =>
    intro seen seen' h
    simp only [mark_succ, bind, Except.bind] at h
    cases hw : writeAt seen (bbs s).idx true with
    | error e => rw [hw] at h; cases h
    | ok seen1 =>
      rw [hw] at h
      obtain ⟨hi, rfl⟩ := writeAt_ok _ _ _ _ hw
      obtain ⟨hlen, hiff⟩ := ih _ _ h
      refine ⟨by rw [hlen, List.length_set], fun k => ?_⟩
      rw [hiff k]
      simp only [isSeen, List.mem_cons, exists_eq_or_imp]
      by_cases hk : (bbs s).idx = k
      · subst hk
        simp [List.getElem?_set_self hi]
      · simp [List.getElem?_set_ne hk, hk]

/-- The marks that the first inner loop of `eliminate_dead` adds. -/
theorem mark_loop_ok (bbs : BBRef → MVMSpeshBB) (fuel : Nat) :
    ∀ (seen seen' : List Bool) (p : Option BBRef) (l : List BBRef), IsChain bbs p l →
      mark_loop bbs fuel seen p = .ok seen' →
      seen'.length = seen.length ∧
      ∀ k, isSeen seen' k ↔ (isSeen seen k ∨ ∃ b ∈ l, ∃ s ∈ (bbs b).succ, (bbs s).idx = k) := by
  induction fuel with
  | zero =>
    intro seen seen' p l hc h
    cases p with
    | none =>
      cases l with
      | nil =>
        simp only [mark_loop] at h
        injection h with h
        subst h
        simp
      | cons b l => exact absurd hc.1 (by simp)
    | some b => simp [mark_loop] at h
  | succ fuel ih =>
    intro seen seen' p l hc h
    cases p with
    | none =>
      cases l with
      | nil =>
        simp only [mark_loop] at h
        injection h with h
        subst h
        simp
      | cons b l => exact absurd hc.1 (by simp)
    | some b =>
      cases l with
      | nil => exact absurd hc (by simp [IsChain])
      | cons b' l =>
        have hb : b = b' := Option.some.inj hc.1
        subst hb
        simp only [mark_loop, bind, Except.bind] at h
        cases hm : mark_succ bbs seen (bbs b).succ with
        | error e => rw [hm] at h; cases h
        | ok seen1 =>
          rw [hm] at h
          obtain ⟨hlen1, hiff1⟩ := mark_succ_ok bbs _ _ _ hm
          obtain ⟨hlen, hiff⟩ := ih _ _ _ _ hc.2 h
          refine ⟨by rw [hlen, hlen1], fun k => ?_⟩
          rw [hiff k, hiff1 k]
          simp only [List.mem_cons, exists_eq_or_imp]
          exact or_assoc

/-- Reflexivity of `SameButNext`. -/
theorem SameButNext_refl (x : MVMSpeshBB) : SameButNext x x := ⟨rfl, rfl, rfl, rfl, rfl⟩

/-- Transitivity of `SameButNext`. -/
theorem SameButNext_trans {x y z : MVMSpeshBB} (h1 : SameButNext x y) (h2 : SameButNext y z) :
    SameButNext x z :=
  ⟨h1.1.trans h2.1, h1.2.1.trans h2.2.1, h1.2.2.1.trans h2.2.2.1,
    h1.2.2.2.1.trans h2.2.2.2.1, h1.2.2.2.2.trans h2.2.2.2.2⟩

/-- Reflexivity of `SameOutsideBlocks`. -/
theorem SameOutsideBlocks_refl (x : MVMSpeshGraph) : SameOutsideBlocks x x :=
  ⟨rfl, rfl, rfl, rfl, rfl, rfl⟩

/-- Transitivity of `SameOutsideBlocks`. -/
theorem SameOutsideBlocks_trans {x y z : MVMSpeshGraph} (h1 : SameOutsideBlocks x y)
    (h2 : SameOutsideBlocks y z) : SameOutsideBlocks x z :=
  ⟨h1.1.trans h2.1, h1.2.1.trans h2.2.1, h1.2.2.1.trans h2.2.2.1,
    h1.2.2.2.1.trans h2.2.2.2.1, h1.2.2.2.2.1.trans h2.2.2.2.2.1,
    h1.2.2.2.2.2.trans h2.2.2.2.2.2⟩

/-- The empty chain starts at NULL. -/
theorem IsChain_nil_iff (bbs : BBRef → MVMSpeshBB) (p : Option BBRef) :
    IsChain bbs p [] ↔ p = none := by
  simp [IsChain]

/-- The chain that starts at NULL is empty. -/
theorem IsChain_none (bbs : BBRef → MVMSpeshBB) (l : List BBRef) (h : IsChain bbs none l) :
    l = [] := by
  cases l with
  | nil => rfl
  | cons b l => exact absurd h.1 (by simp)

/-- The chain that starts at a block has that block first. -/
theorem IsChain_some (bbs : BBRef → MVMSpeshBB) (b : BBRef) (l : List BBRef)
    (h : IsChain bbs (some b) l) : ∃ l', l = b :: l' ∧ IsChain bbs (bbs b).linear_next l' := by
  cases l with
  | nil => exact absurd h (by simp [IsChain])
  | cons b' l' =>
    have hb : b = b' := Option.some.inj h.1
    subst hb
    exact ⟨l', rfl, h.2⟩

/-- What the removal loop of `eliminate_dead` does to the chain behind
`cur_bb`, when it ends normally. -/
theorem remove_loop_ok (seen : List Bool) (fuel : Nat) :
    ∀ (g : MVMSpeshGraph) (death : Bool) (cur : BBRef) (R : List BBRef)
      (g' : MVMSpeshGraph) (death' : Bool),
      IsChain g.bbs (g.bbs cur).linear_next R →
      remove_loop seen fuel g death (some cur) = .ok (g', death') →
      ∃ R', IsChain g'.bbs (g'.bbs cur).linear_next R' ∧ R'.Sublist R ∧
        (∀ b ∈ R, b ∉ R' → seen[(g.bbs b).idx]? = some false) ∧
        (R'.length = R.length → ∀ b ∈ R, isSeen seen (g.bbs b).idx) ∧
        g'.num_bbs = g.num_bbs - ((R.length : Int) - R'.length) ∧
        (death' = true ↔ (death = true ∨ R'.length < R.length)) ∧
        (∀ b, SameButNext (g'.bbs b) (g.bbs b)) ∧
        (∀ b, b ≠ cur → b ∉ R → g'.bbs b = g.bbs b) ∧
        SameOutsideBlocks g' g := by
  induction fuel with
  | zero => intro g death cur R g' death' _ h; simp [remove_loop] at h
  | succ fuel ih =>
    intro g death cur R g' death' hc h
    rw [remove_loop] at h
    cases hn : (g.bbs cur).linear_next with
    | none =>
      rw [hn] at h hc
      have hR := IsChain_none _ _ hc
      subst hR
      simp only at h
      injection h with h
      injection h with h1 h2
      subst h1; subst h2
      refine ⟨[], by rw [hn]; exact hc, List.Sublist.refl _, by simp, by simp, by simp, by simp,
        fun b => SameButNext_refl _, fun _ _ _ => rfl, SameOutsideBlocks_refl _⟩
    | some n =>
      rw [hn] at h hc
      obtain ⟨R1, rfl, hc1⟩ := IsChain_some _ _ _ hc
      have hcurR : cur ∉ n :: R1 := IsChain_not_mem g.bbs cur _ (by rw [hn]; exact hc)
      have hnR1 : n ∉ R1 := IsChain_not_mem g.bbs n _ hc1
      simp only [bind, Except.bind] at h
      cases hs : readAt seen (g.bbs n).idx with
      | error e => rw [hs] at h; cases h
      | ok s =>
        rw [hs] at h
        have hsn := readAt_ok _ _ _ hs
        cases s with
        | true =>
          simp only [Bool.not_true, Bool.false_eq_true, if_false] at h
          obtain ⟨R1', hc', hsub, hrem, hall, hnum, hdeath, hsame, hframe, hout⟩ :=
            ih g death n R1 g' death' hc1 h
          have hcur' : g'.bbs cur = g.bbs cur :=
            hframe cur (fun h => hcurR (h ▸ List.mem_cons_self _ _))
              (fun h => hcurR (List.mem_cons_of_mem _ h))
          refine ⟨n :: R1', ?_, hsub.cons₂ n, ?_, ?_, ?_, ?_, hsame, ?_, hout⟩
          · rw [hcur', hn]
            exact ⟨rfl, hc'⟩
          · intro b hb hb'
            rcases List.mem_cons.1 hb with rfl | hb1
            · exact absurd (List.mem_cons_self _ _) hb'
            · exact hrem b hb1 (fun h => hb' (List.mem_cons_of_mem _ h))
          · intro hlen b hb
            have hlen' : R1'.length = R1.length := by simpa using hlen
            rcases List.mem_cons.1 hb with rfl | hb1
            · exact hsn
            · exact hall hlen' b hb1
          · rw [hnum]; simp only [List.length_cons]; push_cast; ring
          · rw [hdeath]; simp only [List.length_cons, Nat.add_lt_add_iff_right]
          · intro b hb1 hb2
            exact hframe b (fun h => hb2 (h ▸ List.mem_cons_self _ _))
              (fun h => hb2 (List.mem_cons_of_mem _ h))
        | false =>
          simp only [Bool.not_false, if_true] at h
          have hnext : (setBB g.bbs cur
              { g.bbs cur with linear_next := (g.bbs n).linear_next } cur).linear_next
                = (g.bbs n).linear_next := by simp [setBB]
          rw [hnext] at h
          cases hm : (g.bbs n).linear_next with
          | none =>
            rw [hm] at h
            simp [remove_loop] at h
          | some m =>
            rw [hm] at h hc1
            obtain ⟨R2, rfl, hc2⟩ := IsChain_some _ _ _ hc1
            have hcurm : cur ≠ m := fun h =>
              hcurR (h ▸ List.mem_cons_of_mem _ (List.mem_cons_self _ _))
            have hcurR2 : cur ∉ R2 := fun h =>
              hcurR (List.mem_cons_of_mem _ (List.mem_cons_of_mem _ h))
            have hmR2 : m ∉ R2 := IsChain_not_mem g.bbs m _ hc2
            let g1 : MVMSpeshGraph :=
              { g with bbs := setBB g.bbs cur { g.bbs cur with linear_next := some m },
                       num_bbs := g.num_bbs - 1 }
            have hg1 : ∀ b, b ≠ cur → g1.bbs b = g.bbs b := by
              intro b hb; simp [g1, setBB, hb]
            have hg1m : g1.bbs m = g.bbs m := hg1 m (Ne.symm hcurm)
            have hc2' : IsChain g1.bbs (g1.bbs m).linear_next R2 := by
              rw [hg1m]
              refine IsChain_congr g.bbs g1.bbs R2 _ (fun b hb => ?_) hc2
              rw [hg1 b (fun h => hcurR2 (h ▸ hb))]
            obtain ⟨R2', hc', hsub, hrem, hall, hnum, hdeath, hsame, hframe, hout⟩ :=
              ih g1 true m R2 g' death' hc2' h
            have hcur' : g'.bbs cur = g1.bbs cur := hframe cur hcurm hcurR2
            have hsame1 : ∀ b, SameButNext (g1.bbs b) (g.bbs b) := by
              intro b
              by_cases hb : b = cur
              · subst hb
                simp [g1, setBB, SameButNext]
              · rw [hg1 b hb]; exact SameButNext_refl _
            refine ⟨m :: R2', ?_, (hsub.cons₂ m).cons n, ?_, ?_, ?_, ?_, ?_, ?_, ?_⟩
            · rw [hcur']
              have : (g1.bbs cur).linear_next = some m := by simp [g1, setBB]
              rw [this]
              exact ⟨rfl, hc'⟩
            · intro b hb hb'
              rcases List.mem_cons.1 hb with rfl | hb1
              · exact hsn
              · rcases List.mem_cons.1 hb1 with rfl | hb2
                · exact absurd (List.mem_cons_self _ _) hb'
                · have := hrem b hb2 (fun h => hb' (List.mem_cons_of_mem _ h))
                  rw [hg1 b (fun h => hcurR2 (h ▸ hb2))] at this
                  exact this
            · intro hlen
              have h1 := hsub.length_le
              simp only [List.length_cons] at hlen
              omega
            · rw [hnum]; simp only [List.length_cons, g1]; push_cast; ring
            · have h1 := hsub.length_le
              have h2 : (m :: R2').length < (n :: m :: R2).length := by
                simp only [List.length_cons]; omega
              rw [hdeath]
              exact ⟨fun _ => Or.inr h2, fun _ => Or.inl rfl⟩
            · intro b
              exact SameButNext_trans (hsame b) (hsame1 b)
            · intro b hb1 hb2
              have hbm : b ≠ m := fun h =>
                hb2 (h ▸ List.mem_cons_of_mem _ (List.mem_cons_self _ _))
              have hbR2 : b ∉ R2 := fun h =>
                hb2 (List.mem_cons_of_mem _ (List.mem_cons_of_mem _ h))
              rw [hframe b hbm hbR2, hg1 b hb1]
            · exact SameOutsideBlocks_trans hout (SameOutsideBlocks_refl _)

/-- The call `memset(seen, 0, n)` sets no mark. -/
theorem memset_zero_ok (seen seen1 : List Bool) (n : Int) (h : memset_zero seen n = .ok seen1) :
    seen1.length = seen.length ∧ ∀ k, isSeen seen1 k → isSeen seen k := by
  unfold memset_zero at h
  split at h
  · cases h
  · rename_i hn
    injection h with h
    subst h
    have h1 : ¬ n < 0 := fun h => hn (Or.inl h)
    have h2 : ¬ (seen.length : Int) < n := fun h => hn (Or.inr h)
    have hle : n.toNat ≤ seen.length := by omega
    refine ⟨by simp; omega, fun k hk => ?_⟩
    unfold isSeen at hk ⊢
    by_cases hkn : k < n.toNat
    · rw [List.getElem?_append_left (by simpa using hkn)] at hk
      simp [List.getElem?_replicate, hkn] at hk
    · rw [List.getElem?_append_right (by simpa using hkn)] at hk
      simp only [List.length_replicate, List.getElem?_drop] at hk
      have : n.toNat + (k - n.toNat) = k := by omega
      rwa [this] at hk

/-- The marks after `seen[0] = 1`. -/
theorem isSeen_set_zero (seen : List Bool) (h : 0 < seen.length) (k : Nat) :
    isSeen (seen.set 0 true) k ↔ (k = 0 ∨ isSeen seen k) := by
  unfold isSeen
  by_cases hk : k = 0
  · subst hk
    simp [List.getElem?_set_self h]
  · rw [List.getElem?_set_ne (Ne.symm hk)]
    simp [hk]

/-- A reachable block is the start or a successor of a reachable block. -/
theorem Reach_cases (bbs : BBRef → MVMSpeshBB) (a b : BBRef) (h : Reach bbs a b) :
    b = a ∨ ∃ p, Reach bbs a p ∧ b ∈ (bbs p).succ :=
  Relation.ReflTransGen.cases_tail h

/-- What the rounds of `eliminate_dead` do to the chain behind the entry, when
they end normally. `g0` is the graph before the first round and `L0` its
chain. -/
theorem eliminate_dead_rounds_ok (fuel : Nat) (g0 : MVMSpeshGraph) (L0 : List BBRef)
    (rounds : Nat) :
    ∀ (g : MVMSpeshGraph) (seen : List Bool) (R : List BBRef) (g' : MVMSpeshGraph),
      (∀ b, SameButNext (g.bbs b) (g0.bbs b)) →
      g.entry = g0.entry →
      IsChain g.bbs (g.bbs g.entry).linear_next R →
      (∀ b ∈ g.entry :: R, b ∈ L0) →
      (∀ k, isSeen seen k → Marked0 g0.bbs L0 k) →
      eliminate_dead_rounds fuel rounds g seen = .ok g' →
      ∃ R', IsChain g'.bbs (g'.bbs g'.entry).linear_next R' ∧ R'.Sublist R ∧
        g'.num_bbs = g.num_bbs - ((R.length : Int) - R'.length) ∧
        (∀ b, SameButNext (g'.bbs b) (g.bbs b)) ∧
        (∀ b, b ∉ g.entry :: R → g'.bbs b = g.bbs b) ∧
        SameOutsideBlocks g' g ∧
        ((∀ b, Reach g0.bbs g0.entry b → b ∈ g.entry :: R) →
          ∀ b, Reach g0.bbs g0.entry b → b ∈ g.entry :: R') ∧
        (∀ b ∈ R', Marked0 g0.bbs L0 (g0.bbs b).idx) := by
  induction rounds with
  | zero => intro g seen R g' _ _ _ _ _ h; simp [eliminate_dead_rounds] at h
  | succ rounds ih =>
    intro g seen R g' hsame0 hentry hc hsubL hseen h
    simp only [eliminate_dead_rounds, bind, Except.bind] at h
    cases h1 : memset_zero seen g.num_bbs with
    | error e => rw [h1] at h; cases h
    | ok seen1 =>
    rw [h1] at h
    simp only at h
    cases h2 : writeAt seen1 0 true with
    | error e => rw [h2] at h; cases h
    | ok seen2 =>
    rw [h2] at h
    simp only at h
    cases h3 : mark_loop g.bbs fuel seen2 (some g.entry) with
    | error e => rw [h3] at h; cases h
    | ok seen3 =>
    rw [h3] at h
    simp only at h
    cases h4 : remove_loop seen3 fuel g false (some g.entry) with
    | error e => rw [h4] at h; cases h
    | ok res =>
    obtain ⟨g1, death⟩ := res
    rw [h4] at h
    simp only at h
    obtain ⟨-, hm1⟩ := memset_zero_ok _ _ _ h1
    obtain ⟨hpos, rfl⟩ := writeAt_ok _ _ _ _ h2
    have hcfull : IsChain g.bbs (some g.entry) (g.entry :: R) := ⟨rfl, hc⟩
    obtain ⟨-, hm3⟩ := mark_loop_ok g.bbs fuel _ _ _ _ hcfull h3
    obtain ⟨R1, hc1, hsub1, hrem1, hall1, hnum1, hdeath1, hsame1, hframe1, hout1⟩ :=
      remove_loop_ok seen3 fuel g false g.entry R g1 death hc h4
    -- the marks of this round lie within `Marked0`
    have hseen3 : ∀ k, isSeen seen3 k → Marked0 g0.bbs L0 k := by
      intro k hk
      rcases (hm3 k).1 hk with hk2 | ⟨b, hb, s, hs, hidx⟩
      · rcases (isSeen_set_zero _ hpos k).1 hk2 with hk0 | hk1
        · exact Or.inl hk0
        · exact hseen k (hm1 k hk1)
      · refine Or.inr ⟨b, hsubL b hb, s, ?_, ?_⟩
        · rw [← (hsame0 b).2.2.1]; exact hs
        · rw [← (hsame0 s).1]; exact hidx
    -- reachable blocks survive this round
    have hreach1 : (∀ b, Reach g0.bbs g0.entry b → b ∈ g.entry :: R) →
        ∀ b, Reach g0.bbs g0.entry b → b ∈ g.entry :: R1 := by
      intro hall b hb
      rcases Reach_cases _ _ _ hb with hbe | ⟨p, hp, hps⟩
      · rw [hbe, hentry]; exact List.mem_cons_self _ _
      · rcases List.mem_cons.1 (hall b hb) with hbe | hbR
        · rw [hbe]; exact List.mem_cons_self _ _
        · by_contra hnot
          have hb1 : b ∉ R1 := fun h => hnot (List.mem_cons_of_mem _ h)
          have hfalse := hrem1 b hbR hb1
          have htrue : isSeen seen3 (g.bbs b).idx :=
            (hm3 _).2 (Or.inr ⟨p, hall p hp, b, by rw [(hsame0 p).2.2.1]; exact hps, rfl⟩)
          unfold isSeen at htrue
          rw [hfalse] at htrue
          cases htrue
    have hentry1 : g1.entry = g.entry := hout1.1
    cases death with
    | true =>
      simp only [if_true] at h
      have hsame0' : ∀ b, SameButNext (g1.bbs b) (g0.bbs b) :=
        fun b => SameButNext_trans (hsame1 b) (hsame0 b)
      have hc1' : IsChain g1.bbs (g1.bbs g1.entry).linear_next R1 := by rw [hentry1]; exact hc1
      have hsubL1 : ∀ b ∈ g1.entry :: R1, b ∈ L0 := by
        intro b hb
        rcases List.mem_cons.1 hb with hbe | hbR
        · exact hsubL b (by rw [hbe, hentry1]; exact List.mem_cons_self _ _)
        · exact hsubL b (List.mem_cons_of_mem _ (hsub1.subset hbR))
      obtain ⟨R', hc', hsub', hnum', hsame', hframe', hout', hreach', hmark'⟩ :=
        ih g1 seen3 R1 g' hsame0' (hentry1.trans hentry) hc1' hsubL1 hseen3 h
      have hl1 := hsub1.length_le
      have hl2 := hsub'.length_le
      refine ⟨R', hc', hsub'.trans hsub1, ?_, fun b => SameButNext_trans (hsame' b) (hsame1 b),
        ?_, SameOutsideBlocks_trans hout' hout1, ?_, hmark'⟩
      · rw [hnum', hnum1]; ring
      · intro b hb
        have hb1 : b ∉ g1.entry :: R1 := by
          intro hmem
          rcases List.mem_cons.1 hmem with hbe | hbR
          · exact hb (by rw [hbe, hentry1]; exact List.mem_cons_self _ _)
          · exact hb (List.mem_cons_of_mem _ (hsub1.subset hbR))
        rw [hframe' b hb1]
        exact hframe1 b (fun h => hb (h ▸ List.mem_cons_self _ _))
          (fun h => hb (List.mem_cons_of_mem _ h))
      · intro hall b hb
        have := hreach' (by rw [hentry1]; exact hreach1 hall) b hb
        rwa [hentry1] at this
    | false =>
      simp only [Bool.false_eq_true, if_false] at h
      injection h with h
      subst h
      have hlen : R1.length = R.length := by
        have hl1 := hsub1.length_le
        by_contra hne
        have : R1.length < R.length := by omega
        have := hdeath1.2 (Or.inr this)
        cases this
      have hR1 : R1 = R := hsub1.eq_of_length hlen
      subst hR1
      refine ⟨R1, by rw [hentry1]; exact hc1, List.Sublist.refl _, hnum1, hsame1,
        ?_, hout1, fun hall => hall, ?_⟩
      · intro b hb
        exact hframe1 b (fun h => hb (h ▸ List.mem_cons_self _ _))
          (fun h => hb (List.mem_cons_of_mem _ h))
      · intro b hb
        have := hseen3 _ (hall1 rfl b hb)
        rwa [(hsame0 b).1] at this

/-- What the renumbering loop of `eliminate_dead` does. -/
theorem renumber_ok (fuel : Nat) :
    ∀ (bbs : BBRef → MVMSpeshBB) (k : Nat) (p : Option BBRef) (L : List BBRef)
      (bbs' : BBRef → MVMSpeshBB),
      IsChain bbs p L → renumber fuel bbs k p = .ok bbs' →
      IsChain bbs' p L ∧
      (∀ j (h : j < L.length), (bbs' (L.get ⟨j, h⟩)).idx = k + j) ∧
      (∀ b, (bbs' b).linear_next = (bbs b).linear_next ∧ (bbs' b).succ = (bbs b).succ ∧
        (bbs' b).pred = (bbs b).pred ∧ (bbs' b).children = (bbs b).children ∧
        (bbs' b).ins = (bbs b).ins) ∧
      (∀ b, b ∉ L → bbs' b = bbs b) := by
  induction fuel with
  | zero =>
    intro bbs k p L bbs' hc h
    cases p with
    | none =>
      have := IsChain_none _ _ hc
      subst this
      simp only [renumber] at h
      injection h with h
      subst h
      exact ⟨hc, fun j hj => absurd hj (by simp), fun b => ⟨rfl, rfl, rfl, rfl, rfl⟩, fun _ _ => rfl⟩
    | some b => simp [renumber] at h
  | succ fuel ih =>
    intro bbs k p L bbs' hc h
    cases p with
    | none =>
      have := IsChain_none _ _ hc
      subst this
      simp only [renumber] at h
      injection h with h
      subst h
      exact ⟨hc, fun j hj => absurd hj (by simp), fun b => ⟨rfl, rfl, rfl, rfl, rfl⟩, fun _ _ => rfl⟩
    | some cur =>
      obtain ⟨L1, rfl, hc1⟩ := IsChain_some _ _ _ hc
      have hcur : cur ∉ L1 := IsChain_not_mem bbs cur L1 hc1
      simp only [renumber] at h
      have hnext : (setBB bbs cur { bbs cur with idx := k } cur).linear_next
          = (bbs cur).linear_next := by simp [setBB]
      rw [hnext] at h
      have hsame : ∀ b, (setBB bbs cur { bbs cur with idx := k } b).linear_next
          = (bbs b).linear_next := by
        intro b
        by_cases hb : b = cur
        · subst hb; simp [setBB]
        · simp [setBB, hb]
      have hc1' : IsChain (setBB bbs cur { bbs cur with idx := k }) (bbs cur).linear_next L1 :=
        IsChain_congr bbs _ L1 _ (fun b _ => hsame b) hc1
      obtain ⟨hc', hidx, hfields, hframe⟩ := ih _ _ _ _ _ hc1' h
      refine ⟨⟨rfl, ?_⟩, ?_, ?_, ?_⟩
      · rw [(hfields cur).1, hnext]; exact hc'
      · intro j hj
        cases j with
        | zero =>
          simp only [List.get_eq_getElem, List.getElem_cons_zero, Nat.add_zero]
          rw [hframe cur hcur]
          simp [setBB]
        | succ j =>
          have hj' : j < L1.length := by simpa using hj
          have := hidx j hj'
          simp only [List.get_eq_getElem, List.getElem_cons_succ] at this ⊢
          rw [this]; ring
      · intro b
        obtain ⟨f1, f2, f3, f4, f5⟩ := hfields b
        by_cases hb : b = cur
        · subst hb
          refine ⟨f1.trans hnext, ?_, ?_, ?_, ?_⟩
          · rw [f2]; simp [setBB]
          · rw [f3]; simp [setBB]
          · rw [f4]; simp [setBB]
          · rw [f5]; simp [setBB]
        · refine ⟨f1.trans (hsame b), ?_, ?_, ?_, ?_⟩
          · rw [f2]; simp [setBB, hb]
          · rw [f3]; simp [setBB, hb]
          · rw [f4]; simp [setBB, hb]
          · rw [f5]; simp [setBB, hb]
      · intro b hb
        have hb1 : b ≠ cur := fun h => hb (h ▸ List.mem_cons_self _ _)
        have hb2 : b ∉ L1 := fun h => hb (List.mem_cons_of_mem _ h)
        rw [hframe b hb2]
        simp [setBB, hb1]

/-- What `eliminate_dead` does to a graph with a finite chain `L`, when it
returns. -/
theorem eliminate_dead_ok (fuel : Nat) (g g' : MVMSpeshGraph) (L : List BBRef)
    (hc : IsChain g.bbs (some g.entry) L) (hrun : eliminate_dead fuel g = .ok g') :
    ∃ L', IsChain g'.bbs (some g'.entry) L' ∧ L'.Sublist L ∧ g.entry ∈ L' ∧
      g'.entry = g.entry ∧
      g'.num_bbs = g.num_bbs - ((L.length : Int) - L'.length) ∧
      (∀ b, (g'.bbs b).succ = (g.bbs b).succ) ∧
      ((∀ b, Reach g.bbs g.entry b → b ∈ L) → ∀ b, Reach g.bbs g.entry b → b ∈ L') ∧
      (∀ b ∈ L', b = g.entry ∨ Marked0 g.bbs L (g.bbs b).idx) ∧
      (L'.length ≠ L.length → ∀ j (h : j < L'.length), (g'.bbs (L'.get ⟨j, h⟩)).idx = j) ∧
      (L'.length = L.length → ∀ b, (g'.bbs b).idx = (g.bbs b).idx) := by
  obtain ⟨R, rfl, hcR⟩ := IsChain_some _ _ _ hc
  unfold eliminate_dead at hrun
  split at hrun
  · cases hrun
  · simp only [bind, Except.bind] at hrun
    cases h1 : eliminate_dead_rounds fuel fuel g (List.replicate g.num_bbs.toNat false) with
    | error e => rw [h1] at hrun; cases hrun
    | ok g1 =>
      rw [h1] at hrun
      simp only at hrun
      have hseen0 : ∀ k, isSeen (List.replicate g.num_bbs.toNat false) k →
          Marked0 g.bbs (g.entry :: R) k := by
        intro k hk
        unfold isSeen at hk
        simp [List.getElem?_replicate] at hk
      obtain ⟨R', hc', hsub', hnum', hsame', hframe', hout', hreach', hmark'⟩ :=
        eliminate_dead_rounds_ok fuel g (g.entry :: R) fuel g _ R g1
          (fun b => SameButNext_refl _) rfl hcR (fun b hb => hb) hseen0 h1
      have hentry1 : g1.entry = g.entry := hout'.1
      have hc1 : IsChain g1.bbs (some g1.entry) (g.entry :: R') := by
        rw [hentry1]; exact ⟨rfl, by rw [← hentry1]; exact hc'⟩
      have hl := hsub'.length_le
      have hmarkL : ∀ b ∈ g.entry :: R', b = g.entry ∨ Marked0 g.bbs (g.entry :: R) (g.bbs b).idx := by
        intro b hb
        rcases List.mem_cons.1 hb with h | h
        · exact Or.inl h
        · exact Or.inr (hmark' b h)
      split at hrun
      · rename_i hne
        cases h2 : renumber fuel g1.bbs 0 (some g1.entry) with
        | error e => rw [h2] at hrun; cases hrun
        | ok bbs1 =>
          rw [h2] at hrun
          simp only at hrun
          injection hrun with hrun
          subst hrun
          obtain ⟨hc2, hidx2, hfields2, -⟩ := renumber_ok fuel _ _ _ _ _ hc1 h2
          refine ⟨g.entry :: R', ?_, hsub'.cons₂ _, List.mem_cons_self _ _, hentry1, ?_, ?_, ?_,
            hmarkL, ?_, ?_⟩
          · exact hc2
          · show g1.num_bbs = _
            rw [hnum']; simp only [List.length_cons]; push_cast; ring
          · intro b
            show (bbs1 b).succ = _
            rw [(hfields2 b).2.1, (hsame' b).2.2.1]
          · intro hall b hb
            have := hreach' hall b hb
            exact this
          · intro _ j hj
            have := hidx2 j hj
            simpa using this
          · intro hlen
            exfalso
            apply hne
            rw [hnum']
            simp only [List.length_cons] at hlen
            have : R'.length = R.length := by omega
            rw [this]; ring
      · rename_i heq
        injection hrun with hrun
        subst hrun
        have heq' : g1.num_bbs = g.num_bbs := by
          by_contra h; exact heq h
        refine ⟨g.entry :: R', hc1, hsub'.cons₂ _, List.mem_cons_self _ _, hentry1, ?_, ?_, ?_,
          hmarkL, ?_, ?_⟩
        · rw [hnum']; simp only [List.length_cons]; push_cast; ring
        · intro b
          exact (hsame' b).2.2.1
        · intro hall b hb
          exact hreach' hall b hb
        · intro hlen
          exfalso
          apply hlen
          rw [hnum'] at heq'
          simp only [List.length_cons]
          omega
        · intro _ b
          exact (hsame' b).1

/-- Membership in `succsOf`. -/
theorem mem_succsOf (bbs : BBRef → MVMSpeshBB) (s : BBRef) (L : List BBRef) :
    s ∈ succsOf bbs L ↔ ∃ p ∈ L, s ∈ (bbs p).succ := by
  induction L with
  | nil => simp [succsOf]
  | cons p l ih => simp [succsOf, ih]

/-- What is reachable from a block of a `succ`-closed list is in the list. -/
theorem Reach_mem_of_closed (bbs : BBRef → MVMSpeshBB) (S : List BBRef) (a b : BBRef)
    (ha : a ∈ S) (hclosed : SuccClosed bbs S) (h : Reach bbs a b) : b ∈ S := by
  induction h with
  | refl => exact ha
  | tail _ hstep ih => exact hclosed _ ih _ hstep

/-- The loop over `succ` cannot run out of fuel. -/
theorem mark_succ_fuel (bbs : BBRef → MVMSpeshBB) (ss : List BBRef) :
    ∀ seen : List Bool, mark_succ bbs seen ss ≠ .error .outOfFuel := by
  induction ss with
  | nil => intro seen h; simp [mark_succ] at h
  | cons s ss ih =>
    intro seen h
    simp only [mark_succ, bind, Except.bind] at h
    cases hw : writeAt seen (bbs s).idx true with
    | error e =>
      rw [hw] at h
      unfold writeAt at hw
      split at hw
      · cases hw
      · injection hw with hw
        subst hw
        cases h
    | ok seen1 =>
      rw [hw] at h
      exact ih _ h

/-- With fuel for every block of the chain, the marking loop does not run out
of fuel. -/
theorem mark_loop_fuel (bbs : BBRef → MVMSpeshBB) (L : List BBRef) :
    ∀ (fuel : Nat) (seen : List Bool) (p : Option BBRef), IsChain bbs p L → L.length ≤ fuel →
      mark_loop bbs fuel seen p ≠ .error .outOfFuel := by
  induction L with
  | nil =>
    intro fuel seen p hc _ h
    have hp : p = none := hc
    subst hp
    cases fuel <;> simp [mark_loop] at h
  | cons b L ih =>
    intro fuel seen p hc hf h
    have hp : p = some b := hc.1
    subst hp
    cases fuel with
    | zero => simp at hf
    | succ fuel =>
      simp only [mark_loop, bind, Except.bind] at h
      cases hm : mark_succ bbs seen (bbs b).succ with
      | error e =>
        rw [hm] at h
        simp only at h
        injection h with h
        subst h
        exact mark_succ_fuel _ _ _ hm
      | ok seen1 =>
        rw [hm] at h
        exact ih fuel seen1 _ hc.2 (by simpa using hf) h

/-- With fuel for every block of the chain, the removal loop does not run out
of fuel. -/
theorem remove_loop_fuel (seen : List Bool) (fuel : Nat) :
    ∀ (g : MVMSpeshGraph) (death : Bool) (cur : BBRef) (R : List BBRef),
      IsChain g.bbs (g.bbs cur).linear_next R → R.length + 1 ≤ fuel →
      remove_loop seen fuel g death (some cur) ≠ .error .outOfFuel := by
  induction fuel with
  | zero => intro g death cur R _ hf; simp at hf
  | succ fuel ih =>
    intro g death cur R hc hf h
    rw [remove_loop] at h
    cases hn : (g.bbs cur).linear_next with
    | none =>
      rw [hn] at h
      cases h
    | some n =>
      rw [hn] at h hc
      obtain ⟨R1, rfl, hc1⟩ := IsChain_some _ _ _ hc
      have hcurR : cur ∉ n :: R1 := IsChain_not_mem g.bbs cur _ (by rw [hn]; exact hc)
      simp only [bind, Except.bind] at h
      cases hs : readAt seen (g.bbs n).idx with
      | error e =>
        rw [hs] at h
        unfold readAt at hs
        split at hs
        · cases hs
        · injection hs with hs
          subst hs
          cases h
      | ok s =>
        rw [hs] at h
        cases s with
        | true =>
          simp only [Bool.not_true, Bool.false_eq_true, if_false] at h
          exact ih g death n R1 hc1 (by simpa using hf) h
        | false =>
          simp only [Bool.not_false, if_true] at h
          have hnext : (setBB g.bbs cur
              { g.bbs cur with linear_next := (g.bbs n).linear_next } cur).linear_next
                = (g.bbs n).linear_next := by simp [setBB]
          rw [hnext] at h
          cases hm : (g.bbs n).linear_next with
          | none =>
            rw [hm] at h
            simp [remove_loop] at h
          | some m =>
            rw [hm] at h hc1
            obtain ⟨R2, rfl, hc2⟩ := IsChain_some _ _ _ hc1
            have hcurm : cur ≠ m := fun h =>
              hcurR (h ▸ List.mem_cons_of_mem _ (List.mem_cons_self _ _))
            have hcurR2 : cur ∉ R2 := fun h =>
              hcurR (List.mem_cons_of_mem _ (List.mem_cons_of_mem _ h))
            let g1 : MVMSpeshGraph :=
              { g with bbs := setBB g.bbs cur { g.bbs cur with linear_next := some m },
                       num_bbs := g.num_bbs - 1 }
            have hg1 : ∀ b, b ≠ cur → g1.bbs b = g.bbs b := by
              intro b hb; simp [g1, setBB, hb]
            have hc2' : IsChain g1.bbs (g1.bbs m).linear_next R2 := by
              rw [hg1 m (Ne.symm hcurm)]
              refine IsChain_congr g.bbs g1.bbs R2 _ (fun b hb => ?_) hc2
              rw [hg1 b (fun h => hcurR2 (h ▸ hb))]
            refine ih g1 true m R2 hc2' ?_ h
            simp only [List.length_cons] at hf
            omega

/-- With fuel for every block of the chain, the renumbering loop does not run
out of fuel. -/
theorem renumber_fuel (L : List BBRef) :
    ∀ (fuel : Nat) (bbs : BBRef → MVMSpeshBB) (k : Nat) (p : Option BBRef),
      IsChain bbs p L → L.length ≤ fuel → renumber fuel bbs k p ≠ .error .outOfFuel := by
  induction L with
  | nil =>
    intro fuel bbs k p hc _ h
    have hp : p = none := hc
    subst hp
    cases fuel <;> simp [renumber] at h
  | cons b L ih =>
    intro fuel bbs k p hc hf h
    have hp : p = some b := hc.1
    subst hp
    cases fuel with
    | zero => simp at hf
    | succ fuel =>
      simp only [renumber] at h
      have hsame : ∀ c, (setBB bbs b { bbs b with idx := k } c).linear_next
          = (bbs c).linear_next := by
        intro c
        by_cases hcb : c = b
        · subst hcb; simp [setBB]
        · simp [setBB, hcb]
      rw [hsame b] at h
      exact ih fuel _ _ _ (IsChain_congr bbs _ L _ (fun c _ => hsame c) hc.2)
        (by simpa using hf) h

/-- With fuel for every block of the chain, the rounds of `eliminate_dead` do
not run out of fuel: every round but the last removes a block. -/
theorem eliminate_dead_rounds_fuel (fuel : Nat) (rounds : Nat) :
    ∀ (g : MVMSpeshGraph) (seen : List Bool) (R : List BBRef),
      IsChain g.bbs (g.bbs g.entry).linear_next R → R.length + 1 ≤ fuel →
      R.length + 1 ≤ rounds →
      eliminate_dead_rounds fuel rounds g seen ≠ .error .outOfFuel := by
  induction rounds with
  | zero => intro g seen R _ _ hr; simp at hr
  | succ rounds ih =>
    intro g seen R hc hf hr h
    simp only [eliminate_dead_rounds, bind, Except.bind] at h
    cases h1 : memset_zero seen g.num_bbs with
    | error e =>
      rw [h1] at h
      unfold memset_zero at h1
      split at h1
      · injection h1 with h1
        subst h1
        cases h
      · cases h1
    | ok seen1 =>
    rw [h1] at h
    simp only at h
    cases h2 : writeAt seen1 0 true with
    | error e =>
      rw [h2] at h
      unfold writeAt at h2
      split at h2
      · cases h2
      · injection h2 with h2
        subst h2
        cases h
    | ok seen2 =>
    rw [h2] at h
    simp only at h
    have hcfull : IsChain g.bbs (some g.entry) (g.entry :: R) := ⟨rfl, hc⟩
    cases h3 : mark_loop g.bbs fuel seen2 (some g.entry) with
    | error e =>
      rw [h3] at h
      simp only at h
      injection h with h
      subst h
      exact mark_loop_fuel g.bbs _ fuel seen2 _ hcfull (by simpa using hf) h3
    | ok seen3 =>
    rw [h3] at h
    simp only at h
    cases h4 : remove_loop seen3 fuel g false (some g.entry) with
    | error e =>
      rw [h4] at h
      simp only at h
      injection h with h
      subst h
      exact remove_loop_fuel seen3 fuel g false g.entry R hc hf h4
    | ok res =>
    obtain ⟨g1, death⟩ := res
    rw [h4] at h
    simp only at h
    obtain ⟨R1, hc1, hsub1, -, -, -, hdeath1, -, -, hout1⟩ :=
      remove_loop_ok seen3 fuel g false g.entry R g1 death hc h4
    cases death with
    | true =>
      simp only [if_true] at h
      have hlt : R1.length < R.length := by
        rcases hdeath1.1 rfl with h | h
        · cases h
        · exact h
      have hc1' : IsChain g1.bbs (g1.bbs g1.entry).linear_next R1 := by
        rw [hout1.1]; exact hc1
      exact ih g1 seen3 R1 hc1' (by omega) (by omega) h
    | false =>
      simp at h

/-- With fuel for every block of the chain, `eliminate_dead` does not run out
of fuel: it returns, or it stops at a fault of the C code. -/
theorem eliminate_dead_fuel (fuel : Nat) (g : MVMSpeshGraph) (L : List BBRef)
    (hc : IsChain g.bbs (some g.entry) L) (hf : L.length ≤ fuel) :
    eliminate_dead fuel g ≠ .error .outOfFuel := by
  obtain ⟨R, rfl, hcR⟩ := IsChain_some _ _ _ hc
  intro h
  unfold eliminate_dead at h
  split at h
  · cases h
  · simp only [bind, Except.bind] at h
    cases h1 : eliminate_dead_rounds fuel fuel g (List.replicate g.num_bbs.toNat false) with
    | error e =>
      rw [h1] at h
      simp only at h
      injection h with h
      subst h
      exact eliminate_dead_rounds_fuel fuel fuel g _ R hcR (by simpa using hf)
        (by simpa using hf) h1
    | ok g1 =>
      rw [h1] at h
      simp only at h
      have hseen0 : ∀ k, isSeen (List.replicate g.num_bbs.toNat false) k →
          Marked0 g.bbs (g.entry :: R) k := by
        intro k hk
        unfold isSeen at hk
        simp [List.getElem?_replicate] at hk
      obtain ⟨R', hc', hsub', -, -, -, hout', -⟩ :=
        eliminate_dead_rounds_ok fuel g (g.entry :: R) fuel g _ R g1
          (fun b => SameButNext_refl _) rfl hcR (fun b hb => hb) hseen0 h1
      split at h
      · cases h2 : renumber fuel g1.bbs 0 (some g1.entry) with
        | error e =>
          rw [h2] at h
          simp only at h
          injection h with h
          subst h
          have hl := hsub'.length_le
          refine renumber_fuel (g1.entry :: R') fuel g1.bbs 0 _ ⟨rfl, hc'⟩ ?_ h2
          simp only [List.length_cons] at hf ⊢
          omega
        | ok bbs1 =>
          rw [h2] at h
          cases h
      · cases h

/-- C3: `eliminate_dead` never removes a reachable block. For every graph
whose `linear_next` chain from the entry is the finite list `L` and contains
every block reachable from the entry along `succ` edges, the call ends (given
fuel for the blocks of `L`), and when it returns every such block is still in
the chain, the entry included (the `succ` lists, and so reachability, are
unchanged). -/
theorem eliminate_dead_keeps_reachable (fuel : Nat) (g : MVMSpeshGraph) (L : List BBRef)
    (hc : IsChain g.bbs (some g.entry) L)
    (hreach : ∀ b, Reach g.bbs g.entry b → b ∈ L)
    (hf : L.length ≤ fuel) :
    eliminate_dead fuel g ≠ .error .outOfFuel ∧
    ∀ g', eliminate_dead fuel g = .ok g' →
      ∃ L', IsChain g'.bbs (some g'.entry) L' ∧ g'.entry = g.entry ∧ g.entry ∈ L' ∧
        (∀ b, (g'.bbs b).succ = (g.bbs b).succ) ∧
        ∀ b, Reach g.bbs g.entry b → b ∈ L' := by
  refine ⟨eliminate_dead_fuel fuel g L hc hf, fun g' hrun => ?_⟩
  obtain ⟨L', hc', -, hentry, hentry', -, hsucc, hr, -⟩ := eliminate_dead_ok fuel g g' L hc hrun
  exact ⟨L', hc', hentry', hentry, hsucc, hr hreach⟩

/-- Witness for `eliminate_dead_keeps_reachable`: on `gDead` the call returns,
with the chain `BB0, BB2`. -/
theorem eliminate_dead_keeps_reachable_witness :
    ∃ g', eliminate_dead 3 gDead = .ok g' ∧ IsChain g'.bbs (some g'.entry) [0, 2] ∧
      ∃ L', IsChain g'.bbs (some g'.entry) L' ∧ g'.entry = gDead.entry ∧ gDead.entry ∈ L' ∧
        (∀ b, (g'.bbs b).succ = (gDead.bbs b).succ) ∧
        ∀ b, Reach gDead.bbs gDead.entry b → b ∈ L' :=
  ⟨_, rfl, by decide,
    (eliminate_dead_keeps_reachable 3 gDead [0, 1, 2] (by decide)
      (fun b hb => Reach_mem_of_closed gDead.bbs [0, 1, 2] 0 b (by decide) (by decide) hb)
      (by decide)).2 _ rfl⟩

/-- C4, evaluated at a failing input: `gCycle` is well formed (finite chain,
distinct in-range `idx`, entry `idx` 0); `eliminate_dead`, which is to
eliminate any unreachable basic block, returns with the chain unchanged, and
`BB1`, which is in it, is not reachable from the entry. The same holds with
any larger fuel, and for the whole pass `MVM_spesh_optimize`. -/
theorem eliminate_dead_keeps_unreachable_cycle :
    (IsChain gCycle.bbs (some gCycle.entry) [0, 1, 2, 3] ∧
      IdxDistinct gCycle.bbs [0, 1, 2, 3] ∧
      (∀ b ∈ [0, 1, 2, 3], ((gCycle.bbs b).idx : Int) < gCycle.num_bbs) ∧
      (gCycle.bbs gCycle.entry).idx = 0) ∧
    (∃ g', eliminate_dead 4 gCycle = .ok g' ∧
      (∀ n, eliminate_dead (n + 5) gCycle = .ok g') ∧
      IsChain g'.bbs (some g'.entry) [0, 1, 2, 3] ∧
      ¬ Reach g'.bbs g'.entry 1) ∧
    ∃ g', (∀ n, MVM_spesh_optimize tcUnknown (n + 5) gCycle = .ok g') ∧
      IsChain g'.bbs (some g'.entry) [0, 1, 2, 3] ∧
      ¬ Reach g'.bbs g'.entry 1 := by
  refine ⟨⟨by decide, by decide, by decide, by decide⟩,
    ⟨gCycle, rfl, fun _ => rfl, by decide, ?_⟩, ⟨_, fun _ => rfl, by decide, ?_⟩⟩
  · intro h
    have := Reach_mem_of_closed gCycle.bbs [0, 3] 0 1 (by decide) (by decide) h
    revert this
    decide
  · intro h
    have := Reach_mem_of_closed _ [0, 3] 0 1 (by decide) (by decide) h
    revert this
    decide

/-- C5: for every graph in which `num_bbs` is the length of the `linear_next`
chain `L` from the entry and the `k`-th block of the chain has `idx = k`, the
call of `eliminate_dead` ends (given fuel for the blocks of `L`), and when it
returns `num_bbs` is again the length of the chain, which still starts at the
entry, and the `k`-th block of the chain has `idx = k` (whether or not a block
was removed). -/
theorem eliminate_dead_dense (fuel : Nat) (g : MVMSpeshGraph) (L : List BBRef)
    (hc : IsChain g.bbs (some g.entry) L)
    (hnum : g.num_bbs = L.length)
    (hidx : ∀ k (h : k < L.length), (g.bbs (L.get ⟨k, h⟩)).idx = k)
    (hf : L.length ≤ fuel) :
    eliminate_dead fuel g ≠ .error .outOfFuel ∧
    ∀ g', eliminate_dead fuel g = .ok g' →
      ∃ L', IsChain g'.bbs (some g'.entry) L' ∧ L'.head? = some g'.entry ∧
        g'.num_bbs = L'.length ∧
        ∀ k (h : k < L'.length), (g'.bbs (L'.get ⟨k, h⟩)).idx = k := by
  refine ⟨eliminate_dead_fuel fuel g L hc hf, fun g' hrun => ?_⟩
  obtain ⟨L', hc', hsub, -, -, hnum', -, -, -, hren, hsame⟩ :=
    eliminate_dead_ok fuel g g' L hc hrun
  have hhead : L'.head? = some g'.entry := by
    obtain ⟨l, rfl, -⟩ := IsChain_some _ _ _ hc'
    rfl
  refine ⟨L', hc', hhead, by rw [hnum', hnum]; ring, ?_⟩
  by_cases hlen : L'.length = L.length
  · have hL : L' = L := hsub.eq_of_length hlen
    subst hL
    intro k hk
    rw [hsame rfl]
    exact hidx k hk
  · exact hren hlen

/-- Witness for `eliminate_dead_dense`: on `gDead` one block is removed and the
two that are left are renumbered. -/
theorem eliminate_dead_dense_witness :
    ∃ g', eliminate_dead 3 gDead = .ok g' ∧ IsChain g'.bbs (some g'.entry) [0, 2] ∧
      g'.num_bbs = 2 ∧
      ∃ L', IsChain g'.bbs (some g'.entry) L' ∧ L'.head? = some g'.entry ∧
        g'.num_bbs = L'.length ∧
        ∀ k (h : k < L'.length), (g'.bbs (L'.get ⟨k, h⟩)).idx = k :=
  ⟨_, rfl, by decide, by decide,
    (eliminate_dead_dense 3 gDead [0, 1, 2] (by decide) (by decide) (by decide)
      (by decide)).2 _ rfl⟩

/-! ### The remaining rewriters and the faults of `eliminate_dead` -/

/-- C20: if `0 ≤ num_spesh_slots ≤ alloc_spesh_slots` holds before
`add_spesh_slot` and the array has `alloc_spesh_slots` cells (or is absent
with `alloc_spesh_slots = 0`), the call succeeds, the index it writes is
strictly below the new `alloc_spesh_slots`, the capacity grows by exactly 8
when `num_spesh_slots = alloc_spesh_slots` and not at all otherwise, and
`num_spesh_slots ≤ alloc_spesh_slots` holds again afterwards (with the array
again of `alloc_spesh_slots` cells). -/
theorem add_spesh_slot_capacity (g : MVMSpeshGraph) (c : Option ObjRef) (hwf : SlotsWF g) :
    ∃ r g', add_spesh_slot g c = .ok (r, g') ∧
      slotAt g' g.num_spesh_slots.toNat = some (SlotCell.val c) ∧
      g.num_spesh_slots < g'.alloc_spesh_slots ∧
      (g.num_spesh_slots = g.alloc_spesh_slots → g'.alloc_spesh_slots = g.alloc_spesh_slots + 8) ∧
      (g.num_spesh_slots ≠ g.alloc_spesh_slots → g'.alloc_spesh_slots = g.alloc_spesh_slots) ∧
      g'.num_spesh_slots = g.num_spesh_slots + 1 ∧
      g'.num_spesh_slots ≤ g'.alloc_spesh_slots ∧
      SlotsWF g' := by
  obtain ⟨cells, hrun, hlen, hnew, -⟩ := add_spesh_slot_spec g c hwf
  obtain ⟨g1, hrun1, hwf1, hnum1, hnew1, -⟩ := add_spesh_slot_ok g c hwf
  obtain ⟨h0, h1, h2⟩ := hwf
  have halloc : g1.alloc_spesh_slots = if g.num_spesh_slots ≥ g.alloc_spesh_slots
        then g.alloc_spesh_slots + 8 else g.alloc_spesh_slots := by
    rw [hrun] at hrun1
    injection hrun1 with h
    injection h with _ h3
    rw [← h3]
  refine ⟨_, g1, hrun1, hnew1, ?_, ?_, ?_, hnum1, hwf1.2.1, hwf1⟩
  · rw [halloc]; split <;> omega
  · intro h; rw [halloc, if_pos (by omega)]
  · intro h; rw [halloc, if_neg (by omega)]

/-- Witness for `add_spesh_slot_capacity`: a full table of 8 entries, which the call grows to 16 cells. -/
theorem add_spesh_slot_capacity_witness :
    SlotsWF gSlots8 ∧
    ∃ r g', add_spesh_slot gSlots8 (some 42) = .ok (r, g') ∧
      slotAt g' gSlots8.num_spesh_slots.toNat = some (SlotCell.val (some 42)) ∧
      gSlots8.num_spesh_slots < g'.alloc_spesh_slots ∧
      (gSlots8.num_spesh_slots = gSlots8.alloc_spesh_slots →
        g'.alloc_spesh_slots = gSlots8.alloc_spesh_slots + 8) ∧
      (gSlots8.num_spesh_slots ≠ gSlots8.alloc_spesh_slots →
        g'.alloc_spesh_slots = gSlots8.alloc_spesh_slots) ∧
      g'.num_spesh_slots = gSlots8.num_spesh_slots + 1 ∧
      g'.num_spesh_slots ≤ g'.alloc_spesh_slots ∧
      SlotsWF g' :=
  ⟨by decide, add_spesh_slot_capacity gSlots8 (some 42) (by decide)⟩

/-- A flag word meets `a | b` exactly if it meets `a` or meets `b`. -/
theorem and_or_flags_ne_zero (x a b : Nat) :
    x &&& (a ||| b) ≠ 0 ↔ (x &&& a ≠ 0 ∨ x &&& b ≠ 0) := by
  rw [Nat.and_or_distrib_left]
  constructor
  · intro h
    by_contra hn
    push_neg at hn
    apply h
    rw [hn.1, hn.2]
    rfl
  · rintro (h | h) h0
    · apply h
      apply Nat.eq_of_testBit_eq
      intro i
      have := congrArg (fun n => n.testBit i) h0
      simp only [Nat.testBit_or, Nat.zero_testBit, Bool.or_eq_false_iff] at this
      simp [this.1]
    · apply h
      apply Nat.eq_of_testBit_eq
      intro i
      have := congrArg (fun n => n.testBit i) h0
      simp only [Nat.testBit_or, Nat.zero_testBit, Bool.or_eq_false_iff] at this
      simp [this.2]

/-- C13: for every `decont dst, obj`, `optimize_decont` sets the descriptor to
that of `set` if the flags of `obj` contain DECONTED or TYPEOBJ and leaves the
instruction as it is otherwise; the operand array is the same in both cases,
and the graph (every fact, every usages counter) is unchanged by the forward
step on the instruction. -/
theorem optimize_decont_rule (tc : MVMThreadContext) (g : MVMSpeshGraph) (ins : MVMSpeshIns)
    (o i : Nat) (hop : ins.operands[1]? = some (.reg o i)) :
    ∃ ins', optimize_decont tc g ins = .ok ins' ∧
      ins'.operands = ins.operands ∧
      (((g.facts o i).flags &&& MVM_SPESH_FACT_DECONTED ≠ 0 ∨
          (g.facts o i).flags &&& MVM_SPESH_FACT_TYPEOBJ ≠ 0) →
        ins'.info = tc.MVM_op_get_op MVM_OP_set) ∧
      (¬ ((g.facts o i).flags &&& MVM_SPESH_FACT_DECONTED ≠ 0 ∨
          (g.facts o i).flags &&& MVM_SPESH_FACT_TYPEOBJ ≠ 0) →
        ins' = ins) ∧
      (ins.info.opcode = MVM_OP_decont → ∀ bb : BBRef,
        optimize_bb_forward_ins tc g bb ins = .ok (g, some ins')) := by
  by_cases h : (g.facts o i).flags &&& (MVM_SPESH_FACT_DECONTED ||| MVM_SPESH_FACT_TYPEOBJ) ≠ 0
  · have hrun : optimize_decont tc g ins
        = .ok { ins with info := tc.MVM_op_get_op MVM_OP_set } := by
      simp only [optimize_decont, hop, get_facts, bind, Except.bind]
      rw [if_pos h]
    refine ⟨_, hrun, rfl, fun _ => rfl, fun hn => absurd ((and_or_flags_ne_zero _ _ _).1 h) hn,
      fun hopc bb => ?_⟩
    simp only [optimize_bb_forward_ins, hopc, hrun, bind, Except.bind]
  · have hrun : optimize_decont tc g ins = .ok ins := by
      simp only [optimize_decont, hop, get_facts, bind, Except.bind]
      rw [if_neg h]
    refine ⟨_, hrun, rfl, fun hp => absurd ((and_or_flags_ne_zero _ _ _).2 hp) h, fun _ => rfl,
      fun hopc bb => ?_⟩
    simp only [optimize_bb_forward_ins, hopc, hrun, bind, Except.bind]

/-- Setting KNOWN_TYPE does not touch the KNOWN_VALUE bit. -/
theorem or_type_and_value (x : Nat) :
    (x ||| MVM_SPESH_FACT_KNOWN_TYPE) &&& MVM_SPESH_FACT_KNOWN_VALUE
      = x &&& MVM_SPESH_FACT_KNOWN_VALUE := by
  rw [Nat.and_comm, Nat.and_or_distrib_left]
  have : MVM_SPESH_FACT_KNOWN_VALUE &&& MVM_SPESH_FACT_KNOWN_TYPE = 0 := by decide
  rw [this, Nat.or_zero, Nat.and_comm]

/-- Setting KNOWN_VALUE does not touch the KNOWN_TYPE bit. -/
theorem or_value_and_type (x : Nat) :
    (x ||| MVM_SPESH_FACT_KNOWN_VALUE) &&& MVM_SPESH_FACT_KNOWN_TYPE
      = x &&& MVM_SPESH_FACT_KNOWN_TYPE := by
  rw [Nat.and_comm, Nat.and_or_distrib_left]
  have : MVM_SPESH_FACT_KNOWN_TYPE &&& MVM_SPESH_FACT_KNOWN_VALUE = 0 := by decide
  rw [this, Nat.or_zero, Nat.and_comm]

/-- After `flags |= MVM_SPESH_FACT_KNOWN_TYPE` the flag is set. -/
theorem or_type_and_type (x : Nat) :
    (x ||| MVM_SPESH_FACT_KNOWN_TYPE) &&& MVM_SPESH_FACT_KNOWN_TYPE ≠ 0 := by
  intro h
  have h1 := congrArg (fun n => n.testBit 0) h
  have h2 : Nat.testBit 1 0 = true := by decide
  simp [MVM_SPESH_FACT_KNOWN_TYPE, Nat.testBit_and, Nat.testBit_or, h2] at h1

/-- A second store to the same facts entry overwrites the first. -/
theorem setFacts_setFacts (F : Nat → Nat → MVMSpeshFacts) (a b : Nat) (x y : MVMSpeshFacts) :
    setFacts (setFacts F a b x) a b y = setFacts F a b y := by
  funext o i
  simp only [setFacts]
  split <;> rfl

/-- Storing back what a facts entry holds changes nothing. -/
theorem setFacts_self (F : Nat → Nat → MVMSpeshFacts) (a b : Nat) :
    setFacts F a b (F a b) = F := by
  funext o i
  simp only [setFacts]
  split
  · rename_i h; rw [h.1, h.2]
  · rfl

/-- Reading the facts entry that was stored. -/
theorem setFacts_same (F : Nat → Nat → MVMSpeshFacts) (a b : Nat) (x : MVMSpeshFacts) :
    setFacts F a b x a b = x := by
  simp [setFacts]

/-- Reading another facts entry than the one stored. -/
theorem setFacts_other (F : Nat → Nat → MVMSpeshFacts) (a b : Nat) (x : MVMSpeshFacts)
    (o i : Nat) (h : ¬ (o = a ∧ i = b)) : setFacts F a b x o i = F o i := by
  simp [setFacts, h]

/-- What `optimize_set` does to the graph. -/
theorem optimize_set_ok (g : MVMSpeshGraph) (ins : MVMSpeshIns) (d di s si : Nat)
    (hd : ins.operands[0]? = some (.reg d di)) (hs : ins.operands[1]? = some (.reg s si)) :
    optimize_set g ins = .ok (set_result g d di s si) := by
  unfold set_result
  by_cases hkt : (g.facts s si).flags &&& MVM_SPESH_FACT_KNOWN_TYPE ≠ 0
  · by_cases hkv : (g.facts s si).flags &&& MVM_SPESH_FACT_KNOWN_VALUE ≠ 0
    · by_cases hal : s = d ∧ si = di
      · obtain ⟨rfl, rfl⟩ := hal
        simp [optimize_set, hd, hs, get_facts, bind, Except.bind, hkt, hkv, setFacts_same,
          set_dst_facts, or_type_and_value, setFacts_setFacts]
      · simp [optimize_set, hd, hs, get_facts, bind, Except.bind, hkt, hkv, setFacts_same,
          set_dst_facts, setFacts_other _ _ _ _ _ _ hal, setFacts_setFacts]
    · by_cases hal : s = d ∧ si = di
      · obtain ⟨rfl, rfl⟩ := hal
        simp [optimize_set, hd, hs, get_facts, bind, Except.bind, hkt, hkv, setFacts_same,
          set_dst_facts, or_type_and_value, setFacts_setFacts]
      · simp [optimize_set, hd, hs, get_facts, bind, Except.bind, hkt, hkv, setFacts_same,
          set_dst_facts, setFacts_other _ _ _ _ _ _ hal, setFacts_setFacts]
  · by_cases hkv : (g.facts s si).flags &&& MVM_SPESH_FACT_KNOWN_VALUE ≠ 0
    · by_cases hal : s = d ∧ si = di
      · obtain ⟨rfl, rfl⟩ := hal
        simp [optimize_set, hd, hs, get_facts, bind, Except.bind, hkt, hkv, setFacts_same,
          set_dst_facts, setFacts_setFacts]
      · simp [optimize_set, hd, hs, get_facts, bind, Except.bind, hkt, hkv, setFacts_same,
          set_dst_facts, setFacts_other _ _ _ _ _ _ hal, setFacts_setFacts]
    · simp [optimize_set, hd, hs, get_facts, bind, Except.bind, hkt, hkv, setFacts_same,
          set_dst_facts, setFacts_setFacts, setFacts_self]

/-- Or-ing bits into a word clears none. -/
theorem or_or_testBit (x a b k : Nat) (h : x.testBit k = true) :
    ((x ||| a) ||| b).testBit k = true := by
  simp [Nat.testBit_or, h]

/-- Witness for `optimize_decont_rule`: `decont r(1,0), r(0,0)` where `r(0,0)`
is DECONTED. -/
theorem optimize_decont_rule_witness :
    insDecont.operands[1]? = some (.reg 0 0) ∧
    optimize_decont tcUnknown gDecontIf insDecont
      = .ok ⟨specOpTable MVM_OP_set, [.reg 1 0, .reg 0 0]⟩ ∧
    optimize_bb_forward_ins tcUnknown gDecontIf 0 insDecont
      = .ok (gDecontIf, some ⟨specOpTable MVM_OP_set, [.reg 1 0, .reg 0 0]⟩) := by
  obtain ⟨ins', hrun, hops, hset, -, hfw⟩ :=
    optimize_decont_rule tcUnknown gDecontIf insDecont 0 0 rfl
  have hinfo := hset (Or.inl (by decide))
  have hins : ins' = ⟨specOpTable MVM_OP_set, [.reg 1 0, .reg 0 0]⟩ := by
    cases ins' with
    | mk info operands =>
      simp only at hinfo hops
      rw [hinfo, hops]
      rfl
  rw [hins] at hrun
  have h2 := hfw rfl 0
  rw [hins] at h2
  exact ⟨rfl, hrun, h2⟩

/-- C14: for every `set dst, src`, after `optimize_set` the facts of `dst` have
KNOWN_TYPE with the type of `src` whenever `src` has KNOWN_TYPE, and
KNOWN_VALUE with the value of `src` whenever `src` has KNOWN_VALUE; a fact that
`src` does not carry leaves the flag bit and the field of `dst` as they were;
no flag bit of `dst` is cleared, the instruction is unchanged, no usages
counter changes and no other facts entry changes. -/
theorem optimize_set_propagates (g : MVMSpeshGraph) (ins : MVMSpeshIns) (d di s si : Nat)
    (hd : ins.operands[0]? = some (.reg d di)) (hs : ins.operands[1]? = some (.reg s si)) :
    ∃ g', optimize_set g ins = .ok g' ∧
      ((g.facts s si).flags &&& MVM_SPESH_FACT_KNOWN_TYPE ≠ 0 →
        (g'.facts d di).flags &&& MVM_SPESH_FACT_KNOWN_TYPE ≠ 0 ∧
        (g'.facts d di).type = (g.facts s si).type) ∧
      ((g.facts s si).flags &&& MVM_SPESH_FACT_KNOWN_VALUE ≠ 0 →
        (g'.facts d di).flags &&& MVM_SPESH_FACT_KNOWN_VALUE ≠ 0 ∧
        (g'.facts d di).value = (g.facts s si).value) ∧
      ((g.facts s si).flags &&& MVM_SPESH_FACT_KNOWN_TYPE = 0 →
        (g'.facts d di).flags &&& MVM_SPESH_FACT_KNOWN_TYPE
          = (g.facts d di).flags &&& MVM_SPESH_FACT_KNOWN_TYPE ∧
        (g'.facts d di).type = (g.facts d di).type) ∧
      ((g.facts s si).flags &&& MVM_SPESH_FACT_KNOWN_VALUE = 0 →
        (g'.facts d di).flags &&& MVM_SPESH_FACT_KNOWN_VALUE
          = (g.facts d di).flags &&& MVM_SPESH_FACT_KNOWN_VALUE ∧
        (g'.facts d di).value = (g.facts d di).value) ∧
      (∀ k, (g.facts d di).flags.testBit k = true → (g'.facts d di).flags.testBit k = true) ∧
      (∀ o i, (g'.facts o i).usages = (g.facts o i).usages) ∧
      (∀ o i, ¬ (o = d ∧ i = di) → g'.facts o i = g.facts o i) ∧
      g'.bbs = g.bbs ∧ g'.spesh_slots = g.spesh_slots ∧
      g'.num_spesh_slots = g.num_spesh_slots ∧
      (ins.info.opcode = MVM_OP_set → ∀ (tc : MVMThreadContext) (bb : BBRef),
        optimize_bb_forward_ins tc g bb ins = .ok (g', some ins)) := by
  have hrun := optimize_set_ok g ins d di s si hd hs
  have hf : (set_result g d di s si).facts d di
      = set_dst_facts (g.facts d di) (g.facts s si) := by
    simp [set_result, setFacts_same]
  refine ⟨_, hrun, ?_, ?_, ?_, ?_, ?_, ?_, ?_, rfl, rfl, rfl, ?_⟩
  · intro hkt
    rw [hf]
    simp only [set_dst_facts, if_pos hkt]
    refine ⟨?_, trivial⟩
    split
    · rw [or_value_and_type]; exact or_type_and_type _
    · rw [Nat.or_zero]; exact or_type_and_type _
  · intro hkv
    rw [hf]
    simp only [set_dst_facts, if_pos hkv]
    exact ⟨or_flag_and_ne_zero _, trivial⟩
  · intro hkt
    have hkt' : ¬ (g.facts s si).flags &&& MVM_SPESH_FACT_KNOWN_TYPE ≠ 0 := fun h => h hkt
    rw [hf]
    simp only [set_dst_facts, if_neg hkt', Nat.or_zero]
    refine ⟨?_, trivial⟩
    split
    · rw [or_value_and_type]
    · rw [Nat.or_zero]
  · intro hkv
    have hkv' : ¬ (g.facts s si).flags &&& MVM_SPESH_FACT_KNOWN_VALUE ≠ 0 := fun h => h hkv
    rw [hf]
    simp only [set_dst_facts, if_neg hkv', Nat.or_zero]
    refine ⟨?_, trivial⟩
    split
    · rw [or_type_and_value]
    · rw [Nat.or_zero]
  · intro k hk
    rw [hf]
    exact or_or_testBit _ _ _ _ hk
  · intro o i
    by_cases h : o = d ∧ i = di
    · obtain ⟨rfl, rfl⟩ := h
      rw [hf]
      rfl
    · simp [set_result, setFacts_other _ _ _ _ _ _ h]
  · intro o i h
    simp [set_result, setFacts_other _ _ _ _ _ _ h]
  · intro hopc tc bb
    simp only [optimize_bb_forward_ins, hopc, hrun, bind, Except.bind]

/-- Witness for `optimize_set_propagates`: `set r(1,0), r(0,0)` where `r(0,0)` has KNOWN_VALUE and not KNOWN_TYPE. -/
theorem optimize_set_propagates_witness :
    (insSet.operands[0]? = some (.reg 1 0) ∧ insSet.operands[1]? = some (.reg 0 0)) ∧
    ∃ g', optimize_set (gIffy MVM_OP_if_i 1) insSet = .ok g' ∧
      (g'.facts 1 0).flags &&& MVM_SPESH_FACT_KNOWN_VALUE ≠ 0 ∧
      (g'.facts 1 0).value = ((gIffy MVM_OP_if_i 1).facts 0 0).value ∧
      (g'.facts 1 0).type = ((gIffy MVM_OP_if_i 1).facts 1 0).type ∧
      (∀ o i, (g'.facts o i).usages = ((gIffy MVM_OP_if_i 1).facts o i).usages) := by
  obtain ⟨g', hrun, -, hkv, hkt, -, -, hus, -⟩ :=
    optimize_set_propagates (gIffy MVM_OP_if_i 1) insSet 1 0 0 0 rfl rfl
  have h1 := hkv (by decide)
  have h2 := hkt (by decide)
  exact ⟨⟨rfl, rfl⟩, g', hrun, h1.1, h1.2, h2.2, hus⟩

/-- The first `switch` of `optimize_iffy` returns on every other opcode. -/
theorem iffy_negated_op_none (op : MVMOpcode) (h : op ∉ iffyOps) : iffy_negated_op op = none := by
  cases op <;> simp [iffyOps] at h <;> rfl

/-- The first `switch` of `optimize_iffy` sets `negated_op` on the eight conditionals. -/
theorem iffy_negated_op_some (op : MVMOpcode) (h : op ∈ iffyOps) :
    ∃ n, iffy_negated_op op = some n := by
  simp only [iffyOps, List.mem_cons, List.mem_singleton, List.not_mem_nil, or_false] at h
  rcases h with h | h | h | h | h | h | h | h <;> subst h <;> exact ⟨_, rfl⟩

/-- The second `switch` of `optimize_iffy` returns on the non-integer conditionals. -/
theorem iffy_truthvalue_none (op : MVMOpcode) (f : MVMSpeshFacts) (h : op ∈ nonIntIffyOps) :
    iffy_truthvalue op f = none := by
  simp only [nonIntIffyOps, List.mem_cons, List.mem_singleton, List.not_mem_nil, or_false] at h
  rcases h with h | h | h | h | h | h <;> subst h <;> rfl

/-- C11, evaluated at a failing input: `gFoldOrphan` is well formed; the
forward pass folds `if_i r(0,0), BB2` on the known value 0 and so removes the
only edge into `BB2`, the last block of the chain. `eliminate_dead` then
splices `BB2` out and dereferences the NULL it has advanced to: the call does
not return, and neither does `MVM_spesh_optimize`. -/
theorem MVM_spesh_optimize_orphan_last_faults :
    (IsChain gFoldOrphan.bbs (some gFoldOrphan.entry) [0, 1, 2] ∧
      IdxDistinct gFoldOrphan.bbs [0, 1, 2] ∧
      (∀ b ∈ [0, 1, 2], ((gFoldOrphan.bbs b).idx : Int) < gFoldOrphan.num_bbs) ∧
      (gFoldOrphan.bbs gFoldOrphan.entry).idx = 0) ∧
    (∃ g1, optimize_bb tcUnknown 2 gFoldOrphan gFoldOrphan.entry = .ok g1 ∧
      IsChain g1.bbs (some g1.entry) [0, 1, 2] ∧
      (∀ b ∈ [0, 1, 2], 2 ∉ (g1.bbs b).succ) ∧
      ∀ n, eliminate_dead (n + 4) g1 = .error .nullDeref) ∧
    ∀ n, MVM_spesh_optimize tcUnknown (n + 4) gFoldOrphan = .error .nullDeref :=
  ⟨⟨by decide, by decide, by decide, by decide⟩,
    ⟨_, rfl, by decide, by decide, fun _ => rfl⟩, fun _ => rfl⟩

/-- C19, evaluated at a failing input: `gOrphanLast` is well formed (finite
chain, distinct in-range `idx`, entry `idx` 0); its last block is unmarked, the
removal loop splices it out, advances to NULL and reads `linear_next` of
NULL. -/
theorem eliminate_dead_orphan_last_faults :
    (IsChain gOrphanLast.bbs (some gOrphanLast.entry) [0, 1] ∧
      IdxDistinct gOrphanLast.bbs [0, 1] ∧
      (∀ b ∈ [0, 1], ((gOrphanLast.bbs b).idx : Int) < gOrphanLast.num_bbs) ∧
      (gOrphanLast.bbs gOrphanLast.entry).idx = 0) ∧
    eliminate_dead 2 gOrphanLast = .error .nullDeref ∧
    ∀ n, eliminate_dead (n + 3) gOrphanLast = .error .nullDeref :=
  ⟨⟨by decide, by decide, by decide, by decide⟩, rfl, fun _ => rfl⟩

/-- C16, evaluated at the claim's own example: `gOrphanChain` is well formed;
`eliminate_dead` returns with the chain `BB0, BB2`, although no block of that
chain has `BB2` among its successors. -/
theorem eliminate_dead_stale_mark :
    (IsChain gOrphanChain.bbs (some gOrphanChain.entry) [0, 1, 2] ∧
      IdxDistinct gOrphanChain.bbs [0, 1, 2] ∧
      (∀ b ∈ [0, 1, 2], ((gOrphanChain.bbs b).idx : Int) < gOrphanChain.num_bbs) ∧
      (gOrphanChain.bbs gOrphanChain.entry).idx = 0) ∧
    ∃ g', eliminate_dead 3 gOrphanChain = .ok g' ∧
      IsChain g'.bbs (some g'.entry) [0, 2] ∧ g'.entry = 0 ∧
      ∀ b ∈ [0, 2], 2 ∉ (g'.bbs b).succ :=
  ⟨⟨by decide, by decide, by decide, by decide⟩, ⟨_, rfl, by decide, rfl, by decide⟩⟩

/-! ### The forward pass of `optimize_bb` -/

/-- Reflexivity of `SameButEdges`. -/
theorem SameButEdges_refl (x : MVMSpeshBB) : SameButEdges x x := ⟨rfl, rfl, rfl, rfl⟩

/-- Transitivity of `SameButEdges`. -/
theorem SameButEdges_trans {x y z : MVMSpeshBB} (h1 : SameButEdges x y) (h2 : SameButEdges y z) :
    SameButEdges x z :=
  ⟨h1.1.trans h2.1, h1.2.1.trans h2.2.1, h1.2.2.1.trans h2.2.2.1, h1.2.2.2.trans h2.2.2.2⟩

/-- Whatever `add_spesh_slot` returns, it has only touched the slot table. -/
theorem add_spesh_slot_frame (g g' : MVMSpeshGraph) (c : Option ObjRef) (k : Int)
    (h : add_spesh_slot g c = .ok (k, g')) : g'.facts = g.facts ∧ SameBlocks g' g := by
  unfold add_spesh_slot at h
  simp only at h
  generalize hg1 : (if g.num_spesh_slots ≥ g.alloc_spesh_slots then
      ({ g with alloc_spesh_slots := g.alloc_spesh_slots + 8
                spesh_slots := resizeCells g.spesh_slots (g.alloc_spesh_slots + 8) } :
        MVMSpeshGraph)
    else g) = g1 at h
  have hf1 : g1.facts = g.facts ∧ SameBlocks g1 g := by
    rw [← hg1]; split <;> exact ⟨rfl, rfl, rfl, rfl, rfl⟩
  cases hs : g1.spesh_slots with
  | none => rw [hs] at h; cases h
  | some cells =>
    rw [hs] at h
    simp only at h
    split at h
    · cases h
    · simp only [bind, Except.bind] at h
      cases hw : writeAt cells g1.num_spesh_slots.toNat (SlotCell.val c) with
      | error e => rw [hw] at h; cases h
      | ok cells' =>
        rw [hw] at h
        injection h with h
        injection h with _ h
        subst h
        exact hf1

/-- What `MVM_spesh_manipulate_remove_successor` does when it succeeds. -/
theorem remove_successor_ok (g g' : MVMSpeshGraph) (bb : BBRef) (s : Option BBRef)
    (h : MVM_spesh_manipulate_remove_successor g bb s = .ok g') :
    ∃ n, s = some n ∧ (g'.bbs bb).succ = (g.bbs bb).succ.erase n ∧
      (∀ b, b ≠ bb → (g'.bbs b).succ = (g.bbs b).succ) ∧
      (∀ b, SameButEdges (g'.bbs b) (g.bbs b)) ∧
      g'.facts = g.facts ∧ SameSlots g' g ∧ g'.entry = g.entry ∧ g'.num_bbs = g.num_bbs ∧
      g'.strings = g.strings := by
  unfold MVM_spesh_manipulate_remove_successor at h
  cases s with
  | none => cases h
  | some n =>
    simp only at h
    injection h with h
    subst h
    refine ⟨n, rfl, ?_, ?_, ?_, rfl, ⟨rfl, rfl, rfl⟩, rfl, rfl, rfl⟩
    · by_cases hn : bb = n
      · subst hn; simp [setBB]
      · simp [setBB, hn]
    · intro b hb
      by_cases hn : b = n
      · subst hn; simp [setBB, hb]
      · simp [setBB, hn, hb]
    · intro b
      by_cases hn : b = n
      · subst hn
        by_cases hb : b = bb
        · subst hb; simp [setBB, SameButEdges]
        · simp [setBB, SameButEdges, hb]
      · by_cases hb : b = bb
        · subst hb; simp [setBB, SameButEdges, hn]
        · simp [setBB, SameButEdges, hn, hb]

/-- A successful `get_facts` read a register operand. -/
theorem get_facts_ok (x : Option MVMSpeshOperand) (r : Nat × Nat) (h : get_facts x = .ok r) :
    x = some (.reg r.1 r.2) := by
  unfold get_facts at h
  split at h
  · injection h with h; subst h; rfl
  · cases h
  · cases h

/-- The results that `optimize_method_lookup` can return. -/
theorem optimize_method_lookup_inv (tc : MVMThreadContext) (g g' : MVMSpeshGraph)
    (ins ins' : MVMSpeshIns) (h : optimize_method_lookup tc g ins = .ok (g', ins')) :
    ∃ o oi, ins.operands[1]? = some (.reg o oi) ∧
      ((∃ M k g1, add_spesh_slot g (some M) = .ok (k, g1) ∧ g' = decUsages g1 (o, oi) ∧
          ins' = ⟨tc.MVM_op_get_op MVM_OP_sp_getspeshslot, ins.operands.set 1 (.lit_i16 k)⟩) ∨
       (∃ k k2 g1, add_spesh_slot g none = .ok (k, g1) ∧ add_spesh_slot g1 none = .ok (k2, g') ∧
          ins' = ⟨tc.MVM_op_get_op MVM_OP_sp_findmeth, ins.operands.take 3 ++ [.lit_i16 k]⟩)) := by
  unfold optimize_method_lookup at h
  simp only [bind, Except.bind] at h
  cases hf : get_facts ins.operands[1]? with
  | error e => rw [hf] at h; cases h
  | ok r =>
    rw [hf] at h
    simp only at h
    have hop := get_facts_ok _ _ hf
    refine ⟨r.1, r.2, hop, ?_⟩
    by_cases hkt : (g.facts r.1 r.2).flags &&& MVM_SPESH_FACT_KNOWN_TYPE ≠ 0
    · rw [if_pos hkt] at h
      cases hs : get_string g ins.operands[2]? with
      | error e => rw [hs] at h; cases h
      | ok name =>
        rw [hs] at h
        simp only at h
        cases hm : tc.MVM_6model_find_method_cache_only (g.facts r.1 r.2).type name with
        | none =>
          rw [hm] at h
          simp only at h
          split at h
          · cases h
          · cases h1 : add_spesh_slot g none with
            | error e => rw [h1] at h; cases h
            | ok v1 =>
              rw [h1] at h
              simp only at h
              cases h2 : add_spesh_slot v1.2 none with
              | error e => rw [h2] at h; cases h
              | ok v2 =>
                rw [h2] at h
                simp only at h
                injection h with h
                injection h with ha hb
                subst ha; subst hb
                exact Or.inr ⟨v1.1, v2.1, v1.2, rfl, h2, rfl⟩
        | some M =>
          rw [hm] at h
          simp only at h
          cases ha : add_spesh_slot g (some M) with
          | error e => rw [ha] at h; cases h
          | ok v =>
            rw [ha] at h
            simp only [hf] at h
            cases hw : writeAt ins.operands 1 (MVMSpeshOperand.lit_i16 v.1) with
            | error e => rw [hw] at h; cases h
            | ok ops =>
              rw [hw] at h
              simp only at h
              injection h with h
              injection h with h1 h2
              obtain ⟨-, rfl⟩ := writeAt_ok _ _ _ _ hw
              exact Or.inl ⟨M, v.1, v.2, ha, h1.symm, h2.symm⟩
    · rw [if_neg hkt] at h
      split at h
      · cases h
      · cases h1 : add_spesh_slot g none with
        | error e => rw [h1] at h; cases h
        | ok v1 =>
          rw [h1] at h
          simp only at h
          cases h2 : add_spesh_slot v1.2 none with
          | error e => rw [h2] at h; cases h
          | ok v2 =>
            rw [h2] at h
            simp only at h
            injection h with h
            injection h with ha hb
            subst ha; subst hb
            exact Or.inr ⟨v1.1, v2.1, v1.2, rfl, h2, rfl⟩

/-- The results that `optimize_istype` can return. -/
theorem optimize_istype_inv (tc : MVMThreadContext) (g g' : MVMSpeshGraph)
    (ins ins' : MVMSpeshIns) (h : optimize_istype tc g ins = .ok (g', ins')) :
    (g' = g ∧ ins' = ins) ∨
    ∃ d di o oi t ti r, ins.operands[0]? = some (.reg d di) ∧
      ins.operands[1]? = some (.reg o oi) ∧ ins.operands[2]? = some (.reg t ti) ∧
      g' = istype_folded g d di o oi t ti r ∧
      ins' = ⟨tc.MVM_op_get_op MVM_OP_const_i64, ins.operands.set 1 (.lit_i64 r)⟩ := by
  unfold optimize_istype at h
  simp only [bind, Except.bind] at h
  cases ht : get_facts ins.operands[2]? with
  | error e => rw [ht] at h; cases h
  | ok t =>
    rw [ht] at h
    simp only at h
    have hopt := get_facts_ok _ _ ht
    by_cases hkt : (g.facts t.1 t.2).flags &&& MVM_SPESH_FACT_KNOWN_TYPE ≠ 0
    · rw [if_pos hkt] at h
      cases ho : get_facts ins.operands[1]? with
      | error e => rw [ho] at h; cases h
      | ok o =>
        rw [ho] at h
        simp only at h
        have hopo := get_facts_ok _ _ ho
        by_cases hko : (g.facts o.1 o.2).flags &&& MVM_SPESH_FACT_KNOWN_TYPE ≠ 0
        · rw [if_pos hko] at h
          cases hr : tc.MVM_6model_try_cache_type_check (g.facts o.1 o.2).type
              (g.facts t.1 t.2).type with
          | none =>
            rw [hr] at h
            simp only at h
            injection h with h
            injection h with h1 h2
            exact Or.inl ⟨h1.symm, h2.symm⟩
          | some r =>
            rw [hr] at h
            simp only at h
            cases hd : get_facts ins.operands[0]? with
            | error e => rw [hd] at h; cases h
            | ok d =>
              rw [hd] at h
              simp only at h
              have hopd := get_facts_ok _ _ hd
              cases hw : writeAt ins.operands 1 (MVMSpeshOperand.lit_i64 r) with
              | error e => rw [hw] at h; cases h
              | ok ops =>
                rw [hw] at h
                simp only at h
                injection h with h
                injection h with h1 h2
                obtain ⟨-, rfl⟩ := writeAt_ok _ _ _ _ hw
                exact Or.inr ⟨d.1, d.2, o.1, o.2, t.1, t.2, r, hopd, hopo, hopt, h1.symm, h2.symm⟩
        · rw [if_neg hko] at h
          injection h with h
          injection h with h1 h2
          exact Or.inl ⟨h1.symm, h2.symm⟩
    · rw [if_neg hkt] at h
      injection h with h
      injection h with h1 h2
      exact Or.inl ⟨h1.symm, h2.symm⟩

/-- The results that `optimize_set` can return. -/
theorem optimize_set_inv (g g' : MVMSpeshGraph) (ins : MVMSpeshIns)
    (h : optimize_set g ins = .ok g') :
    ∃ s si, ins.operands[1]? = some (.reg s si) ∧
      ((g.facts s si).flags &&& MVM_SPESH_FACT_KNOWN_TYPE = 0 ∧
        (g.facts s si).flags &&& MVM_SPESH_FACT_KNOWN_VALUE = 0 ∧ g' = g ∨
       ∃ d di, ins.operands[0]? = some (.reg d di) ∧ g' = set_result g d di s si) := by
  have h0 := h
  unfold optimize_set at h
  simp only [bind, Except.bind] at h
  cases hs : get_facts ins.operands[1]? with
  | error e => rw [hs] at h; cases h
  | ok s =>
    rw [hs] at h
    simp only at h
    have hops := get_facts_ok _ _ hs
    refine ⟨s.1, s.2, hops, ?_⟩
    cases hd : get_facts ins.operands[0]? with
    | ok d =>
      have hopd := get_facts_ok _ _ hd
      right
      refine ⟨d.1, d.2, hopd, ?_⟩
      have := optimize_set_ok g ins d.1 d.2 s.1 s.2 hopd hops
      rw [h0] at this
      injection this
    | error e =>
      rw [hd] at h
      left
      by_cases hkt : (g.facts s.1 s.2).flags &&& MVM_SPESH_FACT_KNOWN_TYPE ≠ 0
      · rw [if_pos hkt] at h
        cases h
      · rw [if_neg hkt] at h
        simp only at h
        by_cases hkv : (g.facts s.1 s.2).flags &&& MVM_SPESH_FACT_KNOWN_VALUE ≠ 0
        · rw [if_pos hkv] at h
          cases h
        · rw [if_neg hkv] at h
          injection h with h
          exact ⟨not_not.1 hkt, not_not.1 hkv, h.symm⟩

/-- The results that `optimize_iffy` can return. -/
theorem optimize_iffy_inv (tc : MVMThreadContext) (g g' : MVMSpeshGraph) (ins : MVMSpeshIns)
    (bb : BBRef) (r : Option MVMSpeshIns) (h : optimize_iffy tc g ins bb = .ok (g', r)) :
    (g' = g ∧ r = some ins) ∨
    ∃ n, MVM_spesh_manipulate_remove_successor g bb (some n) = .ok g' ∧
      (r = none ∨ ∃ o1, ins.operands[1]? = some o1 ∧
        r = some ⟨tc.MVM_op_get_op MVM_OP_goto, ins.operands.set 0 o1⟩) := by
  unfold optimize_iffy at h
  simp only at h
  cases hn : iffy_negated_op ins.info.opcode with
  | none =>
    rw [hn] at h
    simp only at h
    injection h with h
    injection h with h1 h2
    exact Or.inl ⟨h1.symm, h2.symm⟩
  | some neg =>
    rw [hn] at h
    simp only [bind, Except.bind] at h
    cases hf : get_facts ins.operands[0]? with
    | error e => rw [hf] at h; cases h
    | ok f =>
      rw [hf] at h
      simp only at h
      by_cases hkv : (g.facts f.1 f.2).flags &&& MVM_SPESH_FACT_KNOWN_VALUE ≠ 0
      · rw [if_pos hkv] at h
        cases htv : iffy_truthvalue ins.info.opcode (g.facts f.1 f.2) with
        | none =>
          rw [htv] at h
          simp only at h
          injection h with h
          injection h with h1 h2
          exact Or.inl ⟨h1.symm, h2.symm⟩
        | some tv =>
          rw [htv] at h
          simp only at h
          by_cases hne : tv ≠ neg
          · rw [if_pos hne] at h
            cases hr : readAt ins.operands 1 with
            | error e => rw [hr] at h; cases h
            | ok o1 =>
              rw [hr] at h
              simp only at h
              cases hw : writeAt ins.operands 0 o1 with
              | error e => rw [hw] at h; cases h
              | ok ops =>
                rw [hw] at h
                simp only at h
                cases hrm : MVM_spesh_manipulate_remove_successor g bb (g.bbs bb).linear_next with
                | error e => rw [hrm] at h; cases h
                | ok g1 =>
                  rw [hrm] at h
                  simp only at h
                  injection h with h
                  injection h with h1 h2
                  obtain ⟨n, hsn, -⟩ := remove_successor_ok _ _ _ _ hrm
                  obtain ⟨-, rfl⟩ := writeAt_ok _ _ _ _ hw
                  rw [hsn] at hrm
                  subst h1
                  exact Or.inr ⟨n, hrm, Or.inr ⟨o1, readAt_ok _ _ _ hr, h2.symm⟩⟩
          · rw [if_neg hne] at h
            cases ht : get_ins_bb ins.operands[1]? with
            | error e => rw [ht] at h; cases h
            | ok target =>
              rw [ht] at h
              simp only at h
              cases hrm : MVM_spesh_manipulate_remove_successor g bb (some target) with
              | error e => rw [hrm] at h; cases h
              | ok g1 =>
                rw [hrm] at h
                simp only at h
                injection h with h
                injection h with h1 h2
                subst h1
                exact Or.inr ⟨target, hrm, Or.inl h2.symm⟩
      · rw [if_neg hkv] at h
        injection h with h
        injection h with h1 h2
        exact Or.inl ⟨h1.symm, h2.symm⟩

/-- The results that `optimize_decont` can return. -/
theorem optimize_decont_inv (tc : MVMThreadContext) (g : MVMSpeshGraph) (ins ins' : MVMSpeshIns)
    (h : optimize_decont tc g ins = .ok ins') :
    ins' = ins ∨ ins' = { ins with info := tc.MVM_op_get_op MVM_OP_set } := by
  unfold optimize_decont at h
  simp only [bind, Except.bind] at h
  cases hf : get_facts ins.operands[1]? with
  | error e => rw [hf] at h; cases h
  | ok f =>
    rw [hf] at h
    simp only at h
    split at h
    · injection h with h; exact Or.inr h.symm
    · injection h with h; exact Or.inl h.symm

/-- The forward loop over a concatenation is the loop over the first part
followed by the loop over the second. -/
theorem optimize_bb_forward_append (tc : MVMThreadContext) (bb : BBRef) (l1 : List MVMSpeshIns) :
    ∀ (g : MVMSpeshGraph) (l2 : List MVMSpeshIns),
      optimize_bb_forward tc bb g (l1 ++ l2) =
        (do
          let (g1, o1) ← optimize_bb_forward tc bb g l1
          let (g2, o2) ← optimize_bb_forward tc bb g1 l2
          Except.ok (g2, o1 ++ o2)) := by
  induction l1 with
  | nil =>
    intro g l2
    simp only [List.nil_append, optimize_bb_forward, bind, Except.bind]
    cases optimize_bb_forward tc bb g l2 <;> rfl
  | cons i l1 ih =>
    intro g l2
    rw [List.cons_append]
    simp only [optimize_bb_forward, bind, Except.bind]
    cases h1 : optimize_bb_forward_ins tc g bb i with
    | error e => rfl
    | ok r1 =>
      simp only
      rw [ih]
      simp only [bind, Except.bind]
      cases h2 : optimize_bb_forward tc bb r1.1 l1 with
      | error e => rfl
      | ok r2 =>
        simp only
        cases h3 : optimize_bb_forward tc bb r2.1 l2 with
        | error e => rfl
        | ok r3 =>
          simp only
          cases r1.2 <;> rfl

/-- The statement `usages--` changes no flag, value or type. -/
theorem decUsages_flags_value (g : MVMSpeshGraph) (r : Nat × Nat) (o i : Nat) :
    ((decUsages g r).facts o i).flags = (g.facts o i).flags ∧
    ((decUsages g r).facts o i).value = (g.facts o i).value ∧
    ((decUsages g r).facts o i).type = (g.facts o i).type := by
  simp only [decUsages, setFacts]
  split
  · rename_i h; rw [h.1, h.2]; exact ⟨rfl, rfl, rfl⟩
  · exact ⟨rfl, rfl, rfl⟩

/-- Dropping a register from `S` adds none. -/
theorem carry_drop_subset (S : List (Nat × Nat)) (o0 : Option MVMSpeshOperand)
    (x : Nat × Nat) (h : x ∈ carry_drop S o0) : x ∈ S := by
  unfold carry_drop at h
  split at h
  · exact (List.mem_filter.1 h).1
  · exact h

/-- What is left of `S` after the register `(d, di)` is dropped. -/
theorem carry_drop_reg (S : List (Nat × Nat)) (d di : Nat) (x : Nat × Nat)
    (h : x ∈ carry_drop S (some (.reg d di))) : x ∈ S ∧ ¬ (x.1 = d ∧ x.2 = di) := by
  simp only [carry_drop] at h
  obtain ⟨hxS, hne⟩ := List.mem_filter.1 h
  refine ⟨hxS, fun hh => ?_⟩
  have : x = (d, di) := Prod.ext hh.1 hh.2
  simp [this] at hne

/-- The forward step on one instruction keeps the tracked value in the
registers that `carry_step` keeps. -/
theorem carry_step_ok (tc : MVMThreadContext) (g g' : MVMSpeshGraph) (bb : BBRef)
    (ins : MVMSpeshIns) (r : Option MVMSpeshIns) (v : Int) (S : List (Nat × Nat))
    (h : optimize_bb_forward_ins tc g bb ins = .ok (g', r))
    (hS : ∀ x ∈ S, KnownVal g x v) :
    ∀ x ∈ carry_step S ins, KnownVal g' x v := by
  unfold optimize_bb_forward_ins at h
  unfold carry_step
  cases hop : ins.info.opcode <;> rw [hop] at h <;> simp only at h ⊢
  case MVM_OP_findmeth =>
    simp only [bind, Except.bind] at h
    cases hm : optimize_method_lookup tc g ins with
    | error e => rw [hm] at h; cases h
    | ok res =>
      rw [hm] at h
      injection h with h
      injection h with h1 _
      obtain ⟨o, oi, -, hcase⟩ := optimize_method_lookup_inv tc g res.1 ins res.2 hm
      intro x hx
      have hk := hS x hx
      rw [← h1]
      rcases hcase with ⟨M, k, g1, ha, hg, -⟩ | ⟨k, k2, g1, ha1, ha2, -⟩
      · rw [hg]
        unfold KnownVal
        obtain ⟨f1, f2, -⟩ := decUsages_flags_value g1 (o, oi) x.1 x.2
        rw [f1, f2, (add_spesh_slot_frame _ _ _ _ ha).1]
        exact hk
      · unfold KnownVal
        rw [(add_spesh_slot_frame _ _ _ _ ha2).1, (add_spesh_slot_frame _ _ _ _ ha1).1]
        exact hk
  case MVM_OP_decont =>
    simp only [bind, Except.bind] at h
    cases hm : optimize_decont tc g ins with
    | error e => rw [hm] at h; cases h
    | ok res =>
      rw [hm] at h
      injection h with h
      injection h with h1 _
      rw [← h1]
      exact hS
  case MVM_OP_istype =>
    simp only [bind, Except.bind] at h
    cases hm : optimize_istype tc g ins with
    | error e => rw [hm] at h; cases h
    | ok res =>
      rw [hm] at h
      injection h with h
      injection h with h1 _
      rw [← h1]
      rcases optimize_istype_inv tc g res.1 ins res.2 hm with ⟨hg, -⟩ |
        ⟨d, di, o, oi, t, ti, rr, hd, -, -, hg, -⟩
      · rw [hg]
        intro x hx
        exact hS x (carry_drop_subset _ _ _ hx)
      · rw [hd]
        intro x hx
        obtain ⟨hxS, hne'⟩ := carry_drop_reg _ _ _ _ hx
        have hk := hS x hxS
        unfold KnownVal
        rw [hg, istype_folded_facts]
        simp only [hne', if_false]
        exact hk
  case MVM_OP_set =>
    simp only [bind, Except.bind] at h
    cases hm : optimize_set g ins with
    | error e => rw [hm] at h; cases h
    | ok g1 =>
      rw [hm] at h
      injection h with h
      injection h with h1 _
      rw [← h1]
      obtain ⟨s, si, hs, hcase⟩ := optimize_set_inv g g1 ins hm
      rw [hs]
      rcases hcase with ⟨-, hnv, hg⟩ | ⟨d, di, hd, hg⟩
      · rw [hg]
        intro x hx
        simp only [carry_set] at hx
        by_cases hmem : (s, si) ∈ S
        · exact absurd hnv (hS _ hmem).1
        · rw [if_neg hmem] at hx
          exact hS x (carry_drop_subset _ _ _ hx)
      · rw [hd]
        simp only [carry_set]
        have hfd : g1.facts d di = set_dst_facts (g.facts d di) (g.facts s si) := by
          rw [hg]; simp [set_result, setFacts_same]
        have hfo : ∀ x : Nat × Nat, ¬ (x.1 = d ∧ x.2 = di) →
            g1.facts x.1 x.2 = g.facts x.1 x.2 := by
          intro x hx
          rw [hg]; simp [set_result, setFacts_other _ _ _ _ _ _ hx]
        by_cases hmem : (s, si) ∈ S
        · rw [if_pos hmem]
          intro x hx
          have hsk := hS _ hmem
          by_cases hxd : x.1 = d ∧ x.2 = di
          · unfold KnownVal
            rw [hxd.1, hxd.2, hfd]
            simp only [set_dst_facts, if_pos hsk.1]
            exact ⟨or_flag_and_ne_zero _, hsk.2⟩
          · rcases List.mem_cons.1 hx with hx1 | hx1
            · exact absurd (by rw [hx1]; exact ⟨rfl, rfl⟩) hxd
            · unfold KnownVal
              rw [hfo x hxd]
              exact hS x hx1
        · rw [if_neg hmem]
          intro x hx
          obtain ⟨hxS, hne'⟩ := carry_drop_reg _ _ _ _ hx
          unfold KnownVal
          rw [hfo x hne']
          exact hS x hxS
  case MVM_OP_if_i =>
    rcases optimize_iffy_inv tc g g' ins bb r h with ⟨hg, -⟩ | ⟨n, hrm, -⟩
    · rw [hg]; exact hS
    · intro x hx
      obtain ⟨_, -, -, -, -, hfacts, -⟩ := remove_successor_ok _ _ _ _ hrm
      unfold KnownVal
      rw [hfacts]
      exact hS x hx
  case MVM_OP_unless_i =>
    rcases optimize_iffy_inv tc g g' ins bb r h with ⟨hg, -⟩ | ⟨n, hrm, -⟩
    · rw [hg]; exact hS
    · intro x hx
      obtain ⟨_, -, -, -, -, hfacts, -⟩ := remove_successor_ok _ _ _ _ hrm
      unfold KnownVal
      rw [hfacts]
      exact hS x hx
  all_goals
    injection h with h
    injection h with h1 _
    rw [← h1]
    exact hS

/-- The forward loop keeps the tracked value in the registers that `carriers`
keeps. -/
theorem carriers_ok (tc : MVMThreadContext) (bb : BBRef) (v : Int) (mid : List MVMSpeshIns) :
    ∀ (g gm : MVMSpeshGraph) (out : List MVMSpeshIns) (S : List (Nat × Nat)),
      optimize_bb_forward tc bb g mid = .ok (gm, out) →
      (∀ x ∈ S, KnownVal g x v) → ∀ x ∈ carriers S mid, KnownVal gm x v := by
  induction mid with
  | nil =>
    intro g gm out S h hS
    simp only [optimize_bb_forward] at h
    injection h with h
    injection h with h1 _
    rw [← h1]
    exact hS
  | cons i mid ih =>
    intro g gm out S h hS
    simp only [optimize_bb_forward, bind, Except.bind] at h
    cases h1 : optimize_bb_forward_ins tc g bb i with
    | error e => rw [h1] at h; cases h
    | ok r1 =>
      rw [h1] at h
      simp only at h
      cases h2 : optimize_bb_forward tc bb r1.1 mid with
      | error e => rw [h2] at h; cases h
      | ok r2 =>
        rw [h2] at h
        simp only at h
        injection h with h
        injection h with hg _
        have hstep := carry_step_ok tc g r1.1 bb i r1.2 v S h1 hS
        have := ih r1.1 r2.1 r2.2 (carry_step S i) h2 hstep
        rw [← hg]
        exact this

/-- What `optimize_iffy` does to `if_i flag, target` when the flag is known to
be 1 or 0. -/
theorem optimize_iffy_known (tc : MVMThreadContext) (g : MVMSpeshGraph) (ins : MVMSpeshIns)
    (bb : BBRef) (c ci : Nat) (T : BBRef) (v : Int)
    (hop : ins.info.opcode = MVM_OP_if_i) (hops : ins.operands = [.reg c ci, .ins_bb T])
    (hk : KnownVal g (c, ci) v) :
    (v = 1 → optimize_iffy tc g ins bb =
      (do
        let g1 ← MVM_spesh_manipulate_remove_successor g bb (g.bbs bb).linear_next
        Except.ok (g1, some ⟨tc.MVM_op_get_op MVM_OP_goto, [.ins_bb T, .ins_bb T]⟩))) ∧
    (v = 0 → optimize_iffy tc g ins bb =
      (do
        let g1 ← MVM_spesh_manipulate_remove_successor g bb (some T)
        Except.ok (g1, none))) := by
  obtain ⟨hkv, hval⟩ := hk
  simp only at hkv hval
  constructor
  · intro hv
    subst hv
    have htv : toMVMuint8 (g.facts c ci).value.i64 = 1 := by rw [hval]; rfl
    simp [optimize_iffy, hop, iffy_negated_op, iffy_truthvalue, hops, get_facts, hkv, htv,
      bind, Except.bind, readAt, writeAt]
  · intro hv
    subst hv
    have htv : toMVMuint8 (g.facts c ci).value.i64 = 0 := by rw [hval]; rfl
    simp [optimize_iffy, hop, iffy_negated_op, iffy_truthvalue, hops, get_facts, hkv, htv,
      bind, Except.bind, get_ins_bb, MVM_spesh_manipulate_delete_ins]

/-- C17: facts created in the forward pass are used later in the same pass.
In a block whose instructions are `pre ++ istype r, o, t :: mid ++ if_i c, T ::
post`, where at the `istype` both `o` and `t` have KNOWN_TYPE and the cache
decides with result `v`, and where `c` is among the registers that carry the
value of `r` after `mid` (`r` itself if `mid` does not write it, or the end of
a chain of `set` instructions in `mid`), the forward loop rewrites the
`istype` to `const_i64 r, v` and folds the conditional with `v`: for `v = 1` it
becomes `goto T` and the block's `linear_next` is removed from its successors,
for `v = 0` it is deleted and `T` is removed from its successors; the loop
then goes on with `post`. -/
theorem optimize_bb_forward_uses_new_fact (tc : MVMThreadContext) (bb : BBRef)
    (g0 g gm : MVMSpeshGraph) (pre mid post outPre outMid : List MVMSpeshIns)
    (insI insC : MVMSpeshIns) (r ri o oi t ti c ci : Nat) (T : BBRef) (v : Int)
    (hIop : insI.info.opcode = MVM_OP_istype)
    (hIops : insI.operands = [.reg r ri, .reg o oi, .reg t ti])
    (hCop : insC.info.opcode = MVM_OP_if_i)
    (hCops : insC.operands = [.reg c ci, .ins_bb T])
    (hpre : optimize_bb_forward tc bb g0 pre = .ok (g, outPre))
    (hko : (g.facts o oi).flags &&& MVM_SPESH_FACT_KNOWN_TYPE ≠ 0)
    (hkt : (g.facts t ti).flags &&& MVM_SPESH_FACT_KNOWN_TYPE ≠ 0)
    (hv : tc.MVM_6model_try_cache_type_check (g.facts o oi).type (g.facts t ti).type = some v)
    (hmid : optimize_bb_forward tc bb (istype_folded g r ri o oi t ti v) mid = .ok (gm, outMid))
    (hcarry : (c, ci) ∈ carriers [(r, ri)] mid) :
    optimize_bb_forward_ins tc g bb insI = .ok (istype_folded g r ri o oi t ti v,
      some ⟨tc.MVM_op_get_op MVM_OP_const_i64, [.reg r ri, .lit_i64 v, .reg t ti]⟩) ∧
    (v = 1 → optimize_bb_forward tc bb g0 (pre ++ insI :: (mid ++ insC :: post)) =
      (do
        let g3 ← MVM_spesh_manipulate_remove_successor gm bb (gm.bbs bb).linear_next
        let (g4, outPost) ← optimize_bb_forward tc bb g3 post
        Except.ok (g4, outPre ++
          ⟨tc.MVM_op_get_op MVM_OP_const_i64, [.reg r ri, .lit_i64 v, .reg t ti]⟩ ::
            (outMid ++ ⟨tc.MVM_op_get_op MVM_OP_goto, [.ins_bb T, .ins_bb T]⟩ :: outPost)))) ∧
    (v = 0 → optimize_bb_forward tc bb g0 (pre ++ insI :: (mid ++ insC :: post)) =
      (do
        let g3 ← MVM_spesh_manipulate_remove_successor gm bb (some T)
        let (g4, outPost) ← optimize_bb_forward tc bb g3 post
        Except.ok (g4, outPre ++
          ⟨tc.MVM_op_get_op MVM_OP_const_i64, [.reg r ri, .lit_i64 v, .reg t ti]⟩ ::
            (outMid ++ outPost)))) ∧
    (∀ (n : BBRef) (g3 : MVMSpeshGraph),
      MVM_spesh_manipulate_remove_successor gm bb (some n) = .ok g3 →
        (g3.bbs bb).succ = (gm.bbs bb).succ.erase n ∧ g3.facts = gm.facts) := by
  have hI : optimize_bb_forward_ins tc g bb insI = .ok (istype_folded g r ri o oi t ti v,
      some ⟨tc.MVM_op_get_op MVM_OP_const_i64, [.reg r ri, .lit_i64 v, .reg t ti]⟩) := by
    simp only [optimize_bb_forward_ins, hIop,
      optimize_istype_decided tc g insI r ri o oi t ti v hIops hko hkt hv, bind, Except.bind]
  have hr0 : ∀ x ∈ [(r, ri)], KnownVal (istype_folded g r ri o oi t ti v) x v := by
    intro x hx
    rw [List.mem_singleton] at hx
    subst hx
    unfold KnownVal
    simp only [istype_folded_facts, and_self, if_true]
    exact ⟨or_flag_and_ne_zero _, trivial⟩
  have hkc : KnownVal gm (c, ci) v :=
    carriers_ok tc bb v mid _ gm outMid _ hmid hr0 _ hcarry
  obtain ⟨hf1, hf0⟩ := optimize_iffy_known tc gm insC bb c ci T v hCop hCops hkc
  have hCstep : optimize_bb_forward_ins tc gm bb insC = optimize_iffy tc gm insC bb := by
    simp only [optimize_bb_forward_ins, hCop]
  refine ⟨hI, ?_, ?_, ?_⟩
  · intro h1
    rw [optimize_bb_forward_append, hpre]
    simp only [bind, Except.bind, optimize_bb_forward, hI]
    rw [optimize_bb_forward_append, hmid]
    simp only [bind, Except.bind, optimize_bb_forward, hCstep, hf1 h1]
    cases MVM_spesh_manipulate_remove_successor gm bb (gm.bbs bb).linear_next with
    | error e => rfl
    | ok g3 =>
      simp only
      cases optimize_bb_forward tc bb g3 post with
      | error e => rfl
      | ok r4 => rfl
  · intro h0
    rw [optimize_bb_forward_append, hpre]
    simp only [bind, Except.bind, optimize_bb_forward, hI]
    rw [optimize_bb_forward_append, hmid]
    simp only [bind, Except.bind, optimize_bb_forward, hCstep, hf0 h0]
    cases MVM_spesh_manipulate_remove_successor gm bb (some T) with
    | error e => rfl
    | ok g3 =>
      simp only
      cases optimize_bb_forward tc bb g3 post with
      | error e => rfl
      | ok r4 => rfl
  · intro n g3 h3
    obtain ⟨n', hn, hsucc, -, -, hfacts, -⟩ := remove_successor_ok _ _ _ _ h3
    have : n' = n := (Option.some.inj hn).symm
    subst this
    exact ⟨hsucc, hfacts⟩

/-- Witness for `optimize_bb_forward_uses_new_fact`: in `gIstypeIf` the value 1 of the folded `istype` reaches the `if_i` through one `set`; the conditional becomes `goto BB2` and the fall-through `BB1` leaves the successors of `BB0`. -/
theorem optimize_bb_forward_uses_new_fact_witness :
    ∃ g4, optimize_bb_forward tcResolve 0 gIstypeIf (gIstypeIf.bbs 0).ins
        = .ok (g4, [⟨specOpTable MVM_OP_const_i64, [.reg 2 0, .lit_i64 1, .reg 0 0]⟩,
                    ⟨specOpTable MVM_OP_set, [.reg 3 0, .reg 2 0]⟩,
                    ⟨specOpTable MVM_OP_goto, [.ins_bb 2, .ins_bb 2]⟩]) ∧
      (g4.bbs 0).succ = [2] := by
  have h := (optimize_bb_forward_uses_new_fact tcResolve 0 gIstypeIf gIstypeIf _ [] 
    [⟨specOpTable MVM_OP_set, [.reg 3 0, .reg 2 0]⟩] [] [] _
    ⟨specOpTable MVM_OP_istype, [.reg 2 0, .reg 0 0, .reg 0 0]⟩
    ⟨specOpTable MVM_OP_if_i, [.reg 3 0, .ins_bb 2]⟩ 2 0 0 0 0 0 3 0 2 1
    rfl rfl rfl rfl rfl (by decide) (by decide) rfl rfl (by decide)).2.1 rfl
  exact ⟨_, h.trans rfl, by decide⟩

/-! ### A second run of the pass -/

/-- Reflexivity of `BlockShrinks`. -/
theorem BlockShrinks_refl (x : MVMSpeshBB) : BlockShrinks x x :=
  ⟨rfl, List.Sublist.refl _, le_refl _, id⟩

/-- Transitivity of `BlockShrinks`. -/
theorem BlockShrinks_trans {x y z : MVMSpeshBB} (h1 : BlockShrinks x y) (h2 : BlockShrinks y z) :
    BlockShrinks x z :=
  ⟨h1.1.trans h2.1, h1.2.1.trans h2.2.1, h1.2.2.1.trans h2.2.2.1, fun h => h1.2.2.2 (h2.2.2.2 h)⟩

/-- Reflexivity of `SameSlots`. -/
theorem SameSlots_refl (g : MVMSpeshGraph) : SameSlots g g := ⟨rfl, rfl, rfl⟩

/-- Transitivity of `SameSlots`. -/
theorem SameSlots_trans {x y z : MVMSpeshGraph} (h1 : SameSlots x y) (h2 : SameSlots y z) :
    SameSlots x z :=
  ⟨h1.1.trans h2.1, h1.2.1.trans h2.2.1, h1.2.2.trans h2.2.2⟩

/-- One step of the forward loop: the blocks keep their instructions, children
and place in the chain, no successor is added, the instruction left is no
`findmeth`, and the slot table changes only for a `findmeth`. -/
theorem optimize_bb_forward_ins_frame (tc : MVMThreadContext)
    (htc : ∀ op, (tc.MVM_op_get_op op).opcode = op) (g g' : MVMSpeshGraph) (bb : BBRef)
    (ins : MVMSpeshIns) (r : Option MVMSpeshIns)
    (h : optimize_bb_forward_ins tc g bb ins = .ok (g', r)) :
    (∀ b, SameButEdges (g'.bbs b) (g.bbs b)) ∧
    (∀ b, (g'.bbs b).succ.Sublist (g.bbs b).succ) ∧
    (∀ i, r = some i → i.info.opcode ≠ MVM_OP_findmeth) ∧
    (ins.info.opcode ≠ MVM_OP_findmeth → SameSlots g' g) ∧
    g'.entry = g.entry ∧ g'.num_bbs = g.num_bbs := by
  have hiffy : ins.info.opcode ≠ MVM_OP_findmeth → optimize_iffy tc g ins bb = .ok (g', r) →
      (∀ b, SameButEdges (g'.bbs b) (g.bbs b)) ∧
      (∀ b, (g'.bbs b).succ.Sublist (g.bbs b).succ) ∧
      (∀ i, r = some i → i.info.opcode ≠ MVM_OP_findmeth) ∧
      (ins.info.opcode ≠ MVM_OP_findmeth → SameSlots g' g) ∧
      g'.entry = g.entry ∧ g'.num_bbs = g.num_bbs := by
    intro hop h
    rcases optimize_iffy_inv tc g g' ins bb r h with ⟨hg, hr⟩ | ⟨n, hrem, hr⟩
    · rw [hg]
      refine ⟨fun b => SameButEdges_refl _, fun b => List.Sublist.refl _, ?_,
        fun _ => SameSlots_refl _, rfl, rfl⟩
      intro i hi
      rw [hr] at hi
      cases hi
      exact hop
    · obtain ⟨m, -, hsucc, hother, hsame, -, hslots, hentry, hnum, -⟩ :=
        remove_successor_ok g g' bb _ hrem
      refine ⟨hsame, ?_, ?_, fun _ => hslots, hentry, hnum⟩
      · intro b
        by_cases hb : b = bb
        · rw [hb, hsucc]; exact List.erase_sublist _ _
        · rw [hother b hb]
      · intro i hi
        rcases hr with hr | ⟨o1, -, hr⟩
        · rw [hr] at hi; cases hi
        · rw [hr] at hi
          cases hi
          simp only [htc]; decide
  unfold optimize_bb_forward_ins at h
  split at h
  · -- findmeth
    rename_i hop
    simp only [bind, Except.bind] at h
    cases h1 : optimize_method_lookup tc g ins with
    | error e => rw [h1] at h; cases h
    | ok v =>
      rw [h1] at h
      simp only [Except.ok.injEq, Prod.mk.injEq] at h
      obtain ⟨hg, hr⟩ := h
      obtain ⟨o, oi, -, hcase⟩ := optimize_method_lookup_inv tc g v.1 ins v.2 h1
      have hsb : g'.bbs = g.bbs ∧ g'.entry = g.entry ∧ g'.num_bbs = g.num_bbs := by
        rcases hcase with ⟨M, k, g1, ha, hg1, -⟩ | ⟨k, k2, g1, ha, hb, -⟩
        · rw [← hg, hg1]
          have h1 := (add_spesh_slot_frame _ _ _ _ ha).2
          exact ⟨h1.1, h1.2.1, h1.2.2.1⟩
        · rw [← hg]
          have h1 := (add_spesh_slot_frame _ _ _ _ ha).2
          have h2 := (add_spesh_slot_frame _ _ _ _ hb).2
          exact ⟨h2.1.trans h1.1, h2.2.1.trans h1.2.1, h2.2.2.1.trans h1.2.2.1⟩
      obtain ⟨hbbs, hentry, hnum⟩ := hsb
      refine ⟨fun b => by rw [hbbs]; exact SameButEdges_refl _,
        fun b => by rw [hbbs], ?_, fun hne => absurd hop hne, hentry, hnum⟩
      intro i hi
      rw [← hr] at hi
      cases hi
      rcases hcase with ⟨M, k, g1, -, -, hi⟩ | ⟨k, k2, g1, -, -, hi⟩
      · rw [hi]; simp only [htc]; decide
      · rw [hi]; simp only [htc]; decide
  · -- decont
    rename_i hop
    simp only [bind, Except.bind] at h
    cases h1 : optimize_decont tc g ins with
    | error e => rw [h1] at h; cases h
    | ok v =>
      rw [h1] at h
      simp only [Except.ok.injEq, Prod.mk.injEq] at h
      obtain ⟨hg, hr⟩ := h
      subst hg
      refine ⟨fun b => SameButEdges_refl _, fun b => List.Sublist.refl _, ?_,
        fun _ => SameSlots_refl _, rfl, rfl⟩
      intro i hi
      rw [← hr] at hi
      cases hi
      rcases optimize_decont_inv tc g ins v h1 with hv | hv
      · rw [hv, hop]; decide
      · rw [hv]; simp only [htc]; decide
  · -- istype
    rename_i hop
    simp only [bind, Except.bind] at h
    cases h1 : optimize_istype tc g ins with
    | error e => rw [h1] at h; cases h
    | ok v =>
      rw [h1] at h
      simp only [Except.ok.injEq, Prod.mk.injEq] at h
      obtain ⟨hg, hr⟩ := h
      rcases optimize_istype_inv tc g v.1 ins v.2 h1 with ⟨hv1, hv2⟩ | ⟨d, di, o, oi, t, ti, rr, -, -, -, hv1, hv2⟩
      · rw [← hg, hv1]
        refine ⟨fun b => SameButEdges_refl _, fun b => List.Sublist.refl _, ?_,
          fun _ => SameSlots_refl _, rfl, rfl⟩
        intro i hi
        rw [← hr] at hi
        cases hi
        rw [hv2, hop]; decide
      · rw [← hg, hv1]
        refine ⟨fun b => SameButEdges_refl _, fun b => List.Sublist.refl _, ?_,
          fun _ => SameSlots_refl _, rfl, rfl⟩
        intro i hi
        rw [← hr] at hi
        cases hi
        rw [hv2]; simp only [htc]; decide
  · -- set
    rename_i hop
    simp only [bind, Except.bind] at h
    cases h1 : optimize_set g ins with
    | error e => rw [h1] at h; cases h
    | ok v =>
      rw [h1] at h
      simp only [Except.ok.injEq, Prod.mk.injEq] at h
      obtain ⟨hg, hr⟩ := h
      obtain ⟨s, si, -, hcase⟩ := optimize_set_inv g v ins h1
      have hv : v.bbs = g.bbs ∧ SameSlots v g ∧ v.entry = g.entry ∧ v.num_bbs = g.num_bbs := by
        rcases hcase with ⟨-, -, hv⟩ | ⟨d, di, -, hv⟩
        · rw [hv]; exact ⟨rfl, SameSlots_refl _, rfl, rfl⟩
        · rw [hv]; exact ⟨rfl, ⟨rfl, rfl, rfl⟩, rfl, rfl⟩
      rw [← hg]
      refine ⟨fun b => by rw [hv.1]; exact SameButEdges_refl _,
        fun b => by rw [hv.1], ?_, fun _ => hv.2.1, hv.2.2⟩
      intro i hi
      rw [← hr] at hi
      cases hi
      rw [hop]; decide
  · -- if_i
    rename_i hop
    exact hiffy (by rw [hop]; decide) h
  · -- unless_i
    rename_i hop
    exact hiffy (by rw [hop]; decide) h
  · -- any other opcode
    rename_i hop1 hop2 hop3 hop4 hop5 hop6
    injection h with h
    injection h with hg hr
    subst hg
    refine ⟨fun b => SameButEdges_refl _, fun b => List.Sublist.refl _, ?_,
      fun _ => SameSlots_refl _, rfl, rfl⟩
    intro i hi
    rw [← hr] at hi
    cases hi
    exact hop1

/-- The forward loop: the blocks keep their instructions, children and place
in the chain, no successor is added, the instructions left are no more than
before and hold no `findmeth`, and without a `findmeth` among the visited
instructions the slot table stays as it is. -/
theorem optimize_bb_forward_frame (tc : MVMThreadContext)
    (htc : ∀ op, (tc.MVM_op_get_op op).opcode = op) (bb : BBRef) (l : List MVMSpeshIns) :
    ∀ (g g' : MVMSpeshGraph) (out : List MVMSpeshIns),
      optimize_bb_forward tc bb g l = .ok (g', out) →
      (∀ b, SameButEdges (g'.bbs b) (g.bbs b)) ∧
      (∀ b, (g'.bbs b).succ.Sublist (g.bbs b).succ) ∧
      out.length ≤ l.length ∧
      (∀ i ∈ out, i.info.opcode ≠ MVM_OP_findmeth) ∧
      ((∀ i ∈ l, i.info.opcode ≠ MVM_OP_findmeth) → SameSlots g' g) ∧
      g'.entry = g.entry ∧ g'.num_bbs = g.num_bbs := by
  induction l with
  | nil =>
    intro g g' out h
    simp only [optimize_bb_forward, Except.ok.injEq, Prod.mk.injEq] at h
    obtain ⟨hg, ho⟩ := h
    subst hg; subst ho
    exact ⟨fun b => SameButEdges_refl _, fun b => List.Sublist.refl _, le_refl _,
      fun i hi => absurd hi (List.not_mem_nil i), fun _ => SameSlots_refl _, rfl, rfl⟩
  | cons i l ih =>
    intro g g' out h
    simp only [optimize_bb_forward, bind, Except.bind] at h
    cases h1 : optimize_bb_forward_ins tc g bb i with
    | error e => rw [h1] at h; cases h
    | ok v1 =>
      rw [h1] at h
      simp only at h
      cases h2 : optimize_bb_forward tc bb v1.1 l with
      | error e => rw [h2] at h; cases h
      | ok v2 =>
        rw [h2] at h
        simp only [Except.ok.injEq, Prod.mk.injEq] at h
        obtain ⟨hg, ho⟩ := h
        obtain ⟨a1, a2, a3, a4, a5, a6⟩ :=
          optimize_bb_forward_ins_frame tc htc g v1.1 bb i v1.2 h1
        obtain ⟨b1, b2, b3, b4, b5, b6, b7⟩ := ih v1.1 v2.1 v2.2 h2
        rw [← hg]
        refine ⟨fun b => SameButEdges_trans (b1 b) (a1 b), fun b => (b2 b).trans (a2 b), ?_, ?_,
          ?_, b6.trans a5, b7.trans a6⟩
        · rw [← ho]
          cases v1.2 with
          | none => simp only [List.length_cons]; omega
          | some j => simp only [List.length_cons]; omega
        · rw [← ho]
          intro j hj
          cases hr : v1.2 with
          | none => rw [hr] at hj; exact b4 j hj
          | some k =>
            rw [hr] at hj
            rcases List.mem_cons.1 hj with hj | hj
            · rw [hj]; exact a3 k hr
            · exact b4 j hj
        · intro hno
          exact SameSlots_trans (b5 (fun j hj => hno j (List.mem_cons_of_mem _ hj)))
            (a4 (hno i (List.mem_cons_self _ _)))

/-- The usage loops of the reverse pass change facts only. -/
theorem propagate_non_usage_frame (phi : Bool) (ins : MVMSpeshIns) (js : List Nat) :
    ∀ (g g' : MVMSpeshGraph), propagate_non_usage phi ins g js = .ok g' →
      SameBlocks g' g ∧ SameSlots g' g := by
  induction js with
  | nil =>
    intro g g' h
    simp only [propagate_non_usage, Except.ok.injEq] at h
    subst h
    exact ⟨⟨rfl, rfl, rfl, rfl⟩, SameSlots_refl _⟩
  | cons j js ih =>
    intro g g' h
    simp only [propagate_non_usage] at h
    split at h
    · simp only [bind, Except.bind] at h
      cases h1 : get_facts ins.operands[j]? with
      | error e => rw [h1] at h; cases h
      | ok r =>
        rw [h1] at h
        obtain ⟨hb, hs⟩ := ih _ _ h
        exact ⟨⟨hb.1, hb.2.1, hb.2.2.1, hb.2.2.2⟩, hs.1, hs.2.1, hs.2.2⟩
    · exact ih _ _ h

/-- One step of the reverse loop changes facts only, and keeps or drops the
instruction. -/
theorem optimize_bb_reverse_ins_frame (g g' : MVMSpeshGraph) (ins : MVMSpeshIns)
    (r : Option MVMSpeshIns) (h : optimize_bb_reverse_ins g ins = .ok (g', r)) :
    SameBlocks g' g ∧ SameSlots g' g ∧ (r = some ins ∨ r = none) := by
  have hkeep : ∀ {x : Except Trap (MVMSpeshGraph × Option MVMSpeshIns)},
      x = Except.ok (g, some ins) → x = .ok (g', r) →
      SameBlocks g' g ∧ SameSlots g' g ∧ (r = some ins ∨ r = none) := by
    intro x hx h
    rw [hx] at h
    injection h with h
    injection h with hg hr
    subst hg
    exact ⟨⟨rfl, rfl, rfl, rfl⟩, SameSlots_refl _, Or.inl hr.symm⟩
  have hdel : ∀ (phi : Bool) (js : List Nat),
      (do let g1 ← propagate_non_usage phi ins g js
          Except.ok (g1, MVM_spesh_manipulate_delete_ins ins)) = Except.ok (g', r) →
      SameBlocks g' g ∧ SameSlots g' g ∧ (r = some ins ∨ r = none) := by
    intro phi js h
    simp only [bind, Except.bind] at h
    cases h1 : propagate_non_usage phi ins g js with
    | error e => rw [h1] at h; cases h
    | ok g1 =>
      rw [h1] at h
      injection h with h
      injection h with hg hr
      subst hg
      obtain ⟨hb, hs⟩ := propagate_non_usage_frame phi ins js g g1 h1
      exact ⟨hb, hs, Or.inr hr.symm⟩
  unfold optimize_bb_reverse_ins at h
  split at h
  · simp only [bind, Except.bind] at h
    cases h1 : get_facts ins.operands[0]? with
    | error e => rw [h1] at h; cases h
    | ok f =>
      rw [h1] at h
      simp only at h
      split at h
      · exact hdel _ _ h
      · exact hkeep rfl h
  · split at h
    · split at h
      · simp only [bind, Except.bind] at h
        cases h1 : get_facts ins.operands[0]? with
        | error e => rw [h1] at h; cases h
        | ok f =>
          rw [h1] at h
          simp only at h
          split at h
          · exact hdel _ _ h
          · exact hkeep rfl h
      · exact hkeep rfl h
    · exact hkeep rfl h

/-- The reverse loop changes facts only, and what it leaves is a sublist of
what it was given. -/
theorem optimize_bb_reverse_frame (l : List MVMSpeshIns) :
    ∀ (g g' : MVMSpeshGraph) (kept out : List MVMSpeshIns),
      optimize_bb_reverse g l kept = .ok (g', out) →
      SameBlocks g' g ∧ SameSlots g' g ∧ out.Sublist (l.reverse ++ kept) := by
  induction l with
  | nil =>
    intro g g' kept out h
    simp only [optimize_bb_reverse, Except.ok.injEq, Prod.mk.injEq] at h
    obtain ⟨hg, ho⟩ := h
    subst hg; subst ho
    exact ⟨⟨rfl, rfl, rfl, rfl⟩, SameSlots_refl _, by simp⟩
  | cons i l ih =>
    intro g g' kept out h
    simp only [optimize_bb_reverse, bind, Except.bind] at h
    cases h1 : optimize_bb_reverse_ins g i with
    | error e => rw [h1] at h; cases h
    | ok v1 =>
      rw [h1] at h
      simp only at h
      obtain ⟨a1, a2, a3⟩ := optimize_bb_reverse_ins_frame g v1.1 i v1.2 h1
      obtain ⟨b1, b2, b3⟩ := ih _ _ _ _ h
      refine ⟨⟨b1.1.trans a1.1, b1.2.1.trans a1.2.1, b1.2.2.1.trans a1.2.2.1,
        b1.2.2.2.trans a1.2.2.2⟩, SameSlots_trans b2 a2, ?_⟩
      rw [List.reverse_cons, List.append_assoc]
      refine b3.trans (List.Sublist.append_left ?_ _)
      rcases a3 with hr | hr
      · rw [hr]; exact List.Sublist.refl _
      · rw [hr]; exact List.sublist_cons_self _ _

/-- The descendants depend on the `children` lists only. -/
theorem Dom_congr (bbs bbs' : BBRef → MVMSpeshBB)
    (h : ∀ b, (bbs' b).children = (bbs b).children) (a b : BBRef) :
    Dom bbs' a b ↔ Dom bbs a b := by
  have he : (fun x y => y ∈ (bbs' x).children) = (fun x y => y ∈ (bbs x).children) := by
    funext x y; rw [h]
  unfold Dom
  rw [he]

/-- A block whose instructions are among those of a block without `findmeth` has none. -/
theorem NoFindmeth_of_sublist {x y : MVMSpeshBB} (h : x.ins.Sublist y.ins)
    (hy : NoFindmeth y) : NoFindmeth x :=
  fun i hi => hy i (h.subset hi)

/-- The loop over the children, given `OptimizePost` for the recursive call. -/
theorem optimize_children_frame
    (rec_bb : MVMSpeshGraph → BBRef → Except Trap MVMSpeshGraph)
    (hrec : ∀ g c g', rec_bb g c = .ok g' → OptimizePost g c g') (cs : List BBRef) :
    ∀ (g g' : MVMSpeshGraph), optimize_children rec_bb g cs = .ok g' →
      (∀ b, BlockShrinks (g'.bbs b) (g.bbs b)) ∧ g'.entry = g.entry ∧
      g'.num_bbs = g.num_bbs ∧
      (∀ c ∈ cs, ∀ b, Dom g.bbs c b → NoFindmeth (g'.bbs b)) ∧
      ((∀ c ∈ cs, ∀ b, Dom g.bbs c b → NoFindmeth (g.bbs b)) → SameSlots g' g) := by
  induction cs with
  | nil =>
    intro g g' h
    simp only [optimize_children, Except.ok.injEq] at h
    subst h
    exact ⟨fun b => BlockShrinks_refl _, rfl, rfl,
      fun c hc => absurd hc (List.not_mem_nil c), fun _ => SameSlots_refl _⟩
  | cons c cs ih =>
    intro g g' h
    simp only [optimize_children, bind, Except.bind] at h
    cases h1 : rec_bb g c with
    | error e => rw [h1] at h; cases h
    | ok g1 =>
      rw [h1] at h
      simp only at h
      obtain ⟨a1, a2, a3, a4, a5⟩ := hrec g c g1 h1
      obtain ⟨b1, b2, b3, b4, b5⟩ := ih g1 g' h
      have hdom : ∀ a b, Dom g1.bbs a b ↔ Dom g.bbs a b :=
        Dom_congr g.bbs g1.bbs (fun b => (a1 b).1)
      refine ⟨fun b => BlockShrinks_trans (b1 b) (a1 b), b2.trans a2, b3.trans a3, ?_, ?_⟩
      · intro c' hc' b hb
        rcases List.mem_cons.1 hc' with hc' | hc'
        · rw [hc'] at hb
          exact (b1 b).2.2.2 (a4 b hb)
        · exact b4 c' hc' b ((hdom c' b).2 hb)
      · intro hno
        refine SameSlots_trans (b5 ?_) (a5 (hno c (List.mem_cons_self _ _)))
        intro c' hc' b hb
        exact (a1 b).2.2.2 (hno c' (List.mem_cons_of_mem _ hc') b ((hdom c' b).1 hb))

/-- The body of `optimize_bb`, with `setIns` for the two stores of the
instruction list. -/
theorem optimize_bb_eq (tc : MVMThreadContext) (fuel : Nat) (g : MVMSpeshGraph) (bb : BBRef) :
    optimize_bb tc (fuel + 1) g bb =
      (optimize_bb_forward tc bb g (g.bbs bb).ins >>= fun v1 =>
        optimize_children (optimize_bb tc fuel) (setIns v1.1 bb v1.2)
            ((setIns v1.1 bb v1.2).bbs bb).children >>= fun g3 =>
        optimize_bb_reverse g3 (g3.bbs bb).ins.reverse [] >>= fun v4 =>
        Except.ok (setIns v4.1 bb v4.2)) := by
  rfl

/-- The block `bb` after `setIns`. -/
theorem setIns_bbs_self (g : MVMSpeshGraph) (bb : BBRef) (l : List MVMSpeshIns) :
    (setIns g bb l).bbs bb = { g.bbs bb with ins := l } := by
  simp only [setIns, setBB, if_pos]

/-- The other blocks after `setIns`. -/
theorem setIns_bbs_other (g : MVMSpeshGraph) (bb : BBRef) (l : List MVMSpeshIns) (b : BBRef)
    (hb : b ≠ bb) : (setIns g bb l).bbs b = g.bbs b := by
  simp only [setIns, setBB, if_neg hb]

/-- The frame of `optimize_bb`. -/
theorem optimize_bb_frame (tc : MVMThreadContext)
    (htc : ∀ op, (tc.MVM_op_get_op op).opcode = op) (fuel : Nat) :
    ∀ (g : MVMSpeshGraph) (bb : BBRef) (g' : MVMSpeshGraph),
      optimize_bb tc fuel g bb = .ok g' → OptimizePost g bb g' := by
  induction fuel with
  | zero =>
    intro g bb g' h
    simp only [optimize_bb] at h
    cases h
  | succ fuel ih =>
    intro g bb g' h
    rw [optimize_bb_eq] at h
    simp only [bind, Except.bind] at h
    cases h1 : optimize_bb_forward tc bb g (g.bbs bb).ins with
    | error e => rw [h1] at h; cases h
    | ok v1 =>
      rw [h1] at h
      simp only at h
      obtain ⟨a1, a2, a3, a4, a5, a6, a7⟩ :=
        optimize_bb_forward_frame tc htc bb _ g v1.1 v1.2 h1
      generalize hg2 : setIns v1.1 bb v1.2 = g2 at h
      have hg2bb : g2.bbs bb = { v1.1.bbs bb with ins := v1.2 } := by
        rw [← hg2]; exact setIns_bbs_self _ _ _
      have hg2b : ∀ b, b ≠ bb → g2.bbs b = v1.1.bbs b := by
        intro b hb; rw [← hg2]; exact setIns_bbs_other _ _ _ b hb
      have hno2 : NoFindmeth (g2.bbs bb) := by
        rw [hg2bb]; exact a4
      have hs2 : ∀ b, BlockShrinks (g2.bbs b) (g.bbs b) := by
        intro b
        by_cases hb : b = bb
        · rw [hb]
          refine ⟨?_, ?_, ?_, fun _ => hno2⟩
          · rw [hg2bb]; exact (a1 bb).2.2.2
          · rw [hg2bb]; exact a2 bb
          · rw [hg2bb]; exact a3
        · rw [hg2b b hb]
          refine ⟨(a1 b).2.2.2, a2 b, le_of_eq (congrArg List.length (a1 b).2.1), ?_⟩
          intro hn i hi
          rw [(a1 b).2.1] at hi
          exact hn i hi
      have hslots2 : SameSlots g2 v1.1 := by rw [← hg2]; exact ⟨rfl, rfl, rfl⟩
      have he2 : g2.entry = g.entry ∧ g2.num_bbs = g.num_bbs := by
        rw [← hg2]; exact ⟨a6, a7⟩
      cases h2 : optimize_children (optimize_bb tc fuel) g2 (g2.bbs bb).children with
      | error e => rw [h2] at h; cases h
      | ok g3 =>
        rw [h2] at h
        simp only at h
        obtain ⟨c1, c2, c3, c4, c5⟩ := optimize_children_frame _ ih _ g2 g3 h2
        cases h3 : optimize_bb_reverse g3 (g3.bbs bb).ins.reverse [] with
        | error e => rw [h3] at h; cases h
        | ok v4 =>
          rw [h3] at h
          simp only [Except.ok.injEq] at h
          obtain ⟨d1, d2, d3⟩ := optimize_bb_reverse_frame _ g3 v4.1 [] v4.2 h3
          rw [List.reverse_reverse, List.append_nil] at d3
          have hg5bb : g'.bbs bb = { v4.1.bbs bb with ins := v4.2 } := by
            rw [← h]; exact setIns_bbs_self _ _ _
          have hg5b : ∀ b, b ≠ bb → g'.bbs b = g3.bbs b := by
            intro b hb; rw [← h, setIns_bbs_other _ _ _ b hb, d1.1]
          have hs5 : ∀ b, BlockShrinks (g'.bbs b) (g3.bbs b) := by
            intro b
            by_cases hb : b = bb
            · rw [hb, hg5bb, d1.1]
              exact ⟨rfl, List.Sublist.refl _, d3.length_le,
                fun hn i hi => hn i (d3.subset hi)⟩
            · rw [hg5b b hb]; exact BlockShrinks_refl _
          have hdom : ∀ a b, Dom g2.bbs a b ↔ Dom g.bbs a b :=
            Dom_congr g.bbs g2.bbs (fun b => (hs2 b).1)
          have hslots5 : SameSlots g' v4.1 := by rw [← h]; exact ⟨rfl, rfl, rfl⟩
          refine ⟨fun b => BlockShrinks_trans (hs5 b) (BlockShrinks_trans (c1 b) (hs2 b)), ?_, ?_,
            ?_, ?_⟩
          · rw [← h]; exact d1.2.1.trans (c2.trans he2.1)
          · rw [← h]; exact d1.2.2.1.trans (c3.trans he2.2)
          · intro b hb
            refine (hs5 b).2.2.2 ?_
            rcases Relation.ReflTransGen.cases_head hb with hb | ⟨c, hc, hcb⟩
            · rw [← hb]; exact (c1 bb).2.2.2 hno2
            · refine c4 c ?_ b ((hdom c b).2 hcb)
              rw [(hs2 bb).1]; exact hc
          · intro hno
            refine SameSlots_trans hslots5 (SameSlots_trans d2 (SameSlots_trans (c5 ?_)
              (SameSlots_trans hslots2 (a5 (hno bb Relation.ReflTransGen.refl)))))
            intro c hc b hb
            refine (hs2 b).2.2.2 (hno b ?_)
            rw [(hs2 bb).1] at hc
            exact Relation.ReflTransGen.head hc ((hdom c b).1 hb)

/-- The removal loop of `eliminate_dead` changes `linear_next` fields and
`num_bbs` only, and `num_bbs` does not grow. -/
theorem remove_loop_frame (seen : List Bool) (fuel : Nat) :
    ∀ (g : MVMSpeshGraph) (death : Bool) (cur : Option BBRef) (g' : MVMSpeshGraph)
      (death' : Bool),
      remove_loop seen fuel g death cur = .ok (g', death') →
      (∀ b, SameButNext (g'.bbs b) (g.bbs b)) ∧ SameOutsideBlocks g' g ∧
        g'.num_bbs ≤ g.num_bbs := by
  induction fuel with
  | zero =>
    intro g death cur g' death' h
    cases cur <;> simp [remove_loop] at h
  | succ fuel ih =>
    intro g death cur g' death' h
    cases cur with
    | none => simp [remove_loop] at h
    | some cur =>
      rw [remove_loop] at h
      cases hn : (g.bbs cur).linear_next with
      | none =>
        rw [hn] at h
        simp only at h
        injection h with h
        injection h with h1 h2
        subst h1
        exact ⟨fun b => SameButNext_refl _, SameOutsideBlocks_refl _, le_refl _⟩
      | some n =>
        rw [hn] at h
        simp only [bind, Except.bind] at h
        cases hs : readAt seen (g.bbs n).idx with
        | error e => rw [hs] at h; cases h
        | ok s =>
          rw [hs] at h
          cases s with
          | true =>
            simp only [Bool.not_true, Bool.false_eq_true, if_false] at h
            exact ih _ _ _ _ _ h
          | false =>
            simp only [Bool.not_false, if_true] at h
            obtain ⟨a1, a2, a3⟩ := ih _ _ _ _ _ h
            refine ⟨fun b => SameButNext_trans (a1 b) ?_, SameOutsideBlocks_trans a2 ?_, ?_⟩
            · by_cases hb : b = cur
              · rw [hb]; simp only [setBB, if_pos]; exact ⟨rfl, rfl, rfl, rfl, rfl⟩
              · simp only [setBB, if_neg hb]; exact SameButNext_refl _
            · exact ⟨rfl, rfl, rfl, rfl, rfl, rfl⟩
            · have h3 : g.num_bbs - 1 ≤ g.num_bbs := by omega
              exact a3.trans h3

/-- The rounds of `eliminate_dead` change `linear_next` fields and `num_bbs`
only, and `num_bbs` does not grow. -/
theorem eliminate_dead_rounds_frame (fuel rounds : Nat) :
    ∀ (g : MVMSpeshGraph) (seen : List Bool) (g' : MVMSpeshGraph),
      eliminate_dead_rounds fuel rounds g seen = .ok g' →
      (∀ b, SameButNext (g'.bbs b) (g.bbs b)) ∧ SameOutsideBlocks g' g ∧
        g'.num_bbs ≤ g.num_bbs := by
  induction rounds with
  | zero => intro g seen g' h; simp [eliminate_dead_rounds] at h
  | succ rounds ih =>
    intro g seen g' h
    simp only [eliminate_dead_rounds, bind, Except.bind] at h
    cases h1 : memset_zero seen g.num_bbs with
    | error e => rw [h1] at h; cases h
    | ok seen1 =>
    rw [h1] at h
    simp only at h
    cases h2 : writeAt seen1 0 true with
    | error e => rw [h2] at h; cases h
    | ok seen2 =>
    rw [h2] at h
    simp only at h
    cases h3 : mark_loop g.bbs fuel seen2 (some g.entry) with
    | error e => rw [h3] at h; cases h
    | ok seen3 =>
    rw [h3] at h
    simp only at h
    cases h4 : remove_loop seen3 fuel g false (some g.entry) with
    | error e => rw [h4] at h; cases h
    | ok res =>
    obtain ⟨g1, death⟩ := res
    rw [h4] at h
    simp only at h
    obtain ⟨a1, a2, a3⟩ := remove_loop_frame _ _ _ _ _ _ _ h4
    cases death with
    | false =>
      simp only [Bool.false_eq_true, if_false, Except.ok.injEq] at h
      subst h
      exact ⟨a1, a2, a3⟩
    | true =>
      simp only [if_true] at h
      obtain ⟨b1, b2, b3⟩ := ih _ _ _ h
      exact ⟨fun b => SameButNext_trans (b1 b) (a1 b), SameOutsideBlocks_trans b2 a2,
        b3.trans a3⟩

/-- The renumbering loop changes `idx` fields only. -/
theorem renumber_frame (fuel : Nat) :
    ∀ (bbs : BBRef → MVMSpeshBB) (k : Nat) (p : Option BBRef) (bbs' : BBRef → MVMSpeshBB),
      renumber fuel bbs k p = .ok bbs' →
      ∀ b, (bbs' b).ins = (bbs b).ins ∧ (bbs' b).succ = (bbs b).succ ∧
        (bbs' b).children = (bbs b).children := by
  induction fuel with
  | zero =>
    intro bbs k p bbs' h
    cases p with
    | none =>
      simp only [renumber, Except.ok.injEq] at h
      subst h
      exact fun b => ⟨rfl, rfl, rfl⟩
    | some c => simp [renumber] at h
  | succ fuel ih =>
    intro bbs k p bbs' h
    cases p with
    | none =>
      simp only [renumber, Except.ok.injEq] at h
      subst h
      exact fun b => ⟨rfl, rfl, rfl⟩
    | some c =>
      simp only [renumber] at h
      intro b
      obtain ⟨a1, a2, a3⟩ := ih _ _ _ _ h b
      rw [a1, a2, a3]
      by_cases hb : b = c
      · rw [hb]; simp only [setBB, if_pos]; trivial
      · simp only [setBB, if_neg hb]; trivial

/-- The frame of `eliminate_dead`: instructions, successors, children, facts
and the slot table stay, and `num_bbs` does not grow. -/
theorem eliminate_dead_frame (fuel : Nat) (g g' : MVMSpeshGraph)
    (h : eliminate_dead fuel g = .ok g') :
    (∀ b, (g'.bbs b).ins = (g.bbs b).ins ∧ (g'.bbs b).succ = (g.bbs b).succ ∧
      (g'.bbs b).children = (g.bbs b).children) ∧
    SameOutsideBlocks g' g ∧ g'.num_bbs ≤ g.num_bbs := by
  unfold eliminate_dead at h
  split at h
  · cases h
  · simp only [bind, Except.bind] at h
    cases h1 : eliminate_dead_rounds fuel fuel g (List.replicate g.num_bbs.toNat false) with
    | error e => rw [h1] at h; cases h
    | ok g1 =>
      rw [h1] at h
      simp only at h
      obtain ⟨a1, a2, a3⟩ := eliminate_dead_rounds_frame _ _ _ _ _ h1
      split at h
      · cases h2 : renumber fuel g1.bbs 0 (some g1.entry) with
        | error e => rw [h2] at h; cases h
        | ok bbs1 =>
          rw [h2] at h
          simp only [Except.ok.injEq] at h
          subst h
          have hr := renumber_frame _ _ _ _ _ h2
          refine ⟨fun b => ?_, a2, a3⟩
          obtain ⟨r1, r2, r3⟩ := hr b
          obtain ⟨-, s1, s2, -, s3⟩ := a1 b
          exact ⟨r1.trans s1, r2.trans s2, r3.trans s3⟩
      · simp only [Except.ok.injEq] at h
        subst h
        refine ⟨fun b => ?_, a2, a3⟩
        obtain ⟨-, s1, s2, -, s3⟩ := a1 b
        exact ⟨s1, s2, s3⟩

/-- C12 (amended): a second run appends no spesh slot and adds no block, no
instruction and no successor edge. If the opcode table gives each opcode its
own descriptor, a first run returns `g1` and a second run on `g1` returns `g2`,
then the slot table of `g2` is that of `g1`, `num_bbs` has not grown, and in
every block the instruction list is no longer and the successor list is a
sublist of what it was. -/
theorem MVM_spesh_optimize_second_run (tc : MVMThreadContext)
    (htc : ∀ op, (tc.MVM_op_get_op op).opcode = op) (fuel fuel2 : Nat)
    (g g1 g2 : MVMSpeshGraph)
    (h1 : MVM_spesh_optimize tc fuel g = .ok g1)
    (h2 : MVM_spesh_optimize tc fuel2 g1 = .ok g2) :
    SameSlots g2 g1 ∧ g2.num_bbs ≤ g1.num_bbs ∧
      ∀ b, (g2.bbs b).ins.length ≤ (g1.bbs b).ins.length ∧
        (g2.bbs b).succ.Sublist (g1.bbs b).succ := by
  simp only [MVM_spesh_optimize, bind, Except.bind] at h1 h2
  cases ha : optimize_bb tc fuel g g.entry with
  | error e => rw [ha] at h1; cases h1
  | ok ga =>
    rw [ha] at h1
    simp only at h1
    cases hb : optimize_bb tc fuel2 g1 g1.entry with
    | error e => rw [hb] at h2; cases h2
    | ok gb =>
      rw [hb] at h2
      simp only at h2
      obtain ⟨a1, a2, a3, a4, -⟩ := optimize_bb_frame tc htc fuel g g.entry ga ha
      obtain ⟨e1, e2, e3⟩ := eliminate_dead_frame fuel ga g1 h1
      obtain ⟨b1, b2, b3, -, b5⟩ := optimize_bb_frame tc htc fuel2 g1 g1.entry gb hb
      obtain ⟨f1, f2, f3⟩ := eliminate_dead_frame fuel2 gb g2 h2
      have hno : ∀ b, Dom g1.bbs g1.entry b → NoFindmeth (g1.bbs b) := by
        intro b hd
        have hd1 : Dom ga.bbs g1.entry b :=
          (Dom_congr ga.bbs g1.bbs (fun x => (e1 x).2.2) _ _).1 hd
        rw [e2.1, a2] at hd1
        have hd2 : Dom g.bbs g.entry b :=
          (Dom_congr g.bbs ga.bbs (fun x => (a1 x).1) _ _).1 hd1
        intro i hi
        rw [(e1 b).1] at hi
        exact a4 b hd2 i hi
      have hs := b5 hno
      refine ⟨?_, ?_, ?_⟩
      · obtain ⟨-, -, -, s1, s2, s3⟩ := f2
        exact ⟨s1.trans hs.1, s2.trans hs.2.1, s3.trans hs.2.2⟩
      · exact f3.trans (le_of_eq b3)
      · intro b
        rw [(f1 b).1, (f1 b).2.1]
        exact ⟨(b1 b).2.2.1, (b1 b).2.1⟩

/-- The table `specOpTable` gives each opcode a descriptor with that opcode. -/
theorem specOpTable_opcode (op : MVMOpcode) : (specOpTable op).opcode = op := by
  unfold specOpTable
  split <;> rfl

/-- Witness for `MVM_spesh_optimize_second_run`: the graph with the one
instruction `findmeth r(1,0), r(0,0), "string 0"` in its entry block. The first
run resolves the method and appends one spesh slot; the second run leaves the
slot table as it is. -/
theorem MVM_spesh_optimize_second_run_witness :
    ∃ g1 g2, MVM_spesh_optimize tcResolve 2 (setIns (gSlotsN 0) 0 [insFindmeth]) = .ok g1 ∧
      MVM_spesh_optimize tcResolve 2 g1 = .ok g2 ∧ g1.num_spesh_slots = 1 ∧
      (SameSlots g2 g1 ∧ g2.num_bbs ≤ g1.num_bbs ∧
        ∀ b, (g2.bbs b).ins.length ≤ (g1.bbs b).ins.length ∧
          (g2.bbs b).succ.Sublist (g1.bbs b).succ) :=
  ⟨_, _, rfl, rfl, by decide,
    MVM_spesh_optimize_second_run tcResolve specOpTable_opcode 2 2
      (setIns (gSlotsN 0) 0 [insFindmeth]) _ _ rfl rfl⟩

/-- C12 (counterexample): the pass is not idempotent. On `gDecontIf` the first
run rewrites `decont r(1,0), r(0,0)` to `set` and leaves `if_i r(1,0), BB2`
alone, because `r(1,0)` has no known value yet. The second run meets the `set`,
copies the known value 1 to `r(1,0)`, and folds the conditional: the `if_i`
becomes `goto BB2`, the edge `BB0 → BB1` is removed and `BB1` leaves the chain. -/
theorem MVM_spesh_optimize_not_idempotent :
    ∃ g1 g2, (∀ n, MVM_spesh_optimize tcUnknown (n + 4) gDecontIf = .ok g1) ∧
      (∀ n, MVM_spesh_optimize tcUnknown (n + 4) g1 = .ok g2) ∧
      (g1.bbs 0).ins = [⟨specOpTable MVM_OP_set, [.reg 1 0, .reg 0 0]⟩,
        ⟨specOpTable MVM_OP_if_i, [.reg 1 0, .ins_bb 2]⟩] ∧
      (g1.bbs 0).succ = [1, 2] ∧ (g1.bbs 0).linear_next = some 1 ∧ g1.num_bbs = 3 ∧
      (g2.bbs 0).ins = [⟨specOpTable MVM_OP_set, [.reg 1 0, .reg 0 0]⟩,
        ⟨specOpTable MVM_OP_goto, [.ins_bb 2, .ins_bb 2]⟩] ∧
      (g2.bbs 0).succ = [2] ∧ (g2.bbs 0).linear_next = some 2 ∧ g2.num_bbs = 2 :=
  ⟨_, _, fun _ => rfl, fun _ => rfl, by decide, by decide, by decide, by decide, by decide,
    by decide, by decide, by decide⟩

/-! ### Reclaiming a dead producer -/

/-- The reads of an instruction that is no PHI, from the layout of its descriptor. -/
theorem insReads_layout (ins : MVMSpeshIns) (n : Nat) (L : List MVMOperandRW)
    (hn : ins.info.num_operands = n) (hl : ins.info.operands = L)
    (hphi : ins.info.opcode ≠ MVM_SSA_PHI) (o i : Nat) :
    insReads ins o i = (List.range n).countP (fun j =>
      decide (L.getD j MVM_operand_literal = MVM_operand_read_reg) &&
        decide (ins.operands[j]? = some (.reg o i))) := by
  simp only [insReads, hn, hl, if_neg hphi]

/-- An instruction with the layout `w, lit` reads no register. -/
theorem insReads_w_lit (ins : MVMSpeshIns) (hn : ins.info.num_operands = 2)
    (hl : ins.info.operands = [MVM_operand_write_reg, MVM_operand_literal])
    (hphi : ins.info.opcode ≠ MVM_SSA_PHI) (o i : Nat) : insReads ins o i = 0 := by
  rw [insReads_layout ins _ _ hn hl hphi]
  simp [List.range_succ]

/-- An instruction with the layout `lit` reads no register. -/
theorem insReads_lit (ins : MVMSpeshIns) (hn : ins.info.num_operands = 1)
    (hl : ins.info.operands = [MVM_operand_literal])
    (hphi : ins.info.opcode ≠ MVM_SSA_PHI) (o i : Nat) : insReads ins o i = 0 := by
  rw [insReads_layout ins _ _ hn hl hphi]
  simp [List.range_succ]

/-- An instruction with the layout `w, r` reads its operand 1. -/
theorem insReads_w_r (ins : MVMSpeshIns) (hn : ins.info.num_operands = 2)
    (hl : ins.info.operands = [MVM_operand_write_reg, MVM_operand_read_reg])
    (hphi : ins.info.opcode ≠ MVM_SSA_PHI) (o i : Nat) : insReads ins o i = opIs ins 1 o i := by
  rw [insReads_layout ins _ _ hn hl hphi]
  simp [List.range_succ, opIs, List.countP_cons]

/-- An instruction with the layout `r, lit` reads its operand 0. -/
theorem insReads_r_lit (ins : MVMSpeshIns) (hn : ins.info.num_operands = 2)
    (hl : ins.info.operands = [MVM_operand_read_reg, MVM_operand_literal])
    (hphi : ins.info.opcode ≠ MVM_SSA_PHI) (o i : Nat) : insReads ins o i = opIs ins 0 o i := by
  rw [insReads_layout ins _ _ hn hl hphi]
  simp [List.range_succ, opIs, List.countP_cons]

/-- An instruction with the layout `w, r, lit` reads its operand 1. -/
theorem insReads_w_r_lit (ins : MVMSpeshIns) (hn : ins.info.num_operands = 3)
    (hl : ins.info.operands = [MVM_operand_write_reg, MVM_operand_read_reg, MVM_operand_literal])
    (hphi : ins.info.opcode ≠ MVM_SSA_PHI) (o i : Nat) : insReads ins o i = opIs ins 1 o i := by
  rw [insReads_layout ins _ _ hn hl hphi]
  simp [List.range_succ, opIs, List.countP_cons]

/-- An instruction with the layout `w, r, lit, lit` reads its operand 1. -/
theorem insReads_w_r_lit_lit (ins : MVMSpeshIns) (hn : ins.info.num_operands = 4)
    (hl : ins.info.operands =
      [MVM_operand_write_reg, MVM_operand_read_reg, MVM_operand_literal, MVM_operand_literal])
    (hphi : ins.info.opcode ≠ MVM_SSA_PHI) (o i : Nat) : insReads ins o i = opIs ins 1 o i := by
  rw [insReads_layout ins _ _ hn hl hphi]
  simp [List.range_succ, opIs, List.countP_cons]

/-- An instruction with the layout `w, r, r` reads its operands 1 and 2. -/
theorem insReads_w_r_r (ins : MVMSpeshIns) (hn : ins.info.num_operands = 3)
    (hl : ins.info.operands = [MVM_operand_write_reg, MVM_operand_read_reg, MVM_operand_read_reg])
    (hphi : ins.info.opcode ≠ MVM_SSA_PHI) (o i : Nat) :
    insReads ins o i = opIs ins 1 o i + opIs ins 2 o i := by
  rw [insReads_layout ins _ _ hn hl hphi]
  simp [List.range_succ, opIs, List.countP_cons]
  exact Nat.add_comm _ _

/-- The usage counts after `usages--`. -/
theorem decUsages_usages (g : MVMSpeshGraph) (r : Nat × Nat) (o i : Nat) :
    ((decUsages g r).facts o i).usages =
      (g.facts o i).usages - (if o = r.1 ∧ i = r.2 then 1 else 0) := by
  simp only [decUsages, setFacts]
  by_cases h : o = r.1 ∧ i = r.2
  · obtain ⟨h1, h2⟩ := h
    subst h1; subst h2
    simp
  · simp [h]

/-- The value of `opIs` at an operand that is a register. -/
theorem opIs_of_reg (ins : MVMSpeshIns) (j a b o i : Nat)
    (h : ins.operands[j]? = some (.reg a b)) :
    (opIs ins j o i : Int) = if o = a ∧ i = b then 1 else 0 := by
  simp only [opIs, h, Option.some.injEq, MVMSpeshOperand.reg.injEq]
  by_cases h1 : o = a ∧ i = b
  · obtain ⟨h2, h3⟩ := h1
    subst h2; subst h3
    simp
  · have h2 : ¬ (a = o ∧ b = i) := fun hh => h1 ⟨hh.1.symm, hh.2.symm⟩
    simp [h1, h2]

/-- An instruction that the forward pass does not rewrite is `InsOK`. -/
theorem InsOK_of_opcode (tc : MVMThreadContext) (i : MVMSpeshIns)
    (h : i.info.opcode ∉ [MVM_OP_findmeth, MVM_OP_istype, MVM_OP_decont, MVM_OP_if_i,
      MVM_OP_unless_i]) : InsOK tc i :=
  fun hm => absurd hm h

/-- One step of the forward loop and the usage counts: what is left of the
instruction reads no more than the instruction did, a removable instruction
stays removable with the same operand 0, and, unless the instruction is a
conditional that reads the register, the usage count of a register goes down by
exactly the number of reads that the rewrite took away. -/
theorem optimize_bb_forward_ins_usage (tc : MVMThreadContext) (ht : TableOK tc)
    (g g' : MVMSpeshGraph) (bb : BBRef) (ins : MVMSpeshIns) (r : Option MVMSpeshIns)
    (hok : InsOK tc ins) (h : optimize_bb_forward_ins tc g bb ins = .ok (g', r)) :
    (∀ i', r = some i' → InsOK tc i' ∧
      (Removable ins → Removable i' ∧ i'.operands[0]? = ins.operands[0]?)) ∧
    (Removable ins → r ≠ none) ∧
    (∀ o k, optReads r o k ≤ insReads ins o k) ∧
    (∀ o k, (isCond ins → insReads ins o k = 0) →
      (g'.facts o k).usages =
        (g.facts o k).usages - ((insReads ins o k : Int) - (optReads r o k : Int))) := by
  obtain ⟨htc, hlay, hpf, hpi, hpd⟩ := ht
  have hsame : g' = g → r = some ins →
      (∀ i', r = some i' → InsOK tc i' ∧
        (Removable ins → Removable i' ∧ i'.operands[0]? = ins.operands[0]?)) ∧
      (Removable ins → r ≠ none) ∧
      (∀ o k, optReads r o k ≤ insReads ins o k) ∧
      (∀ o k, (isCond ins → insReads ins o k = 0) →
        (g'.facts o k).usages =
          (g.facts o k).usages - ((insReads ins o k : Int) - (optReads r o k : Int))) := by
    intro hg hr
    subst hg; subst hr
    refine ⟨?_, fun _ => by simp, fun o k => le_refl _, fun o k _ => by simp [optReads]⟩
    intro i' hi'
    cases hi'
    exact ⟨hok, fun hrm => ⟨hrm, rfl⟩⟩
  have hiffy : isCond ins → optimize_iffy tc g ins bb = .ok (g', r) →
      (∀ i', r = some i' → InsOK tc i' ∧
        (Removable ins → Removable i' ∧ i'.operands[0]? = ins.operands[0]?)) ∧
      (Removable ins → r ≠ none) ∧
      (∀ o k, optReads r o k ≤ insReads ins o k) ∧
      (∀ o k, (isCond ins → insReads ins o k = 0) →
        (g'.facts o k).usages =
          (g.facts o k).usages - ((insReads ins o k : Int) - (optReads r o k : Int))) := by
    intro hc h
    rcases optimize_iffy_inv tc g g' ins bb r h with ⟨hg, hr⟩ | ⟨n, hrem, hr⟩
    · exact hsame hg hr
    · obtain ⟨m, -, -, -, -, hfacts, -⟩ := remove_successor_ok g g' bb _ hrem
      have hinfo : ins.info = tc.MVM_op_get_op ins.info.opcode := by
        apply hok
        rcases hc with hc | hc <;> rw [hc] <;> decide
      have hnr : ¬ Removable ins := by
        intro hrm
        rcases hrm with hphi | ⟨-, hw⟩
        · rcases hc with hc | hc <;> rw [hc] at hphi <;> cases hphi
        · rw [hinfo] at hw
          rcases hc with hc | hc
          · rw [hc, (hlay MVM_OP_if_i (by decide)).2] at hw
            cases hw
          · rw [hc, (hlay MVM_OP_unless_i (by decide)).2] at hw
            cases hw
      have hreads : ∀ o k, optReads r o k = 0 := by
        intro o k
        rcases hr with hr | ⟨o1, -, hr⟩
        · rw [hr]; rfl
        · rw [hr]
          exact insReads_lit _ (hlay MVM_OP_goto (by decide)).1 (hlay MVM_OP_goto (by decide)).2
            (by rw [htc]; decide) o k
      refine ⟨?_, fun hrm => absurd hrm hnr, fun o k => by rw [hreads]; exact Nat.zero_le _, ?_⟩
      · intro i' hi'
        refine ⟨?_, fun hrm => absurd hrm hnr⟩
        rcases hr with hr | ⟨o1, -, hr⟩
        · rw [hr] at hi'; cases hi'
        · rw [hr] at hi'
          cases hi'
          exact InsOK_of_opcode _ _ (by rw [htc]; decide)
      · intro o k hz
        rw [hreads, hz hc, hfacts]
        simp
  unfold optimize_bb_forward_ins at h
  split at h
  · -- findmeth
    rename_i hop
    simp only [bind, Except.bind] at h
    cases h1 : optimize_method_lookup tc g ins with
    | error e => rw [h1] at h; cases h
    | ok v =>
      rw [h1] at h
      simp only [Except.ok.injEq, Prod.mk.injEq] at h
      obtain ⟨hg, hr⟩ := h
      have hinfo : ins.info = tc.MVM_op_get_op MVM_OP_findmeth := by
        rw [← hop]; exact hok (by rw [hop]; decide)
      have hlf := hlay MVM_OP_findmeth (by decide)
      have hold : ∀ o k, insReads ins o k = opIs ins 1 o k := fun o k =>
        insReads_w_r_lit ins (by rw [hinfo]; exact hlf.1) (by rw [hinfo]; exact hlf.2)
          (by rw [hop]; decide) o k
      obtain ⟨oo, oi, hop1, hcase⟩ := optimize_method_lookup_inv tc g v.1 ins v.2 h1
      have hnphi : ins.info.opcode ≠ MVM_SSA_PHI := by rw [hop]; decide
      rcases hcase with ⟨M, k, g1, ha, hg1, hi⟩ | ⟨k, k2, g1, ha, hb, hi⟩
      · have hnew : ∀ o k', insReads v.2 o k' = 0 := fun o k' =>
          insReads_w_lit v.2 (by rw [hi]; exact (hlay MVM_OP_sp_getspeshslot (by decide)).1)
            (by rw [hi]; exact (hlay MVM_OP_sp_getspeshslot (by decide)).2)
            (by rw [hi]; simp only [htc]; decide) o k'
        rw [← hr]
        refine ⟨?_, fun _ => by simp, ?_, ?_⟩
        · intro i' hi'
          cases hi'
          refine ⟨InsOK_of_opcode _ _ (by rw [hi]; simp only [htc]; decide), ?_⟩
          intro hrm
          rcases hrm with hphi | ⟨hp, hw⟩
          · exact absurd hphi hnphi
          · refine ⟨Or.inr ⟨?_, ?_⟩, ?_⟩
            · rw [hi]; rw [hinfo] at hp; exact (hpf hp).1
            · rw [hi]; simp only; rw [(hlay MVM_OP_sp_getspeshslot (by decide)).2]; rfl
            · rw [hi]; simp only
              rw [List.getElem?_set_ne (by decide)]
        · intro o k'
          simp only [optReads, hnew]
          exact Nat.zero_le _
        · intro o k' _
          simp only [optReads, hnew, hold]
          rw [← hg, hg1, decUsages_usages, (add_spesh_slot_frame _ _ _ _ ha).1,
            opIs_of_reg ins 1 oo oi o k' hop1]
          simp
      · have hop1' : v.2.operands[1]? = some (.reg oo oi) := by
          rw [hi]; simp only
          have hlen : 1 < ins.operands.length := by
            rcases Nat.lt_or_ge 1 ins.operands.length with hl | hl
            · exact hl
            · rw [List.getElem?_eq_none hl] at hop1; cases hop1
          have hlen3 : 1 < (List.take 3 ins.operands).length := by
            rw [List.length_take]; omega
          rw [List.getElem?_append_left hlen3, List.getElem?_take_of_lt (by decide)]
          exact hop1
        have hop0' : v.2.operands[0]? = ins.operands[0]? := by
          rw [hi]; simp only
          have hlen : 1 < ins.operands.length := by
            rcases Nat.lt_or_ge 1 ins.operands.length with hl | hl
            · exact hl
            · rw [List.getElem?_eq_none hl] at hop1; cases hop1
          have hlen3 : 0 < (List.take 3 ins.operands).length := by
            rw [List.length_take]; omega
          rw [List.getElem?_append_left hlen3, List.getElem?_take_of_lt (by decide)]
        have hnew : ∀ o k', insReads v.2 o k' = opIs v.2 1 o k' := fun o k' =>
          insReads_w_r_lit_lit v.2 (by rw [hi]; exact (hlay MVM_OP_sp_findmeth (by decide)).1)
            (by rw [hi]; exact (hlay MVM_OP_sp_findmeth (by decide)).2)
            (by rw [hi]; simp only [htc]; decide) o k'
        have heq : ∀ o k', insReads v.2 o k' = insReads ins o k' := by
          intro o k'
          rw [hnew, hold]
          simp only [opIs, hop1', hop1]
        rw [← hr]
        refine ⟨?_, fun _ => by simp, ?_, ?_⟩
        · intro i' hi'
          cases hi'
          refine ⟨InsOK_of_opcode _ _ (by rw [hi]; simp only [htc]; decide), ?_⟩
          intro hrm
          rcases hrm with hphi | ⟨hp, hw⟩
          · exact absurd hphi hnphi
          · refine ⟨Or.inr ⟨?_, ?_⟩, hop0'⟩
            · rw [hi]; rw [hinfo] at hp; exact (hpf hp).2
            · rw [hi]; simp only; rw [(hlay MVM_OP_sp_findmeth (by decide)).2]; rfl
        · intro o k'
          simp only [optReads, heq]
          exact le_refl _
        · intro o k' _
          simp only [optReads, heq]
          rw [← hg, (add_spesh_slot_frame _ _ _ _ hb).1, (add_spesh_slot_frame _ _ _ _ ha).1]
          simp
  · -- decont
    rename_i hop
    simp only [bind, Except.bind] at h
    cases h1 : optimize_decont tc g ins with
    | error e => rw [h1] at h; cases h
    | ok v =>
      rw [h1] at h
      simp only [Except.ok.injEq, Prod.mk.injEq] at h
      obtain ⟨hg, hr⟩ := h
      rcases optimize_decont_inv tc g ins v h1 with hv | hv
      · rw [hv] at hr
        exact hsame hg.symm hr.symm
      · have hinfo : ins.info = tc.MVM_op_get_op MVM_OP_decont := by
          rw [← hop]; exact hok (by rw [hop]; decide)
        have hld := hlay MVM_OP_decont (by decide)
        have hls := hlay MVM_OP_set (by decide)
        have hnphi : ins.info.opcode ≠ MVM_SSA_PHI := by rw [hop]; decide
        have heq : ∀ o k', insReads v o k' = insReads ins o k' := by
          intro o k'
          rw [insReads_w_r ins (by rw [hinfo]; exact hld.1) (by rw [hinfo]; exact hld.2) hnphi,
            insReads_w_r v (by rw [hv]; exact hls.1) (by rw [hv]; exact hls.2)
              (by rw [hv]; simp only [htc]; decide)]
          simp only [opIs, hv]
        rw [← hr, ← hg]
        refine ⟨?_, fun _ => by simp, ?_, ?_⟩
        · intro i' hi'
          cases hi'
          refine ⟨InsOK_of_opcode _ _ (by rw [hv]; simp only [htc]; decide), ?_⟩
          intro hrm
          rcases hrm with hphi | ⟨hp, hw⟩
          · exact absurd hphi hnphi
          · refine ⟨Or.inr ⟨?_, ?_⟩, by rw [hv]⟩
            · rw [hv]; rw [hinfo] at hp; exact hpd hp
            · rw [hv]; simp only; rw [hls.2]; rfl
        · intro o k'
          simp only [optReads, heq]
          exact le_refl _
        · intro o k' _
          simp only [optReads, heq]
          simp
  · -- istype
    rename_i hop
    simp only [bind, Except.bind] at h
    cases h1 : optimize_istype tc g ins with
    | error e => rw [h1] at h; cases h
    | ok v =>
      rw [h1] at h
      simp only [Except.ok.injEq, Prod.mk.injEq] at h
      obtain ⟨hg, hr⟩ := h
      rcases optimize_istype_inv tc g v.1 ins v.2 h1 with
        ⟨hv1, hv2⟩ | ⟨d, di, oo, oi, t, ti, rr, hop0, hop1, hop2, hv1, hv2⟩
      · rw [hv1] at hg
        rw [hv2] at hr
        exact hsame hg.symm hr.symm
      · have hinfo : ins.info = tc.MVM_op_get_op MVM_OP_istype := by
          rw [← hop]; exact hok (by rw [hop]; decide)
        have hli := hlay MVM_OP_istype (by decide)
        have hlc := hlay MVM_OP_const_i64 (by decide)
        have hnphi : ins.info.opcode ≠ MVM_SSA_PHI := by rw [hop]; decide
        have hold : ∀ o k, insReads ins o k = opIs ins 1 o k + opIs ins 2 o k := fun o k =>
          insReads_w_r_r ins (by rw [hinfo]; exact hli.1) (by rw [hinfo]; exact hli.2) hnphi o k
        have hnew : ∀ o k', insReads v.2 o k' = 0 := fun o k' =>
          insReads_w_lit v.2 (by rw [hv2]; exact hlc.1) (by rw [hv2]; exact hlc.2)
            (by rw [hv2]; simp only [htc]; decide) o k'
        rw [← hr]
        refine ⟨?_, fun _ => by simp, ?_, ?_⟩
        · intro i' hi'
          cases hi'
          refine ⟨InsOK_of_opcode _ _ (by rw [hv2]; simp only [htc]; decide), ?_⟩
          intro hrm
          rcases hrm with hphi | ⟨hp, hw⟩
          · exact absurd hphi hnphi
          · refine ⟨Or.inr ⟨?_, ?_⟩, ?_⟩
            · rw [hv2]; rw [hinfo] at hp; exact hpi hp
            · rw [hv2]; simp only; rw [hlc.2]; rfl
            · rw [hv2]; simp only
              rw [List.getElem?_set_ne (by decide)]
        · intro o k'
          simp only [optReads, hnew]
          exact Nat.zero_le _
        · intro o k' _
          simp only [optReads, hnew, hold]
          rw [← hg, hv1, istype_folded_facts]
          simp only
          push_cast
          rw [opIs_of_reg ins 1 oo oi o k' hop1, opIs_of_reg ins 2 t ti o k' hop2]
          ring
  · -- set
    rename_i hop
    simp only [bind, Except.bind] at h
    cases h1 : optimize_set g ins with
    | error e => rw [h1] at h; cases h
    | ok v =>
      rw [h1] at h
      simp only [Except.ok.injEq, Prod.mk.injEq] at h
      obtain ⟨hg, hr⟩ := h
      obtain ⟨s, si, -, hcase⟩ := optimize_set_inv g v ins h1
      rcases hcase with ⟨-, -, hv⟩ | ⟨d, di, -, hv⟩
      · rw [hv] at hg
        exact hsame hg.symm hr.symm
      · rw [← hr, ← hg, hv]
        refine ⟨?_, fun _ => by simp, fun o k => le_refl _, ?_⟩
        · intro i' hi'
          cases hi'
          exact ⟨hok, fun hrm => ⟨hrm, rfl⟩⟩
        · intro o k' _
          simp only [optReads, set_result, setFacts]
          by_cases hd : o = d ∧ k' = di
          · obtain ⟨h2, h3⟩ := hd
            subst h2; subst h3
            simp [set_dst_facts]
          · simp [hd]
  · -- if_i
    rename_i hop
    exact hiffy (Or.inl hop) h
  · -- unless_i
    rename_i hop
    exact hiffy (Or.inr hop) h
  · -- any other opcode
    injection h with h
    injection h with hg hr
    exact hsame hg.symm hr.symm

/-- The reads of the empty list. -/
theorem listReads_nil (o k : Nat) : listReads [] o k = 0 := rfl

/-- The reads of a list, instruction by instruction. -/
theorem listReads_cons (i : MVMSpeshIns) (l : List MVMSpeshIns) (o k : Nat) :
    listReads (i :: l) o k = insReads i o k + listReads l o k := by
  simp [listReads]

/-- The reads of two lists in a row. -/
theorem listReads_append (l1 l2 : List MVMSpeshIns) (o k : Nat) :
    listReads (l1 ++ l2) o k = listReads l1 o k + listReads l2 o k := by
  simp [listReads]

/-- The reads of a list do not depend on its order. -/
theorem listReads_reverse (l : List MVMSpeshIns) (o k : Nat) :
    listReads l.reverse o k = listReads l o k := by
  induction l with
  | nil => rfl
  | cons i l ih =>
    rw [List.reverse_cons, listReads_append, listReads_cons, listReads_cons, listReads_nil, ih]
    omega

/-- A sublist reads no more than the list. -/
theorem listReads_sublist {l1 l2 : List MVMSpeshIns} (h : l1.Sublist l2) (o k : Nat) :
    listReads l1 o k ≤ listReads l2 o k := by
  induction h with
  | slnil => exact le_refl _
  | cons a _ ih => rw [listReads_cons]; omega
  | cons₂ a _ ih => rw [listReads_cons, listReads_cons]; omega

/-- A list reads a register not at all iff none of its instructions does. -/
theorem listReads_eq_zero (l : List MVMSpeshIns) (o k : Nat) :
    listReads l o k = 0 ↔ ∀ i ∈ l, insReads i o k = 0 := by
  induction l with
  | nil => simp [listReads_nil]
  | cons i l ih =>
    rw [listReads_cons, Nat.add_eq_zero_iff, ih]
    simp

/-- A removable instruction with a sound descriptor is no conditional. -/
theorem Removable_not_isCond (tc : MVMThreadContext) (ht : TableOK tc) (i : MVMSpeshIns)
    (hok : InsOK tc i) (hrm : Removable i) : ¬ isCond i := by
  intro hc
  obtain ⟨htc, hlay, -⟩ := ht
  have hinfo : i.info = tc.MVM_op_get_op i.info.opcode := by
    apply hok
    rcases hc with hc | hc <;> rw [hc] <;> decide
  rcases hrm with hphi | ⟨-, hw⟩
  · rcases hc with hc | hc <;> rw [hc] at hphi <;> cases hphi
  · rw [hinfo] at hw
    rcases hc with hc | hc
    · rw [hc, (hlay MVM_OP_if_i (by decide)).2] at hw
      cases hw
    · rw [hc, (hlay MVM_OP_unless_i (by decide)).2] at hw
      cases hw

/-- The forward loop and the usage counts. -/
theorem optimize_bb_forward_usage (tc : MVMThreadContext) (ht : TableOK tc) (bb : BBRef)
    (l : List MVMSpeshIns) :
    ∀ (g g' : MVMSpeshGraph) (out : List MVMSpeshIns),
      (∀ i ∈ l, InsOK tc i) →
      optimize_bb_forward tc bb g l = .ok (g', out) →
      (∀ i' ∈ out, ∃ i ∈ l, Rew tc i i') ∧
      (∀ o k, listReads out o k ≤ listReads l o k) ∧
      (∀ o k, (∀ i ∈ l, isCond i → insReads i o k = 0) →
        (g'.facts o k).usages =
          (g.facts o k).usages - ((listReads l o k : Int) - (listReads out o k : Int))) := by
  induction l with
  | nil =>
    intro g g' out _ h
    simp only [optimize_bb_forward, Except.ok.injEq, Prod.mk.injEq] at h
    obtain ⟨hg, ho⟩ := h
    subst hg; subst ho
    exact ⟨fun i hi => absurd hi (List.not_mem_nil i), fun o k => le_refl _,
      fun o k _ => by simp⟩
  | cons i l ih =>
    intro g g' out hok h
    simp only [optimize_bb_forward, bind, Except.bind] at h
    cases h1 : optimize_bb_forward_ins tc g bb i with
    | error e => rw [h1] at h; cases h
    | ok v1 =>
      rw [h1] at h
      simp only at h
      cases h2 : optimize_bb_forward tc bb v1.1 l with
      | error e => rw [h2] at h; cases h
      | ok v2 =>
        rw [h2] at h
        simp only [Except.ok.injEq, Prod.mk.injEq] at h
        obtain ⟨hg, ho⟩ := h
        obtain ⟨a1, -, a3, a4⟩ :=
          optimize_bb_forward_ins_usage tc ht g v1.1 bb i v1.2 (hok i (List.mem_cons_self _ _)) h1
        obtain ⟨b1, b2, b3⟩ := ih v1.1 v2.1 v2.2 (fun j hj => hok j (List.mem_cons_of_mem _ hj)) h2
        have hout : ∀ o k, listReads out o k = optReads v1.2 o k + listReads v2.2 o k := by
          intro o k
          rw [← ho]
          cases v1.2 with
          | none => simp [optReads]
          | some j => simp [optReads, listReads_cons]
        refine ⟨?_, ?_, ?_⟩
        · intro i' hi'
          rw [← ho] at hi'
          cases hr : v1.2 with
          | none =>
            rw [hr] at hi'
            obtain ⟨j, hj, hrew⟩ := b1 i' hi'
            exact ⟨j, List.mem_cons_of_mem _ hj, hrew⟩
          | some j =>
            rw [hr] at hi'
            rcases List.mem_cons.1 hi' with hi' | hi'
            · rw [hi']
              obtain ⟨c1, c2⟩ := a1 j hr
              refine ⟨i, List.mem_cons_self _ _, c1, ?_, c2⟩
              intro o k
              have := a3 o k
              rw [hr] at this
              exact this
            · obtain ⟨j', hj', hrew⟩ := b1 i' hi'
              exact ⟨j', List.mem_cons_of_mem _ hj', hrew⟩
        · intro o k
          rw [hout, listReads_cons]
          have := a3 o k
          have := b2 o k
          omega
        · intro o k hc
          rw [hout, listReads_cons, ← hg,
            b3 o k (fun j hj => hc j (List.mem_cons_of_mem _ hj)),
            a4 o k (hc i (List.mem_cons_self _ _))]
          push_cast
          ring

/-- The usage loops of the reverse pass take `usagesTaken` from each entry. -/
theorem propagate_non_usage_inv (phi : Bool) (ins : MVMSpeshIns) (js : List Nat) :
    ∀ (g g' : MVMSpeshGraph), propagate_non_usage phi ins g js = .ok g' →
      ∀ o k, (g'.facts o k).usages = (g.facts o k).usages - (usagesTaken phi ins js o k : Int) := by
  induction js with
  | nil =>
    intro g g' h o k
    simp only [propagate_non_usage, Except.ok.injEq] at h
    subst h
    simp [usagesTaken]
  | cons j js ih =>
    intro g g' h o k
    simp only [propagate_non_usage] at h
    split at h
    · rename_i hphi
      simp only [bind, Except.bind] at h
      cases h1 : get_facts ins.operands[j]? with
      | error e => rw [h1] at h; cases h
      | ok r =>
        rw [h1] at h
        have hreg := get_facts_ok _ _ h1
        rw [ih _ _ h o k, decUsages_usages]
        have ht : takesUsage phi ins j = true := by
          simp only [takesUsage, Bool.or_eq_true, decide_eq_true_eq]
          exact hphi
        simp only [usagesTaken, List.countP_cons, ht, Bool.true_and, hreg, Option.some.injEq,
          MVMSpeshOperand.reg.injEq, decide_eq_true_eq]
        by_cases hr : o = r.1 ∧ k = r.2
        · have hr' : r.1 = o ∧ r.2 = k := ⟨hr.1.symm, hr.2.symm⟩
          rw [if_pos hr, if_pos hr']
          push_cast
          ring
        · have hr' : ¬ (r.1 = o ∧ r.2 = k) := fun hh => hr ⟨hh.1.symm, hh.2.symm⟩
          rw [if_neg hr, if_neg hr']
          push_cast
          ring
    · rename_i hphi
      rw [ih _ _ h o k]
      have ht : takesUsage phi ins j = false := by
        rw [Bool.eq_false_iff]
        intro hh
        simp only [takesUsage, Bool.or_eq_true, decide_eq_true_eq] at hh
        exact hphi hh
      simp only [usagesTaken, List.countP_cons, ht, Bool.false_and]
      simp

/-- The usages that the reverse pass takes when it deletes an instruction are
the reads of that instruction. -/
theorem usagesTaken_eq_insReads (ins : MVMSpeshIns) (phi : Bool)
    (h : (phi = true ∧ ins.info.opcode = MVM_SSA_PHI) ∨
      (phi = false ∧ ins.info.opcode ≠ MVM_SSA_PHI ∧
        ins.info.operands.getD 0 MVM_operand_literal = MVM_operand_write_reg)) (o k : Nat) :
    usagesTaken phi ins (List.range' 1 (ins.info.num_operands - 1)) o k = insReads ins o k := by
  unfold usagesTaken insReads
  cases hn : ins.info.num_operands with
  | zero => simp
  | succ m =>
    rw [List.range_eq_range', List.range'_succ, List.countP_cons]
    have h0 : ((if ins.info.opcode = MVM_SSA_PHI then decide (1 ≤ 0)
        else decide (ins.info.operands.getD 0 MVM_operand_literal = MVM_operand_read_reg)) &&
        decide (ins.operands[0]? = some (.reg o k))) = false := by
      rcases h with ⟨-, hp⟩ | ⟨-, hp, hw⟩
      · simp [hp]
      · rw [if_neg hp, hw]; simp
    rw [h0]
    simp only [Nat.add_sub_cancel, Bool.false_eq_true, if_false, Nat.add_zero, Nat.zero_add]
    apply List.countP_congr
    intro j hj
    have hj1 : 1 ≤ j := (List.mem_range'_1.1 hj).1
    rcases h with ⟨hphi, hp⟩ | ⟨hphi, hp, hw⟩
    · simp [takesUsage, hphi, hp, hj1]
    · simp [takesUsage, hphi, hp]

/-- One step of the reverse loop and the usage counts: the instruction stays
and nothing changes, or it goes and its reads are taken from the usage counts;
a removable instruction whose operand 0 is an unused register goes. -/
theorem optimize_bb_reverse_ins_usage (g g' : MVMSpeshGraph) (ins : MVMSpeshIns)
    (r : Option MVMSpeshIns) (h : optimize_bb_reverse_ins g ins = .ok (g', r)) :
    ((r = some ins ∧ g' = g) ∨
      (r = none ∧ ∀ o k, (g'.facts o k).usages = (g.facts o k).usages - (insReads ins o k : Int))) ∧
    (Removable ins → ∀ x xi, ins.operands[0]? = some (.reg x xi) →
      (g.facts x xi).usages = 0 → r = none) := by
  have hkeep : ∀ {y : Except Trap (MVMSpeshGraph × Option MVMSpeshIns)},
      y = Except.ok (g, some ins) → y = .ok (g', r) → r = some ins ∧ g' = g := by
    intro y hy h
    rw [hy] at h
    injection h with h
    injection h with hg hr
    exact ⟨hr.symm, hg.symm⟩
  have hdel : ∀ (phi : Bool),
      ((phi = true ∧ ins.info.opcode = MVM_SSA_PHI) ∨
        (phi = false ∧ ins.info.opcode ≠ MVM_SSA_PHI ∧
          ins.info.operands.getD 0 MVM_operand_literal = MVM_operand_write_reg)) →
      (do let g1 ← propagate_non_usage phi ins g (List.range' 1 (ins.info.num_operands - 1))
          Except.ok (g1, MVM_spesh_manipulate_delete_ins ins)) = Except.ok (g', r) →
      r = none ∧ ∀ o k, (g'.facts o k).usages = (g.facts o k).usages - (insReads ins o k : Int) := by
    intro phi hphi h
    simp only [bind, Except.bind] at h
    cases h1 : propagate_non_usage phi ins g (List.range' 1 (ins.info.num_operands - 1)) with
    | error e => rw [h1] at h; cases h
    | ok g1 =>
      rw [h1] at h
      injection h with h
      injection h with hg hr
      subst hg
      refine ⟨hr.symm, fun o k => ?_⟩
      rw [propagate_non_usage_inv _ _ _ _ _ h1 o k, usagesTaken_eq_insReads ins phi hphi]
  unfold optimize_bb_reverse_ins at h
  split at h
  · rename_i hphi
    simp only [bind, Except.bind] at h
    cases h1 : get_facts ins.operands[0]? with
    | error e => rw [h1] at h; cases h
    | ok f =>
      rw [h1] at h
      simp only at h
      have hreg := get_facts_ok _ _ h1
      split at h
      · obtain ⟨hr, hu⟩ := hdel true (Or.inl ⟨rfl, hphi⟩) h
        exact ⟨Or.inr ⟨hr, hu⟩, fun _ _ _ _ _ => hr⟩
      · rename_i hne
        obtain ⟨hr, hg⟩ := hkeep rfl h
        refine ⟨Or.inl ⟨hr, hg⟩, ?_⟩
        intro _ x xi hx hz
        rw [hreg] at hx
        injection hx with hx
        injection hx with hx1 hx2
        rw [hx1, hx2] at hne
        exact absurd hz hne
  · rename_i hphi
    split at h
    · rename_i hpure
      split at h
      · rename_i hw
        simp only [bind, Except.bind] at h
        cases h1 : get_facts ins.operands[0]? with
        | error e => rw [h1] at h; cases h
        | ok f =>
          rw [h1] at h
          simp only at h
          have hreg := get_facts_ok _ _ h1
          split at h
          · obtain ⟨hr, hu⟩ := hdel false (Or.inr ⟨rfl, hphi, hw⟩) h
            exact ⟨Or.inr ⟨hr, hu⟩, fun _ _ _ _ _ => hr⟩
          · rename_i hne
            obtain ⟨hr, hg⟩ := hkeep rfl h
            refine ⟨Or.inl ⟨hr, hg⟩, ?_⟩
            intro _ x xi hx hz
            rw [hreg] at hx
            injection hx with hx
            injection hx with hx1 hx2
            rw [hx1, hx2] at hne
            exact absurd hz hne
      · rename_i hw
        obtain ⟨hr, hg⟩ := hkeep rfl h
        refine ⟨Or.inl ⟨hr, hg⟩, ?_⟩
        intro hrm
        rcases hrm with hp | ⟨-, hw'⟩
        · exact absurd hp hphi
        · exact absurd hw' hw
    · rename_i hpure
      obtain ⟨hr, hg⟩ := hkeep rfl h
      refine ⟨Or.inl ⟨hr, hg⟩, ?_⟩
      intro hrm
      rcases hrm with hp | ⟨hp', -⟩
      · exact absurd hp hphi
      · exact absurd hp' hpure

/-- The reverse loop over `l1 ++ l2` is the loop over `l1` followed by the
loop over `l2`. -/
theorem optimize_bb_reverse_append (l1 : List MVMSpeshIns) :
    ∀ (g : MVMSpeshGraph) (l2 kept : List MVMSpeshIns),
      optimize_bb_reverse g (l1 ++ l2) kept =
        (optimize_bb_reverse g l1 kept >>= fun v => optimize_bb_reverse v.1 l2 v.2) := by
  induction l1 with
  | nil =>
    intro g l2 kept
    rfl
  | cons i l1 ih =>
    intro g l2 kept
    rw [List.cons_append]
    simp only [optimize_bb_reverse, bind, Except.bind]
    cases h1 : optimize_bb_reverse_ins g i with
    | error e => rfl
    | ok v1 =>
      simp only
      rw [ih]
      rfl

/-- The reverse loop and the usage counts, for registers `X` that are unused
and that no instruction of the list reads: the loop leaves a sublist of its
list in front of `kept`, takes the reads of the deleted instructions from the
usage counts, and leaves no removable instruction whose operand 0 is in `X`. -/
theorem optimize_bb_reverse_usage (X : List (Nat × Nat)) (l : List MVMSpeshIns) :
    ∀ (g g' : MVMSpeshGraph) (kept out : List MVMSpeshIns),
      (∀ x ∈ X, (g.facts x.1 x.2).usages = 0) →
      (∀ x ∈ X, ∀ i ∈ l, insReads i x.1 x.2 = 0) →
      optimize_bb_reverse g l kept = .ok (g', out) →
      ∃ k1, out = k1 ++ kept ∧ k1.Sublist l.reverse ∧
        (∀ o k, (g'.facts o k).usages =
          (g.facts o k).usages - ((listReads l o k : Int) - (listReads k1 o k : Int))) ∧
        (∀ x ∈ X, (g'.facts x.1 x.2).usages = 0) ∧
        (∀ i ∈ k1, ¬ DeadOn X i) := by
  induction l with
  | nil =>
    intro g g' kept out hX _ h
    simp only [optimize_bb_reverse, Except.ok.injEq, Prod.mk.injEq] at h
    obtain ⟨hg, ho⟩ := h
    subst hg; subst ho
    exact ⟨[], rfl, List.Sublist.refl _, fun o k => by simp [listReads_nil], hX,
      fun i hi => absurd hi (List.not_mem_nil i)⟩
  | cons i l ih =>
    intro g g' kept out hX hno h
    simp only [optimize_bb_reverse, bind, Except.bind] at h
    cases h1 : optimize_bb_reverse_ins g i with
    | error e => rw [h1] at h; cases h
    | ok v1 =>
      rw [h1] at h
      simp only at h
      obtain ⟨a1, a2⟩ := optimize_bb_reverse_ins_usage g v1.1 i v1.2 h1
      have hX1 : ∀ x ∈ X, (v1.1.facts x.1 x.2).usages = 0 := by
        intro x hx
        rcases a1 with ⟨-, hg⟩ | ⟨-, hu⟩
        · rw [hg]; exact hX x hx
        · rw [hu, hX x hx, hno x hx i (List.mem_cons_self _ _)]
          simp
      obtain ⟨k1, b1, b2, b3, b4, b5⟩ :=
        ih v1.1 g' _ out hX1 (fun x hx j hj => hno x hx j (List.mem_cons_of_mem _ hj)) h
      rcases a1 with ⟨hr, hg⟩ | ⟨hr, hu⟩
      · rw [hr] at b1
        refine ⟨k1 ++ [i], by rw [b1]; simp, ?_, ?_, b4, ?_⟩
        · rw [List.reverse_cons]
          exact List.Sublist.append b2 (List.Sublist.refl _)
        · intro o k
          rw [b3 o k, hg, listReads_cons, listReads_append, listReads_cons, listReads_nil]
          push_cast
          ring
        · intro j hj
          rcases List.mem_append.1 hj with hj | hj
          · exact b5 j hj
          · rw [List.mem_singleton] at hj
            rw [hj]
            rintro ⟨hrm, x, hx, hx0⟩
            have := a2 hrm x.1 x.2 hx0 (hX x hx)
            rw [hr] at this
            cases this
      · rw [hr] at b1
        refine ⟨k1, b1, ?_, ?_, b4, b5⟩
        · rw [List.reverse_cons]
          exact b2.trans (List.sublist_append_left _ _)
        · intro o k
          rw [b3 o k, hu o k, listReads_cons]
          push_cast
          ring

/-- The forward pass keeps an instruction `ConsOK`. -/
theorem ConsOK_of_Rew (tc : MVMThreadContext) (X : List (Nat × Nat)) (d di : Nat)
    (i i' : MVMSpeshIns) (hrew : Rew tc i i') (h : ConsOK tc X d di i) : ConsOK tc X d di i' := by
  obtain ⟨r1, r2, r3⟩ := hrew
  obtain ⟨c1, c2, c3⟩ := h
  refine ⟨r1, ?_, ?_⟩
  · intro x hx
    have := r2 x.1 x.2
    rw [c2 x hx] at this
    exact Nat.le_zero.1 this
  · intro hne
    have hne' : insReads i d di ≠ 0 := by
      intro hz
      have := r2 d di
      rw [hz] at this
      exact hne (Nat.le_zero.1 this)
    obtain ⟨hrm, x, hx, hx0⟩ := c3 hne'
    obtain ⟨hrm', h0⟩ := r3 hrm
    exact ⟨hrm', x, hx, by rw [h0]; exact hx0⟩

/-- The reads across a list of blocks, block by block. -/
theorem graphReads_cons (g : MVMSpeshGraph) (b : BBRef) (R : List BBRef) (o k : Nat) :
    graphReads g (b :: R) o k = listReads (g.bbs b).ins o k + graphReads g R o k := by
  simp [graphReads, listReads]

/-- The reads across `R` depend on the instruction lists of the blocks of `R` only. -/
theorem graphReads_congr (g g' : MVMSpeshGraph) (R : List BBRef) (o k : Nat)
    (h : ∀ b ∈ R, (g'.bbs b).ins = (g.bbs b).ins) : graphReads g' R o k = graphReads g R o k := by
  induction R with
  | nil => rfl
  | cons b R ih =>
    rw [graphReads_cons, graphReads_cons, h b (List.mem_cons_self _ _),
      ih (fun b' hb' => h b' (List.mem_cons_of_mem _ hb'))]

/-- The reads across `R` after the instruction list of one block changed. -/
theorem graphReads_update (g g' : MVMSpeshGraph) (R : List BBRef) (hR : R.Nodup) (c : BBRef)
    (hc : c ∈ R) (hother : ∀ b ∈ R, b ≠ c → (g'.bbs b).ins = (g.bbs b).ins) (o k : Nat) :
    (graphReads g' R o k : Int) =
      graphReads g R o k - listReads (g.bbs c).ins o k + listReads (g'.bbs c).ins o k := by
  induction R with
  | nil => cases hc
  | cons b R ih =>
    rw [graphReads_cons, graphReads_cons]
    obtain ⟨hbR, hR'⟩ := List.nodup_cons.1 hR
    by_cases hbc : b = c
    · subst hbc
      rw [graphReads_congr g g' R o k (fun b' hb' => hother b' (List.mem_cons_of_mem _ hb')
        (fun h => hbR (h ▸ hb')))]
      push_cast
      ring
    · have hcR : c ∈ R := by
        rcases List.mem_cons.1 hc with h | h
        · exact absurd h.symm hbc
        · exact h
      rw [hother b (List.mem_cons_self _ _) hbc]
      push_cast
      rw [ih hR' hcR (fun b' hb' => hother b' (List.mem_cons_of_mem _ hb'))]
      ring

/-- No read across `R` iff no read in any block of `R`. -/
theorem graphReads_eq_zero (g : MVMSpeshGraph) (R : List BBRef) (o k : Nat) :
    graphReads g R o k = 0 ↔ ∀ b ∈ R, listReads (g.bbs b).ins o k = 0 := by
  induction R with
  | nil => simp [graphReads]
  | cons b R ih =>
    rw [graphReads_cons, Nat.add_eq_zero_iff, ih]
    simp

/-- The descendants of a block of a child-closed list are in the list. -/
theorem Dom_mem_of_closed (R : List BBRef) (g : MVMSpeshGraph) (hcl : ChildClosed R g)
    (a b : BBRef) (ha : a ∈ R) (h : Dom g.bbs a b) : b ∈ R := by
  induction h with
  | refl => exact ha
  | tail _ hstep ih => exact hcl _ ih _ hstep

/-- In a graph under the invariant, no conditional of a block of `R` reads
`(d, di)` or a register of `X`. -/
theorem ReclaimInv_cond (tc : MVMThreadContext) (ht : TableOK tc) (R : List BBRef)
    (X : List (Nat × Nat)) (d di : Nat) (g : MVMSpeshGraph) (hinv : ReclaimInv tc R X d di g)
    (b : BBRef) (hb : b ∈ R) :
    (∀ i ∈ (g.bbs b).ins, isCond i → insReads i d di = 0) ∧
    (∀ x ∈ X, ∀ i ∈ (g.bbs b).ins, isCond i → insReads i x.1 x.2 = 0) := by
  refine ⟨?_, fun x hx i hi _ => (hinv.2 b hb i hi).2.1 x hx⟩
  intro i hi hc
  by_contra hne
  obtain ⟨hok, -, h3⟩ := hinv.2 b hb i hi
  exact Removable_not_isCond tc ht i hok (h3 hne).1 hc

/-- The forward loop of `optimize_bb` on a block `c` of `R`, followed by the
store of the instruction list, keeps the invariant and the difference between
the usage count of `(d, di)` and its reads. -/
theorem forward_phase_reclaim (tc : MVMThreadContext) (ht : TableOK tc) (R : List BBRef)
    (hR : R.Nodup) (X : List (Nat × Nat)) (d di : Nat) (g : MVMSpeshGraph) (c : BBRef)
    (hc : c ∈ R) (hinv : ReclaimInv tc R X d di g) (v1 : MVMSpeshGraph × List MVMSpeshIns)
    (h1 : optimize_bb_forward tc c g (g.bbs c).ins = .ok v1) :
    ReclaimInv tc R X d di (setIns v1.1 c v1.2) ∧
    ((setIns v1.1 c v1.2).facts d di).usages - (graphReads (setIns v1.1 c v1.2) R d di : Int) =
      (g.facts d di).usages - (graphReads g R d di : Int) ∧
    (∀ b, ((setIns v1.1 c v1.2).bbs b).children = (g.bbs b).children) ∧
    (∀ b, b ≠ c → ((setIns v1.1 c v1.2).bbs b).ins = (g.bbs b).ins) ∧
    ((setIns v1.1 c v1.2).bbs c).ins = v1.2 ∧
    listReads v1.2 d di ≤ listReads (g.bbs c).ins d di := by
  obtain ⟨f1, f2, f3⟩ := optimize_bb_forward_usage tc ht c _ g v1.1 v1.2
    (fun i hi => (hinv.2 c hc i hi).1) h1
  obtain ⟨a1, -⟩ := optimize_bb_forward_frame tc ht.1 c _ g v1.1 v1.2 h1
  obtain ⟨hcd, hcx⟩ := ReclaimInv_cond tc ht R X d di g hinv c hc
  have hself : ((setIns v1.1 c v1.2).bbs c).ins = v1.2 := by rw [setIns_bbs_self]
  have hother : ∀ b, b ≠ c → ((setIns v1.1 c v1.2).bbs b).ins = (g.bbs b).ins := by
    intro b hb
    rw [setIns_bbs_other _ _ _ b hb]
    exact (a1 b).2.1
  have hfacts : (setIns v1.1 c v1.2).facts = v1.1.facts := rfl
  refine ⟨⟨?_, ?_⟩, ?_, ?_, hother, hself, f2 d di⟩
  · intro x hx
    rw [hfacts, f3 x.1 x.2 (hcx x hx), hinv.1 x hx]
    have hz : listReads (g.bbs c).ins x.1 x.2 = 0 :=
      (listReads_eq_zero _ _ _).2 (fun i hi => (hinv.2 c hc i hi).2.1 x hx)
    have hz' : listReads v1.2 x.1 x.2 = 0 := by
      have := f2 x.1 x.2
      rw [hz] at this
      exact Nat.le_zero.1 this
    rw [hz, hz']
    simp
  · intro b hb i hi
    by_cases hbc : b = c
    · rw [hbc, hself] at hi
      obtain ⟨j, hj, hrew⟩ := f1 i hi
      exact ConsOK_of_Rew tc X d di j i hrew (hinv.2 c hc j hj)
    · rw [hother b hbc] at hi
      exact hinv.2 b hb i hi
  · rw [hfacts, f3 d di hcd,
      graphReads_update g (setIns v1.1 c v1.2) R hR c hc (fun b _ hb => hother b hb) d di, hself]
    ring
  · intro b
    by_cases hbc : b = c
    · rw [hbc, setIns_bbs_self]
      exact (a1 c).2.2.2
    · rw [setIns_bbs_other _ _ _ b hbc]
      exact (a1 b).2.2.2

/-- The reverse loop of `optimize_bb` on a block `c` of `R`, followed by the
store of the instruction list, keeps the invariant and the difference between
the usage count of `(d, di)` and its reads, and leaves no read of `(d, di)`
in `c`. -/
theorem reverse_phase_reclaim (tc : MVMThreadContext) (R : List BBRef)
    (hR : R.Nodup) (X : List (Nat × Nat)) (d di : Nat) (g : MVMSpeshGraph) (c : BBRef)
    (hc : c ∈ R) (hinv : ReclaimInv tc R X d di g) (v4 : MVMSpeshGraph × List MVMSpeshIns)
    (h3 : optimize_bb_reverse g (g.bbs c).ins.reverse [] = .ok v4) :
    ReclaimInv tc R X d di (setIns v4.1 c v4.2) ∧
    ((setIns v4.1 c v4.2).facts d di).usages - (graphReads (setIns v4.1 c v4.2) R d di : Int) =
      (g.facts d di).usages - (graphReads g R d di : Int) ∧
    (∀ b, ((setIns v4.1 c v4.2).bbs b).children = (g.bbs b).children) ∧
    (∀ b, b ≠ c → ((setIns v4.1 c v4.2).bbs b).ins = (g.bbs b).ins) ∧
    ((setIns v4.1 c v4.2).bbs c).ins = v4.2 ∧
    v4.2.Sublist (g.bbs c).ins ∧ listReads v4.2 d di = 0 ∧ (∀ i ∈ v4.2, ¬ DeadOn X i) := by
  obtain ⟨k1, b1, b2, b3, b4, b5⟩ := optimize_bb_reverse_usage X _ g v4.1 [] v4.2 hinv.1
    (fun x hx i hi => (hinv.2 c hc i (List.mem_reverse.1 hi)).2.1 x hx) h3
  obtain ⟨d1, -⟩ := optimize_bb_reverse_frame _ g v4.1 [] v4.2 h3
  rw [List.append_nil] at b1
  rw [List.reverse_reverse] at b2
  subst b1
  have hself : ((setIns v4.1 c v4.2).bbs c).ins = v4.2 := by rw [setIns_bbs_self]
  have hother : ∀ b, b ≠ c → ((setIns v4.1 c v4.2).bbs b).ins = (g.bbs b).ins := by
    intro b hb
    rw [setIns_bbs_other _ _ _ b hb, d1.1]
  have hfacts : (setIns v4.1 c v4.2).facts = v4.1.facts := rfl
  have hcons : ∀ i ∈ v4.2, ConsOK tc X d di i := fun i hi => hinv.2 c hc i (b2.subset hi)
  have hzero : listReads v4.2 d di = 0 := by
    rw [listReads_eq_zero]
    intro i hi
    by_contra hne
    exact b5 i hi ((hcons i hi).2.2 hne)
  refine ⟨⟨?_, ?_⟩, ?_, ?_, hother, hself, b2, hzero, b5⟩
  · intro x hx
    rw [hfacts]
    exact b4 x hx
  · intro b hb i hi
    by_cases hbc : b = c
    · rw [hbc, hself] at hi
      exact hcons i hi
    · rw [hother b hbc] at hi
      exact hinv.2 b hb i hi
  · rw [hfacts, b3 d di, listReads_reverse,
      graphReads_update g (setIns v4.1 c v4.2) R hR c hc (fun b _ hb => hother b hb) d di, hself]
    ring
  · intro b
    by_cases hbc : b = c
    · rw [hbc, setIns_bbs_self, d1.1]
    · rw [setIns_bbs_other _ _ _ b hbc, d1.1]

/-- The loop over the children, given `ReclaimPost` for the recursive call. -/
theorem optimize_children_reclaim (tc : MVMThreadContext) (R : List BBRef)
    (X : List (Nat × Nat)) (d di : Nat)
    (rec_bb : MVMSpeshGraph → BBRef → Except Trap MVMSpeshGraph)
    (hrec : ∀ g c g', c ∈ R → ChildClosed R g → ReclaimInv tc R X d di g →
      rec_bb g c = .ok g' → ReclaimPost tc R X d di g c g') (cs : List BBRef) :
    ∀ (g g' : MVMSpeshGraph), (∀ c ∈ cs, c ∈ R) → ChildClosed R g → ReclaimInv tc R X d di g →
      optimize_children rec_bb g cs = .ok g' →
      ReclaimInv tc R X d di g' ∧
      (g'.facts d di).usages - (graphReads g' R d di : Int) =
        (g.facts d di).usages - (graphReads g R d di : Int) ∧
      (∀ b, (g'.bbs b).children = (g.bbs b).children) ∧
      (∀ b, (∀ c ∈ cs, ¬ Dom g.bbs c b) → (g'.bbs b).ins = (g.bbs b).ins) ∧
      (∀ b, listReads (g'.bbs b).ins d di ≤ listReads (g.bbs b).ins d di) ∧
      (∀ c ∈ cs, ∀ b, Dom g.bbs c b → listReads (g'.bbs b).ins d di = 0) ∧
      (∀ c ∈ cs, ∀ b, Dom g.bbs c b → ∀ i ∈ (g'.bbs b).ins, ¬ DeadOn X i) := by
  induction cs with
  | nil =>
    intro g g' _ _ hinv h
    simp only [optimize_children, Except.ok.injEq] at h
    subst h
    exact ⟨hinv, rfl, fun b => rfl, fun b _ => rfl, fun b => le_refl _,
      fun c hc => absurd hc (List.not_mem_nil c), fun c hc => absurd hc (List.not_mem_nil c)⟩
  | cons c cs ih =>
    intro g g' hcs hcl hinv h
    simp only [optimize_children, bind, Except.bind] at h
    cases h1 : rec_bb g c with
    | error e => rw [h1] at h; cases h
    | ok g1 =>
      rw [h1] at h
      simp only at h
      obtain ⟨a1, a2, a3, a4, a5, a6, a7⟩ :=
        hrec g c g1 (hcs c (List.mem_cons_self _ _)) hcl hinv h1
      have hcl1 : ChildClosed R g1 := by
        intro b hb c' hc'
        rw [a3 b] at hc'
        exact hcl b hb c' hc'
      obtain ⟨b1, b2, b3, b4, b5, b6, b7⟩ :=
        ih g1 g' (fun c' hc' => hcs c' (List.mem_cons_of_mem _ hc')) hcl1 a1 h
      have hdom : ∀ a b, Dom g1.bbs a b ↔ Dom g.bbs a b := Dom_congr g.bbs g1.bbs a3
      refine ⟨b1, b2.trans a2, fun b => (b3 b).trans (a3 b), ?_, fun b => (b5 b).trans (a5 b),
        ?_, ?_⟩
      · intro b hb
        rw [b4 b (fun c' hc' hd => hb c' (List.mem_cons_of_mem _ hc') ((hdom c' b).1 hd))]
        exact a4 b (hb c (List.mem_cons_self _ _))
      · intro c' hc' b hb
        rcases List.mem_cons.1 hc' with hc' | hc'
        · rw [hc'] at hb
          have := b5 b
          rw [a6 b hb] at this
          exact Nat.le_zero.1 this
        · exact b6 c' hc' b ((hdom c' b).2 hb)
      · intro c' hc' b hb
        by_cases hlater : ∃ c2 ∈ cs, Dom g1.bbs c2 b
        · obtain ⟨c2, hc2, hd2⟩ := hlater
          exact b7 c2 hc2 b hd2
        · rcases List.mem_cons.1 hc' with hc' | hc'
          · rw [hc'] at hb
            rw [b4 b (fun c2 hc2 hd => hlater ⟨c2, hc2, hd⟩)]
            exact a7 b hb
          · exact absurd ⟨c', hc', (hdom c' b).2 hb⟩ hlater

/-- The reclaiming invariant across `optimize_bb`. -/
theorem optimize_bb_reclaim (tc : MVMThreadContext) (ht : TableOK tc) (R : List BBRef)
    (hR : R.Nodup) (X : List (Nat × Nat)) (d di : Nat) (fuel : Nat) :
    ∀ (g : MVMSpeshGraph) (c : BBRef) (g' : MVMSpeshGraph), c ∈ R → ChildClosed R g →
      ReclaimInv tc R X d di g → optimize_bb tc fuel g c = .ok g' →
      ReclaimPost tc R X d di g c g' := by
  induction fuel with
  | zero =>
    intro g c g' _ _ _ h
    simp only [optimize_bb] at h
    cases h
  | succ fuel ih =>
    intro g c g' hc hcl hinv h
    rw [optimize_bb_eq] at h
    simp only [bind, Except.bind] at h
    cases h1 : optimize_bb_forward tc c g (g.bbs c).ins with
    | error e => rw [h1] at h; cases h
    | ok v1 =>
      rw [h1] at h
      simp only at h
      obtain ⟨a1, a2, a3, a4, a5, a6⟩ := forward_phase_reclaim tc ht R hR X d di g c hc hinv v1 h1
      generalize hg2 : setIns v1.1 c v1.2 = g2 at h a1 a2 a3 a4 a5
      have hcl2 : ChildClosed R g2 := by
        intro b hb c' hc'
        rw [a3 b] at hc'
        exact hcl b hb c' hc'
      cases h2 : optimize_children (optimize_bb tc fuel) g2 (g2.bbs c).children with
      | error e => rw [h2] at h; cases h
      | ok g3 =>
        rw [h2] at h
        simp only at h
        obtain ⟨c1, c2, c3, c4, c5, c6, c7⟩ := optimize_children_reclaim tc R X d di _ ih _ g2 g3
          (fun c' hc' => hcl2 c hc c' hc') hcl2 a1 h2
        cases h3 : optimize_bb_reverse g3 (g3.bbs c).ins.reverse [] with
        | error e => rw [h3] at h; cases h
        | ok v4 =>
          rw [h3] at h
          simp only [Except.ok.injEq] at h
          obtain ⟨e1, e2, e3, e4, e5, e6, e7, e8⟩ :=
            reverse_phase_reclaim tc R hR X d di g3 c hc c1 v4 h3
          rw [h] at e1 e2 e3 e4 e5
          have hdom : ∀ a b, Dom g2.bbs a b ↔ Dom g.bbs a b := Dom_congr g.bbs g2.bbs a3
          have hmono2 : ∀ b, listReads (g2.bbs b).ins d di ≤ listReads (g.bbs b).ins d di := by
            intro b
            by_cases hbc : b = c
            · rw [hbc, a5]; exact a6
            · rw [a4 b hbc]
          have hmono5 : ∀ b, listReads (g'.bbs b).ins d di ≤ listReads (g3.bbs b).ins d di := by
            intro b
            by_cases hbc : b = c
            · rw [hbc, e5]; exact listReads_sublist e6 d di
            · rw [e4 b hbc]
          refine ⟨e1, e2.trans (c2.trans a2), fun b => (e3 b).trans ((c3 b).trans (a3 b)), ?_,
            fun b => (hmono5 b).trans ((c5 b).trans (hmono2 b)), ?_, ?_⟩
          · intro b hb
            have hbc : b ≠ c := fun hh => hb (hh ▸ Relation.ReflTransGen.refl)
            rw [e4 b hbc, c4 b ?_, a4 b hbc]
            intro c' hc' hd
            rw [a3 c] at hc'
            exact hb (Relation.ReflTransGen.head hc' ((hdom c' b).1 hd))
          · intro b hb
            rcases Relation.ReflTransGen.cases_head hb with hb | ⟨c', hc', hcb⟩
            · rw [← hb, e5]; exact e7
            · have h0 : listReads (g3.bbs b).ins d di = 0 := by
                refine c6 c' ?_ b ((hdom c' b).2 hcb)
                rw [a3 c]; exact hc'
              have := hmono5 b
              rw [h0] at this
              exact Nat.le_zero.1 this
          · intro b hb
            by_cases hbc : b = c
            · rw [hbc, e5]; exact e8
            · rcases Relation.ReflTransGen.cases_head hb with hb | ⟨c', hc', hcb⟩
              · exact absurd hb.symm hbc
              · rw [e4 b hbc]
                refine c7 c' ?_ b ((hdom c' b).2 hcb)
                rw [a3 c]; exact hc'

/-- The result of a call `optimize_bb(B)` that returns, for a block `B` that
holds `pre ++ P :: post` with `P` pure and writing `(d, di)`, under the
reclaiming invariant: `usages(d) = 0`, no instruction left in `B` or its
descendants `D` reads `d` or is a removable instruction with its operand 0 in
`X`, and the instruction list of `B` consists of survivors of what the forward
pass made of `pre`, followed by survivors of what it made of `post`. -/
theorem optimize_bb_reclaim_sweep (tc : MVMThreadContext) (ht : TableOK tc) (fuel : Nat)
    (g g' : MVMSpeshGraph) (B : BBRef) (D : List BBRef) (X : List (Nat × Nat))
    (pre post : List MVMSpeshIns) (P : MVMSpeshIns) (d di : Nat)
    (hB : (g.bbs B).ins = pre ++ P :: post)
    (hPp : P.info.pure = true)
    (hPw : P.info.operands.getD 0 MVM_operand_literal = MVM_operand_write_reg)
    (hP0 : P.operands[0]? = some (.reg d di))
    (hD : D.Nodup) (hBD : B ∉ D) (hDdom : ∀ b ∈ D, Dom g.bbs B b)
    (hcl : ∀ b ∈ B :: D, ∀ c ∈ (g.bbs b).children, c ∈ D)
    (hok : ∀ b ∈ B :: D, ∀ i ∈ (g.bbs b).ins, InsOK tc i)
    (huse : (g.facts d di).usages = graphReads g (B :: D) d di)
    (hpre : ∀ i ∈ pre, insReads i d di = 0) (hPd : insReads P d di = 0)
    (hcons : ∀ b ∈ B :: D, ∀ i ∈ (g.bbs b).ins, insReads i d di ≠ 0 → DeadOn X i)
    (hX : ∀ x ∈ X, (g.facts x.1 x.2).usages = 0 ∧ graphReads g (B :: D) x.1 x.2 = 0)
    (hrun : optimize_bb tc fuel g B = .ok g') :
    (g'.facts d di).usages = 0 ∧
    (∀ b ∈ B :: D, ∀ i ∈ (g'.bbs b).ins, insReads i d di = 0 ∧ ¬ DeadOn X i) ∧
    ∃ ga outPre gb P' gc outPost keptPre keptPost,
      optimize_bb_forward tc B g pre = .ok (ga, outPre) ∧
      optimize_bb_forward_ins tc ga B P = .ok (gb, some P') ∧
      optimize_bb_forward tc B gb post = .ok (gc, outPost) ∧
      keptPre.Sublist outPre ∧ keptPost.Sublist outPost ∧
      (g'.bbs B).ins = keptPre ++ keptPost := by
  have hR : (B :: D).Nodup := List.nodup_cons.2 ⟨hBD, hD⟩
  have hBR : B ∈ B :: D := List.mem_cons_self _ _
  have hclR : ChildClosed (B :: D) g := fun b hb c hc => List.mem_cons_of_mem _ (hcl b hb c hc)
  have hclD : ChildClosed D g := fun b hb c hc => hcl b (List.mem_cons_of_mem _ hb) c hc
  have hinv : ReclaimInv tc (B :: D) X d di g := by
    refine ⟨fun x hx => (hX x hx).1, ?_⟩
    intro b hb i hi
    refine ⟨hok b hb i hi, ?_, hcons b hb i hi⟩
    intro x hx
    exact (listReads_eq_zero _ _ _).1 ((graphReads_eq_zero g _ _ _).1 (hX x hx).2 b hb) i hi
  have hdomR : ∀ b ∈ B :: D, Dom g.bbs B b := by
    intro b hb
    rcases List.mem_cons.1 hb with hb | hb
    · rw [hb]; exact Relation.ReflTransGen.refl
    · exact hDdom b hb
  have hQ0 : (g.facts d di).usages - (graphReads g (B :: D) d di : Int) = 0 := by
    rw [huse]; ring
  -- the usage count and the consumers, from the invariant
  obtain ⟨p1, p2, -, -, -, p6, p7⟩ :=
    optimize_bb_reclaim tc ht (B :: D) hR X d di fuel g B g' hBR hclR hinv hrun
  have hzero' : graphReads g' (B :: D) d di = 0 :=
    (graphReads_eq_zero g' _ _ _).2 (fun b hb => p6 b (hdomR b hb))
  refine ⟨?_, ?_, ?_⟩
  · rw [hQ0, hzero'] at p2
    simpa using p2
  · intro b hb i hi
    exact ⟨(listReads_eq_zero _ _ _).1 (p6 b (hdomR b hb)) i hi, p7 b (hdomR b hb) i hi⟩
  -- the producer, by following the call
  cases fuel with
  | zero => simp only [optimize_bb] at hrun; cases hrun
  | succ fuel =>
    have h := hrun
    rw [optimize_bb_eq] at h
    simp only [bind, Except.bind] at h
    cases h1 : optimize_bb_forward tc B g (g.bbs B).ins with
    | error e => rw [h1] at h; cases h
    | ok v1 =>
      rw [h1] at h
      simp only at h
      obtain ⟨a1, a2, a3, a4, a5, -⟩ :=
        forward_phase_reclaim tc ht (B :: D) hR X d di g B hBR hinv v1 h1
      -- the forward loop, split at `P`
      have h1' := h1
      rw [hB, optimize_bb_forward_append] at h1'
      simp only [bind, Except.bind] at h1'
      cases hfa : optimize_bb_forward tc B g pre with
      | error e => rw [hfa] at h1'; cases h1'
      | ok va =>
        rw [hfa] at h1'
        simp only [optimize_bb_forward, bind, Except.bind] at h1'
        cases hfb : optimize_bb_forward_ins tc va.1 B P with
        | error e => rw [hfb] at h1'; cases h1'
        | ok vb =>
          rw [hfb] at h1'
          simp only at h1'
          cases hfc : optimize_bb_forward tc B vb.1 post with
          | error e => rw [hfc] at h1'; cases h1'
          | ok vc =>
            rw [hfc] at h1'
            simp only [Except.ok.injEq] at h1'
            have hokP : InsOK tc P := hok B hBR P (by rw [hB]; simp)
            have hrmP : Removable P := Or.inr ⟨hPp, hPw⟩
            obtain ⟨s1, s2, s3, -⟩ := optimize_bb_forward_ins_usage tc ht va.1 vb.1 B P vb.2 hokP hfb
            cases hvb : vb.2 with
            | none => exact absurd hvb (s2 hrmP)
            | some P' =>
              rw [hvb] at h1'
              simp only at h1'
              have hv12 : v1.2 = va.2 ++ P' :: vc.2 := by rw [← h1']
              obtain ⟨hrmP'', hP0'⟩ := (s1 P' hvb).2 hrmP
              have hP0'' : P'.operands[0]? = some (.reg d di) := by rw [hP0']; exact hP0
              have hPd' : insReads P' d di = 0 := by
                have := s3 d di
                rw [hvb, hPd] at this
                exact Nat.le_zero.1 this
              have hAd : listReads va.2 d di = 0 := by
                obtain ⟨-, f2, -⟩ := optimize_bb_forward_usage tc ht B pre g va.1 va.2
                  (fun i hi => hok B hBR i (by rw [hB]; exact List.mem_append_left _ hi)) hfa
                have := f2 d di
                rw [(listReads_eq_zero pre d di).2 hpre] at this
                exact Nat.le_zero.1 this
              generalize hg2 : setIns v1.1 B v1.2 = g2 at h a1 a2 a3 a4 a5
              have hcl2 : ChildClosed (B :: D) g2 := by
                intro b hb c' hc'
                rw [a3 b] at hc'
                exact hclR b hb c' hc'
              have hdom : ∀ a b, Dom g2.bbs a b ↔ Dom g.bbs a b := Dom_congr g.bbs g2.bbs a3
              cases h2 : optimize_children (optimize_bb tc fuel) g2 (g2.bbs B).children with
              | error e => rw [h2] at h; cases h
              | ok g3 =>
                rw [h2] at h
                simp only at h
                obtain ⟨c1, c2, -, c4, -, c6, -⟩ := optimize_children_reclaim tc (B :: D) X d di _
                  (optimize_bb_reclaim tc ht (B :: D) hR X d di fuel) _ g2 g3
                  (fun c' hc' => hcl2 B hBR c' hc') hcl2 a1 h2
                -- the instructions of `B` when its reverse loop starts
                have hB3 : (g3.bbs B).ins = va.2 ++ P' :: vc.2 := by
                  rw [c4 B ?_, a5, hv12]
                  intro c' hc' hd
                  rw [a3 B] at hc'
                  exact hBD (Dom_mem_of_closed D g hclD c' B (hcl B hBR c' hc') ((hdom c' B).1 hd))
                have hD3 : graphReads g3 D d di = 0 := by
                  rw [graphReads_eq_zero]
                  intro b hb
                  rcases Relation.ReflTransGen.cases_head (hDdom b hb) with hbB | ⟨c', hc', hcb⟩
                  · exact absurd (hbB ▸ hb) hBD
                  · refine c6 c' ?_ b ((hdom c' b).2 hcb)
                    rw [a3 B]; exact hc'
                have hU3 : (g3.facts d di).usages = (listReads vc.2 d di : Int) := by
                  have hq := c2.trans (a2.trans hQ0)
                  rw [graphReads_cons, hD3, hB3, listReads_append, listReads_cons, hAd, hPd'] at hq
                  push_cast at hq
                  linarith
                -- the reverse loop, split at `P'`
                cases h3 : optimize_bb_reverse g3 (g3.bbs B).ins.reverse [] with
                | error e => rw [h3] at h; cases h
                | ok v4 =>
                  rw [h3] at h
                  simp only [Except.ok.injEq] at h
                  have hrev : (va.2 ++ P' :: vc.2).reverse = vc.2.reverse ++ (P' :: va.2.reverse) := by
                    simp
                  rw [hB3, hrev, optimize_bb_reverse_append] at h3
                  simp only [bind, Except.bind] at h3
                  cases hra : optimize_bb_reverse g3 vc.2.reverse [] with
                  | error e => rw [hra] at h3; cases h3
                  | ok ve =>
                    rw [hra] at h3
                    simp only [optimize_bb_reverse, bind, Except.bind] at h3
                    have hC3 : ∀ i ∈ vc.2, i ∈ (g3.bbs B).ins := by
                      intro i hi
                      rw [hB3]
                      exact List.mem_append_right _ (List.mem_cons_of_mem _ hi)
                    obtain ⟨k1, r1, r2, r3, -, r5⟩ := optimize_bb_reverse_usage X _ g3 ve.1 [] ve.2
                      c1.1 (fun x hx i hi =>
                        (c1.2 B hBR i (hC3 i (List.mem_reverse.1 hi))).2.1 x hx) hra
                    rw [List.append_nil] at r1
                    rw [List.reverse_reverse] at r2
                    have hk1 : listReads k1 d di = 0 := by
                      rw [listReads_eq_zero]
                      intro i hi
                      by_contra hne
                      exact r5 i hi ((c1.2 B hBR i (hC3 i (r2.subset hi))).2.2 hne)
                    have hUe : (ve.1.facts d di).usages = 0 := by
                      rw [r3 d di, hU3, listReads_reverse, hk1]
                      simp
                    cases hrb : optimize_bb_reverse_ins ve.1 P' with
                    | error e => rw [hrb] at h3; cases h3
                    | ok vf =>
                      rw [hrb] at h3
                      simp only at h3
                      have hvf : vf.2 = none :=
                        (optimize_bb_reverse_ins_usage ve.1 vf.1 P' vf.2 hrb).2 hrmP'' d di hP0'' hUe
                      rw [hvf] at h3
                      simp only at h3
                      obtain ⟨k2, t1, t2, -⟩ := optimize_bb_reverse_usage [] _ vf.1 v4.1 ve.2 v4.2
                        (fun x hx => absurd hx (List.not_mem_nil x))
                        (fun x hx => absurd hx (List.not_mem_nil x)) h3
                      rw [List.reverse_reverse] at t2
                      refine ⟨va.1, va.2, vb.1, P', vc.1, vc.2, k2, k1, rfl, ?_, hfc, t2, r2, ?_⟩
                      · rw [← hvb]; exact hfb
                      · rw [← h, setIns_bbs_self, t1, r1]

/-- The table `specOpTable` is sound. -/
theorem TableOK_specOpTable (m : ObjRef → StrRef → Option ObjRef)
    (t : ObjRef → ObjRef → Option Int) : TableOK ⟨specOpTable, m, t⟩ :=
  ⟨specOpTable_opcode, fun _ _ => ⟨rfl, rfl⟩, fun h => Bool.noConfusion h, fun _ => rfl,
    fun _ => rfl⟩

/-! ### Termination of `optimize_bb` -/

/-- A sequence of two steps runs out of fuel only if one of them does. -/
theorem bind_fuel {α β : Type} (x : Except Trap α) (f : α → Except Trap β)
    (hx : x ≠ .error .outOfFuel) (hf : ∀ a, f a ≠ .error .outOfFuel) :
    (x >>= f) ≠ .error .outOfFuel := by
  cases x with
  | error e =>
    intro h
    simp only [bind, Except.bind] at h
    injection h with h
    subst h
    exact hx rfl
  | ok a => exact hf a

/-- `get_facts` uses no fuel. -/
theorem get_facts_fuel (o : Option MVMSpeshOperand) : get_facts o ≠ .error .outOfFuel := by
  unfold get_facts; split <;> simp

/-- `get_string` uses no fuel. -/
theorem get_string_fuel (g : MVMSpeshGraph) (o : Option MVMSpeshOperand) :
    get_string g o ≠ .error .outOfFuel := by
  unfold get_string; split <;> simp

/-- `get_ins_bb` uses no fuel. -/
theorem get_ins_bb_fuel (o : Option MVMSpeshOperand) : get_ins_bb o ≠ .error .outOfFuel := by
  unfold get_ins_bb; split <;> simp

/-- An array read uses no fuel. -/
theorem readAt_fuel {α : Type} (a : List α) (i : Nat) : readAt a i ≠ .error .outOfFuel := by
  unfold readAt; split <;> simp

/-- An array write uses no fuel. -/
theorem writeAt_fuel {α : Type} (a : List α) (i : Nat) (x : α) :
    writeAt a i x ≠ .error .outOfFuel := by
  unfold writeAt; split <;> simp

/-- `add_spesh_slot` uses no fuel. -/
theorem add_spesh_slot_fuel (g : MVMSpeshGraph) (c : Option ObjRef) :
    add_spesh_slot g c ≠ .error .outOfFuel := by
  intro h
  unfold add_spesh_slot at h
  simp only at h
  generalize (if g.num_spesh_slots ≥ g.alloc_spesh_slots then
      ({ g with alloc_spesh_slots := g.alloc_spesh_slots + 8
                spesh_slots := resizeCells g.spesh_slots (g.alloc_spesh_slots + 8) } :
        MVMSpeshGraph)
    else g) = g1 at h
  cases hs : g1.spesh_slots with
  | none => rw [hs] at h; cases h
  | some cells =>
    rw [hs] at h
    simp only at h
    split at h
    · cases h
    · simp only [bind, Except.bind] at h
      cases hw : writeAt cells g1.num_spesh_slots.toNat (SlotCell.val c) with
      | error e =>
        rw [hw] at h
        injection h with h
        subst h
        exact writeAt_fuel _ _ _ hw
      | ok cells' => rw [hw] at h; cases h

/-- `MVM_spesh_manipulate_remove_successor` uses no fuel. -/
theorem remove_successor_fuel (g : MVMSpeshGraph) (bb : BBRef) (s : Option BBRef) :
    MVM_spesh_manipulate_remove_successor g bb s ≠ .error .outOfFuel := by
  unfold MVM_spesh_manipulate_remove_successor; split <;> simp

/-- `optimize_decont` uses no fuel. -/
theorem optimize_decont_fuel (tc : MVMThreadContext) (g : MVMSpeshGraph) (ins : MVMSpeshIns) :
    optimize_decont tc g ins ≠ .error .outOfFuel := by
  unfold optimize_decont
  refine bind_fuel _ _ (get_facts_fuel _) (fun o => ?_)
  split <;> simp

/-- `optimize_set` uses no fuel. -/
theorem optimize_set_fuel (g : MVMSpeshGraph) (ins : MVMSpeshIns) :
    optimize_set g ins ≠ .error .outOfFuel := by
  intro h
  simp only [optimize_set, bind, Except.bind] at h
  repeat' split at h
  all_goals cases h
  all_goals first
    | exact get_facts_fuel _ (by assumption)
    | (rename_i hq; cases hq)

/-- `optimize_istype` uses no fuel. -/
theorem optimize_istype_fuel (tc : MVMThreadContext) (g : MVMSpeshGraph) (ins : MVMSpeshIns) :
    optimize_istype tc g ins ≠ .error .outOfFuel := by
  unfold optimize_istype
  refine bind_fuel _ _ (get_facts_fuel _) (fun t => ?_)
  split
  · refine bind_fuel _ _ (get_facts_fuel _) (fun o => ?_)
    split
    · split
      · simp
      · refine bind_fuel _ _ (get_facts_fuel _) (fun r => ?_)
        refine bind_fuel _ _ (writeAt_fuel _ _ _) (fun ops => ?_)
        simp
    · simp
  · simp

/-- `optimize_iffy` uses no fuel. -/
theorem optimize_iffy_fuel (tc : MVMThreadContext) (g : MVMSpeshGraph) (ins : MVMSpeshIns)
    (bb : BBRef) : optimize_iffy tc g ins bb ≠ .error .outOfFuel := by
  unfold optimize_iffy
  split
  · simp
  · refine bind_fuel _ _ (get_facts_fuel _) (fun f => ?_)
    split
    · split
      · simp
      · split
        · refine bind_fuel _ _ (readAt_fuel _ _) (fun o1 => ?_)
          refine bind_fuel _ _ (writeAt_fuel _ _ _) (fun ops => ?_)
          refine bind_fuel _ _ (remove_successor_fuel _ _ _) (fun g1 => ?_)
          simp
        · refine bind_fuel _ _ (get_ins_bb_fuel _) (fun t => ?_)
          refine bind_fuel _ _ (remove_successor_fuel _ _ _) (fun g1 => ?_)
          simp
    · simp

/-- `optimize_method_lookup` uses no fuel. -/
theorem optimize_method_lookup_fuel (tc : MVMThreadContext) (g : MVMSpeshGraph)
    (ins : MVMSpeshIns) : optimize_method_lookup tc g ins ≠ .error .outOfFuel := by
  intro h
  simp only [optimize_method_lookup, bind, Except.bind] at h
  repeat' split at h
  all_goals cases h
  all_goals first
    | exact get_facts_fuel _ (by assumption)
    | exact get_string_fuel _ _ (by assumption)
    | exact add_spesh_slot_fuel _ _ (by assumption)
    | exact writeAt_fuel _ _ _ (by assumption)
    | (rename_i hq; cases hq)

/-- One step of the forward loop uses no fuel. -/
theorem optimize_bb_forward_ins_fuel (tc : MVMThreadContext) (g : MVMSpeshGraph) (bb : BBRef)
    (ins : MVMSpeshIns) : optimize_bb_forward_ins tc g bb ins ≠ .error .outOfFuel := by
  unfold optimize_bb_forward_ins
  split
  · exact bind_fuel _ _ (optimize_method_lookup_fuel _ _ _) (fun v => by simp)
  · exact bind_fuel _ _ (optimize_decont_fuel _ _ _) (fun v => by simp)
  · exact bind_fuel _ _ (optimize_istype_fuel _ _ _) (fun v => by simp)
  · exact bind_fuel _ _ (optimize_set_fuel _ _) (fun v => by simp)
  · exact optimize_iffy_fuel _ _ _ _
  · exact optimize_iffy_fuel _ _ _ _
  · simp

/-- The forward loop walks a finite list and uses no fuel. -/
theorem optimize_bb_forward_fuel (tc : MVMThreadContext) (bb : BBRef) (l : List MVMSpeshIns) :
    ∀ g : MVMSpeshGraph, optimize_bb_forward tc bb g l ≠ .error .outOfFuel := by
  induction l with
  | nil => intro g; simp [optimize_bb_forward]
  | cons i l ih =>
    intro g
    simp only [optimize_bb_forward]
    refine bind_fuel _ _ (optimize_bb_forward_ins_fuel _ _ _ _) (fun v1 => ?_)
    exact bind_fuel _ _ (ih _) (fun v2 => by simp)

/-- The usage loops of the reverse pass use no fuel. -/
theorem propagate_non_usage_fuel (phi : Bool) (ins : MVMSpeshIns) (js : List Nat) :
    ∀ g : MVMSpeshGraph, propagate_non_usage phi ins g js ≠ .error .outOfFuel := by
  induction js with
  | nil => intro g; simp [propagate_non_usage]
  | cons j js ih =>
    intro g
    simp only [propagate_non_usage]
    split
    · exact bind_fuel _ _ (get_facts_fuel _) (fun r => ih _)
    · exact ih _

/-- One step of the reverse loop uses no fuel. -/
theorem optimize_bb_reverse_ins_fuel (g : MVMSpeshGraph) (ins : MVMSpeshIns) :
    optimize_bb_reverse_ins g ins ≠ .error .outOfFuel := by
  unfold optimize_bb_reverse_ins
  split
  · refine bind_fuel _ _ (get_facts_fuel _) (fun f => ?_)
    split
    · exact bind_fuel _ _ (propagate_non_usage_fuel _ _ _ _) (fun v => by simp)
    · simp
  · split
    · split
      · refine bind_fuel _ _ (get_facts_fuel _) (fun f => ?_)
        split
        · exact bind_fuel _ _ (propagate_non_usage_fuel _ _ _ _) (fun v => by simp)
        · simp
      · simp
    · simp

/-- The reverse loop walks a finite list and uses no fuel. -/
theorem optimize_bb_reverse_fuel (l : List MVMSpeshIns) :
    ∀ (g : MVMSpeshGraph) (kept : List MVMSpeshIns),
      optimize_bb_reverse g l kept ≠ .error .outOfFuel := by
  induction l with
  | nil => intro g kept; simp [optimize_bb_reverse]
  | cons i l ih =>
    intro g kept
    simp only [optimize_bb_reverse]
    exact bind_fuel _ _ (optimize_bb_reverse_ins_fuel _ _) (fun v1 => ih _ _)

/-- The loop over the children does not run out of fuel when the recursive
call does not. -/
theorem optimize_children_fuel (tc : MVMThreadContext)
    (htc : ∀ op, (tc.MVM_op_get_op op).opcode = op) (R : List BBRef) (rk : BBRef → Nat)
    (fuel : Nat)
    (ih : ∀ (g : MVMSpeshGraph) (c : BBRef), c ∈ R → ChildClosed R g → RankOK R rk g →
      rk c < fuel → optimize_bb tc fuel g c ≠ .error .outOfFuel) (cs : List BBRef) :
    ∀ g : MVMSpeshGraph, (∀ c ∈ cs, c ∈ R ∧ rk c < fuel) → ChildClosed R g → RankOK R rk g →
      optimize_children (optimize_bb tc fuel) g cs ≠ .error .outOfFuel := by
  induction cs with
  | nil => intro g _ _ _; simp [optimize_children]
  | cons c cs ihc =>
    intro g hcs hcl hrk
    simp only [optimize_children]
    intro h
    simp only [bind, Except.bind] at h
    cases h1 : optimize_bb tc fuel g c with
    | error e =>
      rw [h1] at h
      injection h with h
      subst h
      exact ih g c (hcs c (List.mem_cons_self _ _)).1 hcl hrk (hcs c (List.mem_cons_self _ _)).2 h1
    | ok g1 =>
      rw [h1] at h
      simp only at h
      have hch : ∀ b, (g1.bbs b).children = (g.bbs b).children :=
        fun b => ((optimize_bb_frame tc htc fuel g c g1 h1).1 b).1
      refine ihc g1 (fun c' hc' => hcs c' (List.mem_cons_of_mem _ hc')) ?_ ?_ h
      · intro b hb c' hc'
        rw [hch b] at hc'
        exact hcl b hb c' hc'
      · intro b hb c' hc'
        rw [hch b] at hc'
        exact hrk b hb c' hc'

/-- With fuel above the rank of the block, `optimize_bb` does not run out of
fuel: it returns, or it stops at a fault. -/
theorem optimize_bb_fuel (tc : MVMThreadContext)
    (htc : ∀ op, (tc.MVM_op_get_op op).opcode = op) (R : List BBRef) (rk : BBRef → Nat)
    (fuel : Nat) :
    ∀ (g : MVMSpeshGraph) (c : BBRef), c ∈ R → ChildClosed R g → RankOK R rk g →
      rk c < fuel → optimize_bb tc fuel g c ≠ .error .outOfFuel := by
  induction fuel with
  | zero => intro g c _ _ _ h; omega
  | succ fuel ih =>
    intro g c hc hcl hrk hlt h
    rw [optimize_bb_eq] at h
    simp only [bind, Except.bind] at h
    cases h1 : optimize_bb_forward tc c g (g.bbs c).ins with
    | error e =>
      rw [h1] at h
      injection h with h
      subst h
      exact optimize_bb_forward_fuel _ _ _ _ h1
    | ok v1 =>
      rw [h1] at h
      simp only at h
      obtain ⟨a1, -⟩ := optimize_bb_forward_frame tc htc c _ g v1.1 v1.2 h1
      have hch : ∀ b, ((setIns v1.1 c v1.2).bbs b).children = (g.bbs b).children := by
        intro b
        by_cases hbc : b = c
        · rw [hbc, setIns_bbs_self]; exact (a1 c).2.2.2
        · rw [setIns_bbs_other _ _ _ b hbc]; exact (a1 b).2.2.2
      cases h2 : optimize_children (optimize_bb tc fuel) (setIns v1.1 c v1.2)
          ((setIns v1.1 c v1.2).bbs c).children with
      | error e =>
        rw [h2] at h
        injection h with h
        subst h
        refine optimize_children_fuel tc htc R rk fuel ih _ _ ?_ ?_ ?_ h2
        · intro c' hc'
          rw [hch c] at hc'
          exact ⟨hcl c hc c' hc', by have := hrk c hc c' hc'; omega⟩
        · intro b hb c' hc'
          rw [hch b] at hc'
          exact hcl b hb c' hc'
        · intro b hb c' hc'
          rw [hch b] at hc'
          exact hrk b hb c' hc'
      | ok g3 =>
        rw [h2] at h
        simp only at h
        cases h3 : optimize_bb_reverse g3 (g3.bbs c).ins.reverse [] with
        | error e =>
          rw [h3] at h
          injection h with h
          subst h
          exact optimize_bb_reverse_fuel _ _ _ h3
        | ok v4 =>
          rw [h3] at h
          cases h

/-- The operands that `isStrIdx` accepts. -/
theorem isStrIdx_iff (x : Option MVMSpeshOperand) :
    isStrIdx x = true ↔ ∃ s, x = some (.lit_str_idx s) := by
  unfold isStrIdx
  split
  · simp
  · rename_i h
    simp only [Bool.false_eq_true, false_iff, not_exists]
    intro s hx
    exact h s hx

/-- The operands that `isInsBB` accepts. -/
theorem isInsBB_iff (x : Option MVMSpeshOperand) :
    isInsBB x = true ↔ ∃ t, x = some (.ins_bb t) := by
  unfold isInsBB
  split
  · simp
  · rename_i h
    simp only [Bool.false_eq_true, false_iff, not_exists]
    intro s hx
    exact h s hx

/-- `optimize_decont` returns when operand 1 is a register. -/
theorem optimize_decont_returns (tc : MVMThreadContext) (g : MVMSpeshGraph) (ins : MVMSpeshIns)
    (h1 : isReg ins.operands[1]? = true) : ∃ i', optimize_decont tc g ins = .ok i' := by
  obtain ⟨o, k, h1⟩ := (isReg_iff _).1 h1
  unfold optimize_decont
  rw [h1]
  simp only [get_facts, bind, Except.bind]
  split <;> exact ⟨_, rfl⟩

/-- `optimize_set` returns when operands 0 and 1 are registers. -/
theorem optimize_set_returns (g : MVMSpeshGraph) (ins : MVMSpeshIns)
    (h0 : isReg ins.operands[0]? = true) (h1 : isReg ins.operands[1]? = true) :
    ∃ g', optimize_set g ins = .ok g' := by
  obtain ⟨d, di, h0⟩ := (isReg_iff _).1 h0
  obtain ⟨o, k, h1⟩ := (isReg_iff _).1 h1
  exact ⟨_, optimize_set_ok g ins d di o k h0 h1⟩

/-- `optimize_istype` returns when operands 0, 1 and 2 are registers. -/
theorem optimize_istype_returns (tc : MVMThreadContext) (g : MVMSpeshGraph) (ins : MVMSpeshIns)
    (h0 : isReg ins.operands[0]? = true) (h1 : isReg ins.operands[1]? = true)
    (h2 : isReg ins.operands[2]? = true) : ∃ v, optimize_istype tc g ins = .ok v := by
  obtain ⟨d, di, h0⟩ := (isReg_iff _).1 h0
  obtain ⟨o, k, h1⟩ := (isReg_iff _).1 h1
  obtain ⟨t, ti, h2⟩ := (isReg_iff _).1 h2
  have hlen : 1 < ins.operands.length := by
    rcases Nat.lt_or_ge 1 ins.operands.length with hl | hl
    · exact hl
    · rw [List.getElem?_eq_none hl] at h1; cases h1
  unfold optimize_istype
  rw [h0, h1, h2]
  simp only [get_facts, bind, Except.bind, writeAt, if_pos hlen]
  split
  · split
    · split <;> exact ⟨_, rfl⟩
    · exact ⟨_, rfl⟩
  · exact ⟨_, rfl⟩

/-- `MVM_spesh_manipulate_remove_successor` returns for a successor that is not NULL. -/
theorem remove_successor_returns (g : MVMSpeshGraph) (bb : BBRef) (s : Option BBRef)
    (hs : s ≠ none) : ∃ g', MVM_spesh_manipulate_remove_successor g bb s = .ok g' := by
  cases s with
  | none => exact absurd rfl hs
  | some n => exact ⟨_, rfl⟩

/-- `optimize_iffy` returns when operand 0 is a register, operand 1 a branch target, and the block has a next block. -/
theorem optimize_iffy_returns (tc : MVMThreadContext) (g : MVMSpeshGraph) (ins : MVMSpeshIns)
    (bb : BBRef) (h0 : isReg ins.operands[0]? = true) (h1 : isInsBB ins.operands[1]? = true)
    (hln : (g.bbs bb).linear_next ≠ none) : ∃ v, optimize_iffy tc g ins bb = .ok v := by
  obtain ⟨d, di, h0⟩ := (isReg_iff _).1 h0
  obtain ⟨t, h1⟩ := (isInsBB_iff _).1 h1
  have hlen : 1 < ins.operands.length := by
    rcases Nat.lt_or_ge 1 ins.operands.length with hl | hl
    · exact hl
    · rw [List.getElem?_eq_none hl] at h1; cases h1
  have hlen0 : 0 < ins.operands.length := by omega
  obtain ⟨n, hn⟩ : ∃ n, (g.bbs bb).linear_next = some n := by
    cases hl : (g.bbs bb).linear_next with
    | none => exact absurd hl hln
    | some n => exact ⟨n, rfl⟩
  unfold optimize_iffy
  rw [h0, h1, hn]
  simp only [get_facts, get_ins_bb, bind, Except.bind, writeAt, readAt, h1, if_pos hlen0,
    MVM_spesh_manipulate_remove_successor]
  split
  · exact ⟨_, rfl⟩
  · split
    · split
      · exact ⟨_, rfl⟩
      · split <;> exact ⟨_, rfl⟩
    · exact ⟨_, rfl⟩

/-- A well-formed slot table stays well formed when the slot fields stay. -/
theorem SlotsWF_of_SameSlots {g g' : MVMSpeshGraph} (h : SameSlots g' g) (hwf : SlotsWF g) :
    SlotsWF g' := by
  obtain ⟨h1, h2, h3⟩ := h
  unfold SlotsWF
  rw [h1, h2, h3]
  exact hwf

/-- `optimize_method_lookup` returns on a well-formed slot table when operand 1 is a register and operand 2 a string index, and leaves the table well formed. -/
theorem optimize_method_lookup_returns (tc : MVMThreadContext) (g : MVMSpeshGraph)
    (ins : MVMSpeshIns) (hwf : SlotsWF g) (h1 : isReg ins.operands[1]? = true)
    (h2 : isStrIdx ins.operands[2]? = true) :
    ∃ v, optimize_method_lookup tc g ins = .ok v ∧ SlotsWF v.1 := by
  obtain ⟨o, k, h1⟩ := (isReg_iff _).1 h1
  obtain ⟨s, h2⟩ := (isStrIdx_iff _).1 h2
  have hlen : 2 < ins.operands.length := by
    rcases Nat.lt_or_ge 2 ins.operands.length with hl | hl
    · exact hl
    · rw [List.getElem?_eq_none hl] at h2; cases h2
  have hlen1 : 1 < ins.operands.length := by omega
  have hlen3 : ¬ ins.operands.length < 3 := by omega
  obtain ⟨gm, hm, hmwf, -⟩ := add_spesh_slot_ok g none hwf
  obtain ⟨gm2, hm2, hm2wf, -⟩ := add_spesh_slot_ok gm none hmwf
  unfold optimize_method_lookup
  rw [h1, h2]
  simp only [get_facts, get_string, bind, Except.bind]
  split
  · cases hmeth : tc.MVM_6model_find_method_cache_only (g.facts o k).type (g.strings s) with
    | none =>
      simp only [if_neg hlen3, hm, hm2]
      exact ⟨_, rfl, hm2wf⟩
    | some meth =>
      obtain ⟨ga, ha, hawf, -⟩ := add_spesh_slot_ok g (some meth) hwf
      simp only [ha, writeAt, if_pos hlen1]
      exact ⟨_, rfl, SlotsWF_of_SameSlots ⟨rfl, rfl, rfl⟩ hawf⟩
  · simp only [if_neg hlen3, hm, hm2]
    exact ⟨_, rfl, hm2wf⟩

/-- An instruction that the forward pass does not rewrite is `FwdOK`. -/
theorem FwdOK_of_opcode (i : MVMSpeshIns)
    (h : i.info.opcode ∉ [MVM_OP_findmeth, MVM_OP_decont, MVM_OP_istype, MVM_OP_set,
      MVM_OP_if_i, MVM_OP_unless_i]) : FwdOK i := by
  simp only [List.mem_cons, List.mem_singleton, List.not_mem_nil, or_false, not_or] at h
  obtain ⟨h1, h2, h3, h4, h5, h6⟩ := h
  refine ⟨fun hh => absurd hh h1, fun hh => absurd hh h2, fun hh => absurd hh h3,
    fun hh => absurd hh h4, fun hh => ?_⟩
  rcases hh with hh | hh
  · exact absurd hh h5
  · exact absurd hh h6

/-- One step of the forward loop returns on an instruction with well-formed
operands, in a graph with a well-formed slot table, when the block of a
conditional has a next block; the slot table stays well formed, and what is
left of the instruction has well-formed operands and is a conditional only if
the instruction was one. -/
theorem optimize_bb_forward_ins_total (tc : MVMThreadContext) (ht : TableOK tc)
    (g : MVMSpeshGraph) (bb : BBRef) (ins : MVMSpeshIns) (hf : FwdOK ins) (hr : RevOK ins)
    (hwf : SlotsWF g) (hln : isCond ins → (g.bbs bb).linear_next ≠ none) :
    ∃ g' r, optimize_bb_forward_ins tc g bb ins = .ok (g', r) ∧ SlotsWF g' ∧
      ∀ i', r = some i' → FwdOK i' ∧ RevOK i' ∧ (isCond i' → isCond ins) := by
  obtain ⟨htc, hlay, -⟩ := ht
  obtain ⟨f1, f2, f3, f4, f5⟩ := hf
  have hsame : ∀ g', SlotsWF g' → ∃ g'' r, (Except.ok (g', some ins) :
      Except Trap (MVMSpeshGraph × Option MVMSpeshIns)) = .ok (g'', r) ∧ SlotsWF g'' ∧
      ∀ i', r = some i' → FwdOK i' ∧ RevOK i' ∧ (isCond i' → isCond ins) := by
    intro g' hg'
    refine ⟨g', some ins, rfl, hg', ?_⟩
    intro i' hi'
    cases hi'
    exact ⟨⟨f1, f2, f3, f4, f5⟩, hr, id⟩
  have hiffy : isCond ins → ∃ g' r, optimize_iffy tc g ins bb = .ok (g', r) ∧ SlotsWF g' ∧
      ∀ i', r = some i' → FwdOK i' ∧ RevOK i' ∧ (isCond i' → isCond ins) := by
    intro hc
    obtain ⟨v, hv⟩ := optimize_iffy_returns tc g ins bb (f5 hc).1 (f5 hc).2 (hln hc)
    refine ⟨v.1, v.2, hv, ?_, ?_⟩
    · rcases optimize_iffy_inv tc g v.1 ins bb v.2 hv with ⟨hg, -⟩ | ⟨n, hrem, -⟩
      · rw [hg]; exact hwf
      · obtain ⟨m, -, -, -, -, -, hslots, -⟩ := remove_successor_ok g v.1 bb _ hrem
        exact SlotsWF_of_SameSlots hslots hwf
    · intro i' hi'
      rcases optimize_iffy_inv tc g v.1 ins bb v.2 hv with ⟨-, hr'⟩ | ⟨n, -, hr'⟩
      · rw [hr'] at hi'
        cases hi'
        exact ⟨⟨f1, f2, f3, f4, f5⟩, hr, id⟩
      · rcases hr' with hr' | ⟨o1, -, hr'⟩
        · rw [hr'] at hi'; cases hi'
        · rw [hr'] at hi'
          cases hi'
          have hop : (tc.MVM_op_get_op MVM_OP_goto).opcode = MVM_OP_goto := htc _
          refine ⟨FwdOK_of_opcode _ (by simp only [hop]; decide), ⟨?_, ?_⟩, ?_⟩
          · intro hrm
            rcases hrm with hphi | ⟨-, hw⟩
            · simp only [hop] at hphi; cases hphi
            · simp only at hw
              rw [(hlay MVM_OP_goto (by decide)).2] at hw
              cases hw
          · intro j hj
            simp only at hj
            rw [(hlay MVM_OP_goto (by decide)).1] at hj
            cases hj
          · intro hc'
            rcases hc' with hc' | hc' <;> simp only [hop] at hc' <;> cases hc'
  unfold optimize_bb_forward_ins
  split
  · -- findmeth
    rename_i hop
    obtain ⟨h0, h1, h2⟩ := f1 hop
    obtain ⟨v, hv, hvwf⟩ := optimize_method_lookup_returns tc g ins hwf h1 h2
    simp only [bind, Except.bind, hv]
    refine ⟨v.1, some v.2, rfl, hvwf, ?_⟩
    intro i' hi'
    cases hi'
    obtain ⟨oo, oi, hop1, hcase⟩ := optimize_method_lookup_inv tc g v.1 ins v.2 hv
    rcases hcase with ⟨M, k, g1, -, -, hi⟩ | ⟨k, k2, g1, -, -, hi⟩
    · have hopn : (tc.MVM_op_get_op MVM_OP_sp_getspeshslot).opcode = MVM_OP_sp_getspeshslot :=
        htc _
      rw [hi]
      refine ⟨FwdOK_of_opcode _ (by simp only [hopn]; decide), ⟨?_, ?_⟩, ?_⟩
      · intro _
        simp only
        rw [List.getElem?_set_ne (by decide)]
        exact h0
      · intro j hj
        simp only at hj
        rw [(hlay MVM_OP_sp_getspeshslot (by decide)).1] at hj
        have hj1 : j = 1 := by simpa [specOpTable] using hj
        subst hj1
        intro hh
        rcases hh with hh | hh
        · simp only [hopn] at hh; cases hh
        · simp only at hh
          rw [(hlay MVM_OP_sp_getspeshslot (by decide)).2] at hh
          cases hh
      · intro hc'
        rcases hc' with hc' | hc' <;> simp only [hopn] at hc' <;> cases hc'
    · have hopn : (tc.MVM_op_get_op MVM_OP_sp_findmeth).opcode = MVM_OP_sp_findmeth := htc _
      have hlen : 1 < ins.operands.length := by
        rcases Nat.lt_or_ge 1 ins.operands.length with hl | hl
        · exact hl
        · rw [List.getElem?_eq_none hl] at hop1; cases hop1
      have hlen3 : 1 < (List.take 3 ins.operands).length := by
        rw [List.length_take]; omega
      have hg0 : (List.take 3 ins.operands ++ [MVMSpeshOperand.lit_i16 k])[0]? =
          ins.operands[0]? := by
        rw [List.getElem?_append_left (by omega), List.getElem?_take_of_lt (by decide)]
      have hg1 : (List.take 3 ins.operands ++ [MVMSpeshOperand.lit_i16 k])[1]? =
          ins.operands[1]? := by
        rw [List.getElem?_append_left hlen3, List.getElem?_take_of_lt (by decide)]
      rw [hi]
      refine ⟨FwdOK_of_opcode _ (by simp only [hopn]; decide), ⟨?_, ?_⟩, ?_⟩
      · intro _
        simp only
        rw [hg0]
        exact h0
      · intro j hj
        simp only at hj
        rw [(hlay MVM_OP_sp_findmeth (by decide)).1] at hj
        have hj1 : j = 1 ∨ j = 2 ∨ j = 3 := by
          simp [specOpTable] at hj
          omega
        intro hh
        rcases hh with hh | hh
        · simp only [hopn] at hh; cases hh
        · simp only at hh
          rw [(hlay MVM_OP_sp_findmeth (by decide)).2] at hh
          rcases hj1 with hj1 | hj1 | hj1
          · subst hj1
            simp only
            rw [hg1]
            exact h1
          · subst hj1; cases hh
          · subst hj1; cases hh
      · intro hc'
        rcases hc' with hc' | hc' <;> simp only [hopn] at hc' <;> cases hc'
  · -- decont
    rename_i hop
    obtain ⟨h0, h1⟩ := f2 hop
    obtain ⟨v, hv⟩ := optimize_decont_returns tc g ins h1
    simp only [bind, Except.bind, hv]
    refine ⟨g, some v, rfl, hwf, ?_⟩
    intro i' hi'
    cases hi'
    rcases optimize_decont_inv tc g ins v hv with hi | hi
    · rw [hi]
      exact ⟨⟨f1, f2, f3, f4, f5⟩, hr, id⟩
    · have hopn : (tc.MVM_op_get_op MVM_OP_set).opcode = MVM_OP_set := htc _
      rw [hi]
      refine ⟨⟨?_, ?_, ?_, fun _ => ⟨h0, h1⟩, ?_⟩, ⟨fun _ => h0, ?_⟩, ?_⟩
      · intro hh; simp only [hopn] at hh; cases hh
      · intro hh; simp only [hopn] at hh; cases hh
      · intro hh; simp only [hopn] at hh; cases hh
      · intro hc'
        rcases hc' with hc' | hc' <;> simp only [hopn] at hc' <;> cases hc'
      · intro j hj
        simp only at hj
        rw [(hlay MVM_OP_set (by decide)).1] at hj
        have hj1 : j = 1 := by simpa [specOpTable] using hj
        subst hj1
        intro _
        exact h1
      · intro hc'
        rcases hc' with hc' | hc' <;> simp only [hopn] at hc' <;> cases hc'
  · -- istype
    rename_i hop
    obtain ⟨h0, h1, h2⟩ := f3 hop
    obtain ⟨v, hv⟩ := optimize_istype_returns tc g ins h0 h1 h2
    simp only [bind, Except.bind, hv]
    rcases optimize_istype_inv tc g v.1 ins v.2 hv with
      ⟨hv1, hv2⟩ | ⟨d, di, oo, oi, t, ti, rr, hop0, -, -, hv1, hv2⟩
    · refine ⟨v.1, some v.2, rfl, by rw [hv1]; exact hwf, ?_⟩
      intro i' hi'
      cases hi'
      rw [hv2]
      exact ⟨⟨f1, f2, f3, f4, f5⟩, hr, id⟩
    · have hopn : (tc.MVM_op_get_op MVM_OP_const_i64).opcode = MVM_OP_const_i64 := htc _
      refine ⟨v.1, some v.2, rfl, ?_, ?_⟩
      · rw [hv1]; exact SlotsWF_of_SameSlots ⟨rfl, rfl, rfl⟩ hwf
      · intro i' hi'
        cases hi'
        rw [hv2]
        refine ⟨FwdOK_of_opcode _ (by simp only [hopn]; decide), ⟨?_, ?_⟩, ?_⟩
        · intro _
          simp only
          rw [List.getElem?_set_ne (by decide)]
          exact h0
        · intro j hj
          simp only at hj
          rw [(hlay MVM_OP_const_i64 (by decide)).1] at hj
          have hj1 : j = 1 := by simpa [specOpTable] using hj
          subst hj1
          intro hh
          rcases hh with hh | hh
          · simp only [hopn] at hh; cases hh
          · simp only at hh
            rw [(hlay MVM_OP_const_i64 (by decide)).2] at hh
            cases hh
        · intro hc'
          rcases hc' with hc' | hc' <;> simp only [hopn] at hc' <;> cases hc'
  · -- set
    rename_i hop
    obtain ⟨h0, h1⟩ := f4 hop
    obtain ⟨v, hv⟩ := optimize_set_returns g ins h0 h1
    simp only [bind, Except.bind, hv]
    refine hsame v ?_
    obtain ⟨s, si, -, hcase⟩ := optimize_set_inv g v ins hv
    rcases hcase with ⟨-, -, hv'⟩ | ⟨d, di, -, hv'⟩
    · rw [hv']; exact hwf
    · rw [hv']; exact SlotsWF_of_SameSlots ⟨rfl, rfl, rfl⟩ hwf
  · rename_i hop
    exact hiffy (Or.inl hop)
  · rename_i hop
    exact hiffy (Or.inr hop)
  · exact hsame g hwf

/-- The forward loop returns on instructions with well-formed operands. -/
theorem optimize_bb_forward_total (tc : MVMThreadContext) (ht : TableOK tc) (bb : BBRef)
    (l : List MVMSpeshIns) :
    ∀ g : MVMSpeshGraph, (∀ i ∈ l, FwdOK i ∧ RevOK i) → SlotsWF g →
      ((∃ i ∈ l, isCond i) → (g.bbs bb).linear_next ≠ none) →
      ∃ g' out, optimize_bb_forward tc bb g l = .ok (g', out) ∧ SlotsWF g' ∧
        (∀ i' ∈ out, FwdOK i' ∧ RevOK i') ∧ ((∃ i' ∈ out, isCond i') → ∃ i ∈ l, isCond i) := by
  induction l with
  | nil =>
    intro g _ hwf _
    exact ⟨g, [], rfl, hwf, fun i hi => absurd hi (List.not_mem_nil i),
      fun ⟨i, hi, _⟩ => absurd hi (List.not_mem_nil i)⟩
  | cons i l ih =>
    intro g hs hwf hln
    obtain ⟨g1, r, h1, hwf1, hr1⟩ := optimize_bb_forward_ins_total tc ht g bb i
      (hs i (List.mem_cons_self _ _)).1 (hs i (List.mem_cons_self _ _)).2 hwf
      (fun hc => hln ⟨i, List.mem_cons_self _ _, hc⟩)
    have hnext : (g1.bbs bb).linear_next = (g.bbs bb).linear_next :=
      ((optimize_bb_forward_ins_frame tc ht.1 g g1 bb i r h1).1 bb).2.2.1
    obtain ⟨g2, out, h2, hwf2, hs2, hc2⟩ := ih g1
      (fun j hj => hs j (List.mem_cons_of_mem _ hj)) hwf1
      (fun ⟨j, hj, hc⟩ => by rw [hnext]; exact hln ⟨j, List.mem_cons_of_mem _ hj, hc⟩)
    refine ⟨g2, _, by simp only [optimize_bb_forward, bind, Except.bind, h1, h2]; rfl, hwf2,
      ?_, ?_⟩
    · intro i' hi'
      cases r with
      | none => exact hs2 i' hi'
      | some j =>
        rcases List.mem_cons.1 hi' with hi' | hi'
        · rw [hi']
          exact ⟨(hr1 j rfl).1, (hr1 j rfl).2.1⟩
        · exact hs2 i' hi'
    · rintro ⟨i', hi', hc'⟩
      cases r with
      | none =>
        obtain ⟨j, hj, hc⟩ := hc2 ⟨i', hi', hc'⟩
        exact ⟨j, List.mem_cons_of_mem _ hj, hc⟩
      | some j =>
        rcases List.mem_cons.1 hi' with hi' | hi'
        · rw [hi'] at hc'
          exact ⟨i, List.mem_cons_self _ _, (hr1 j rfl).2.2 hc'⟩
        · obtain ⟨j', hj', hc⟩ := hc2 ⟨i', hi', hc'⟩
          exact ⟨j', List.mem_cons_of_mem _ hj', hc⟩

/-- One step of the reverse loop returns on an instruction with well-formed
operands. -/
theorem optimize_bb_reverse_ins_total (g : MVMSpeshGraph) (ins : MVMSpeshIns) (hr : RevOK ins) :
    ∃ v, optimize_bb_reverse_ins g ins = .ok v := by
  obtain ⟨r0, rj⟩ := hr
  have hprop : ∀ (phi : Bool), (phi = true → ins.info.opcode = MVM_SSA_PHI) →
      propagate_non_usage phi ins g (List.range' 1 (ins.info.num_operands - 1)) =
        .ok (withUsagesTaken g
          (usagesTaken phi ins (List.range' 1 (ins.info.num_operands - 1)))) := by
    intro phi hphi
    apply propagate_non_usage_ok
    intro j hj ht
    apply (isReg_iff _).1
    apply rj j hj
    simp only [takesUsage, Bool.or_eq_true, decide_eq_true_eq] at ht
    rcases ht with ht | ht
    · exact Or.inl (hphi ht)
    · exact Or.inr ht
  unfold optimize_bb_reverse_ins
  split
  · rename_i hphi
    obtain ⟨o, k, h0⟩ := (isReg_iff _).1 (r0 (Or.inl hphi))
    rw [h0]
    simp only [get_facts, bind, Except.bind]
    split
    · rw [hprop true (fun _ => hphi)]
      exact ⟨_, rfl⟩
    · exact ⟨_, rfl⟩
  · rename_i hphi
    split
    · rename_i hpure
      split
      · rename_i hw
        obtain ⟨o, k, h0⟩ := (isReg_iff _).1 (r0 (Or.inr ⟨hpure, hw⟩))
        rw [h0]
        simp only [get_facts, bind, Except.bind]
        split
        · rw [hprop false (fun hh => Bool.noConfusion hh)]
          exact ⟨_, rfl⟩
        · exact ⟨_, rfl⟩
      · exact ⟨_, rfl⟩
    · exact ⟨_, rfl⟩

/-- The reverse loop returns on instructions with well-formed operands. -/
theorem optimize_bb_reverse_total (l : List MVMSpeshIns) :
    ∀ (g : MVMSpeshGraph) (kept : List MVMSpeshIns), (∀ i ∈ l, RevOK i) →
      ∃ v, optimize_bb_reverse g l kept = .ok v := by
  induction l with
  | nil => intro g kept _; exact ⟨_, rfl⟩
  | cons i l ih =>
    intro g kept hs
    obtain ⟨v1, h1⟩ := optimize_bb_reverse_ins_total g i (hs i (List.mem_cons_self _ _))
    simp only [optimize_bb_reverse, bind, Except.bind, h1]
    exact ih _ _ (fun j hj => hs j (List.mem_cons_of_mem _ hj))

/-- The loop over the children returns when the recursive call does. -/
theorem optimize_children_total (tc : MVMThreadContext)
    (htc : ∀ op, (tc.MVM_op_get_op op).opcode = op) (R : List BBRef) (rk : BBRef → Nat)
    (fuel : Nat)
    (ih : ∀ (g : MVMSpeshGraph) (c : BBRef), c ∈ R → ChildClosed R g → RankOK R rk g →
      GraphWF R g → rk c < fuel → ∃ g', optimize_bb tc fuel g c = .ok g' ∧ GraphWF R g')
    (cs : List BBRef) :
    ∀ g : MVMSpeshGraph, (∀ c ∈ cs, c ∈ R ∧ rk c < fuel) → ChildClosed R g → RankOK R rk g →
      GraphWF R g →
      ∃ g', optimize_children (optimize_bb tc fuel) g cs = .ok g' ∧ GraphWF R g' := by
  induction cs with
  | nil => intro g _ _ _ hwf; exact ⟨g, rfl, hwf⟩
  | cons c cs ihc =>
    intro g hcs hcl hrk hwf
    obtain ⟨g1, h1, hwf1⟩ := ih g c (hcs c (List.mem_cons_self _ _)).1 hcl hrk hwf
      (hcs c (List.mem_cons_self _ _)).2
    have hch : ∀ b, (g1.bbs b).children = (g.bbs b).children :=
      fun b => ((optimize_bb_frame tc htc fuel g c g1 h1).1 b).1
    obtain ⟨g2, h2, hwf2⟩ := ihc g1 (fun c' hc' => hcs c' (List.mem_cons_of_mem _ hc'))
      (fun b hb c' hc' => by rw [hch b] at hc'; exact hcl b hb c' hc')
      (fun b hb c' hc' => by rw [hch b] at hc'; exact hrk b hb c' hc') hwf1
    exact ⟨g2, by simp only [optimize_children, bind, Except.bind, h1, h2], hwf2⟩

/-- With fuel above the rank of the block, `optimize_bb` returns on a graph
that is well formed in the blocks `R`, and leaves it well formed. -/
theorem optimize_bb_total (tc : MVMThreadContext) (ht : TableOK tc) (R : List BBRef)
    (rk : BBRef → Nat) (fuel : Nat) :
    ∀ (g : MVMSpeshGraph) (c : BBRef), c ∈ R → ChildClosed R g → RankOK R rk g →
      GraphWF R g → rk c < fuel → ∃ g', optimize_bb tc fuel g c = .ok g' ∧ GraphWF R g' := by
  induction fuel with
  | zero => intro g c _ _ _ _ h; omega
  | succ fuel ih =>
    intro g c hc hcl hrk hwf hlt
    obtain ⟨v1g, v1o, h1, hwf1, hs1, hc1⟩ := optimize_bb_forward_total tc ht c (g.bbs c).ins g
      (hwf.2 c hc).1 hwf.1 (hwf.2 c hc).2
    obtain ⟨a1, -⟩ := optimize_bb_forward_frame tc ht.1 c _ g v1g v1o h1
    have hself2 : (setIns v1g c v1o).bbs c = { v1g.bbs c with ins := v1o } :=
      setIns_bbs_self _ _ _
    have hch : ∀ b, ((setIns v1g c v1o).bbs b).children = (g.bbs b).children := by
      intro b
      by_cases hbc : b = c
      · rw [hbc, hself2]; exact (a1 c).2.2.2
      · rw [setIns_bbs_other _ _ _ b hbc]; exact (a1 b).2.2.2
    have hwf2 : GraphWF R (setIns v1g c v1o) := by
      refine ⟨hwf1, ?_⟩
      intro b hb
      by_cases hbc : b = c
      · rw [hbc, hself2]
        refine ⟨hs1, fun hex => ?_⟩
        show (v1g.bbs c).linear_next ≠ none
        rw [(a1 c).2.2.1]
        exact (hwf.2 c hc).2 (hc1 hex)
      · rw [setIns_bbs_other _ _ _ b hbc, (a1 b).2.1, (a1 b).2.2.1]
        exact hwf.2 b hb
    obtain ⟨g3, h2, hwf3⟩ := optimize_children_total tc ht.1 R rk fuel ih
      ((setIns v1g c v1o).bbs c).children (setIns v1g c v1o)
      (fun c' hc' => by
        rw [hch c] at hc'
        exact ⟨hcl c hc c' hc', by have := hrk c hc c' hc'; omega⟩)
      (fun b hb c' hc' => by rw [hch b] at hc'; exact hcl b hb c' hc')
      (fun b hb c' hc' => by rw [hch b] at hc'; exact hrk b hb c' hc') hwf2
    obtain ⟨v4, h3⟩ := optimize_bb_reverse_total (g3.bbs c).ins.reverse g3 []
      (fun i hi => ((hwf3.2 c hc).1 i (List.mem_reverse.1 hi)).2)
    obtain ⟨d1, d2, d3⟩ := optimize_bb_reverse_frame _ g3 v4.1 [] v4.2 h3
    rw [List.reverse_reverse, List.append_nil] at d3
    refine ⟨setIns v4.1 c v4.2, ?_, ?_⟩
    · rw [optimize_bb_eq]
      simp only [bind, Except.bind, h1, h2, h3]
    · refine ⟨SlotsWF_of_SameSlots d2 hwf3.1, ?_⟩
      intro b hb
      by_cases hbc : b = c
      · rw [hbc, setIns_bbs_self, d1.1]
        refine ⟨fun i hi => (hwf3.2 c hc).1 i (d3.subset hi), fun ⟨i, hi, hci⟩ => ?_⟩
        exact (hwf3.2 c hc).2 ⟨i, d3.subset hi, hci⟩
      · rw [setIns_bbs_other _ _ _ b hbc, d1.1]
        exact hwf3.2 b hb

/-- C18: dead producers are reclaimed through dominated descendants in one
sweep. Let the block `B` hold `pre ++ P :: post`, where `P` is pure and its
operand 0 is the write register `(d, di)`, and let `D` list the dominator-tree
descendants of `B`, the tree being of finite depth (a rank `rk` goes down from
a block to its children). Suppose the opcode table is sound and the
descriptors of the instructions of `B` and `D` come from it, `usages(d)` equals
the number of reads of `d` in `B` and `D`, none of these reads is in `pre` or
in `P`, and every instruction that reads `d` is a PHI or a pure instruction
with a write register as operand 0, whose operand 0 is a register of `X`; the
registers of `X` are unused: their usage count is 0 and no instruction of `B`
or `D` reads them. Then the call `optimize_bb(B)` ends, given fuel above the
rank of `B`: it never runs out of fuel, and on a graph that is well formed in
`B` and `D` (`GraphWF`) it returns. Whenever it returns, `usages(d) = 0`; no
instruction left in `B` or `D` reads `d` or is a removable instruction with
its operand 0 in `X` (all consumers are gone); and the instruction list of `B`
consists of survivors of what the forward pass made of `pre`, followed by
survivors of what it made of `post`: what it made of `P` is gone. -/
theorem optimize_bb_reclaims_producer (tc : MVMThreadContext) (ht : TableOK tc)
    (g : MVMSpeshGraph) (B : BBRef) (D : List BBRef) (X : List (Nat × Nat))
    (pre post : List MVMSpeshIns) (P : MVMSpeshIns) (d di : Nat) (rk : BBRef → Nat)
    (hB : (g.bbs B).ins = pre ++ P :: post)
    (hPp : P.info.pure = true)
    (hPw : P.info.operands.getD 0 MVM_operand_literal = MVM_operand_write_reg)
    (hP0 : P.operands[0]? = some (.reg d di))
    (hD : D.Nodup) (hBD : B ∉ D) (hDdom : ∀ b ∈ D, Dom g.bbs B b)
    (hcl : ∀ b ∈ B :: D, ∀ c ∈ (g.bbs b).children, c ∈ D)
    (hrk : RankOK (B :: D) rk g)
    (hok : ∀ b ∈ B :: D, ∀ i ∈ (g.bbs b).ins, InsOK tc i)
    (huse : (g.facts d di).usages = graphReads g (B :: D) d di)
    (hpre : ∀ i ∈ pre, insReads i d di = 0) (hPd : insReads P d di = 0)
    (hcons : ∀ b ∈ B :: D, ∀ i ∈ (g.bbs b).ins, insReads i d di ≠ 0 → DeadOn X i)
    (hX : ∀ x ∈ X, (g.facts x.1 x.2).usages = 0 ∧ graphReads g (B :: D) x.1 x.2 = 0) :
    (∀ n, optimize_bb tc (rk B + 1 + n) g B ≠ .error .outOfFuel) ∧
    (GraphWF (B :: D) g → ∀ n, ∃ g', optimize_bb tc (rk B + 1 + n) g B = .ok g') ∧
    ∀ fuel g', optimize_bb tc fuel g B = .ok g' →
      (g'.facts d di).usages = 0 ∧
      (∀ b ∈ B :: D, ∀ i ∈ (g'.bbs b).ins, insReads i d di = 0 ∧ ¬ DeadOn X i) ∧
      ∃ ga outPre gb P' gc outPost keptPre keptPost,
        optimize_bb_forward tc B g pre = .ok (ga, outPre) ∧
        optimize_bb_forward_ins tc ga B P = .ok (gb, some P') ∧
        optimize_bb_forward tc B gb post = .ok (gc, outPost) ∧
        keptPre.Sublist outPre ∧ keptPost.Sublist outPost ∧
        (g'.bbs B).ins = keptPre ++ keptPost := by
  have hBR : B ∈ B :: D := List.mem_cons_self _ _
  have hclR : ChildClosed (B :: D) g := fun b hb c hc => List.mem_cons_of_mem _ (hcl b hb c hc)
  refine ⟨fun n => ?_, fun hwf n => ?_, fun fuel g' hrun => ?_⟩
  · exact optimize_bb_fuel tc ht.1 (B :: D) rk _ g B hBR hclR hrk (by omega)
  · obtain ⟨g', hg', -⟩ :=
      optimize_bb_total tc ht (B :: D) rk _ g B hBR hclR hrk hwf (show rk B < rk B + 1 + n by omega)
    exact ⟨g', hg'⟩
  · exact optimize_bb_reclaim_sweep tc ht fuel g g' B D X pre post P d di hB hPp hPw hP0 hD hBD
      hDdom hcl hok huse hpre hPd hcons hX hrun

/-- Witness for `optimize_bb_reclaims_producer`: `gReclaim` is well formed; the
call `optimize_bb(BB0)` returns for every fuel from 2 on; both consumers and
the producer are deleted and `r(0,0)` is left with no usage. -/
theorem optimize_bb_reclaims_producer_witness :
    GraphWF [0, 1] gReclaim ∧
    (∀ n, ∃ g', optimize_bb tcUnknown (1 + 1 + n) gReclaim 0 = .ok g') ∧
    ∃ g', optimize_bb tcUnknown 2 gReclaim 0 = .ok g' ∧
      (g'.bbs 0).ins = [] ∧ (g'.bbs 1).ins = [] ∧
      (g'.facts 0 0).usages = 0 ∧
      (∀ b ∈ [0, 1], ∀ i ∈ (g'.bbs b).ins, insReads i 0 0 = 0 ∧ ¬ DeadOn [(1, 0), (2, 0)] i) := by
  have h := optimize_bb_reclaims_producer tcUnknown (TableOK_specOpTable _ _) gReclaim 0 [1]
    [(1, 0), (2, 0)] [] [⟨specOpTable MVM_OP_set, [.reg 2 0, .reg 0 0]⟩]
    ⟨specOpTable MVM_OP_const_i64, [.reg 0 0, .lit_i64 7]⟩ 0 0 (fun b => 1 - b)
    rfl rfl rfl rfl (by decide) (by decide)
    (fun b hb => by
      rw [List.mem_singleton] at hb
      rw [hb]
      exact Relation.ReflTransGen.single (by decide))
    (by decide) (by decide) (by decide) (by decide) (by decide) (by decide) (by decide) (by decide)
  have h3 := h.2.2 2 _ rfl
  exact ⟨by decide, h.2.1 (by decide), _, rfl, by decide, by decide, h3.1, h3.2.1⟩

end Spesh
